import Mathlib

/-!
# codetags: a verification development for `src/main.cpp`

The C++ program scans source files for annotation comments (`TODO:`, `FIXME:`, ...),
stamps each with an identifier `CT-XXXXXXXX`, and keeps an index of the tags.

Conventions of the embedding:

* a `std::string` is a `List Char`, one element per `char`;
* `std::string::npos` is `none` in an `Option Nat`;
* a `while` loop is a function recursive on a fuel argument; the entry point passes
  enough fuel for the loop to finish, and the theorems prove it;
* the draws of `dis(gen)` are read from a stream `rng : Nat → Fin 16` together with
  the count of draws made so far;
* `std::mutex db_mutex` is a Boolean field; an operation that would lock a mutex that
  is already held never returns, which is the result `none`;
* the file system is an explicit argument of every handler of the engine (`FileSystem`),
  and what comes from libraries (`fnmatch`, the time format) is taken from an `Env`;
* the texts written to the summary artifact are collected in `artifact_writes`, one for
  each call of `update_codetags_file`.
-/

namespace Codetags

/-- A `std::string`, one `Char` for each `char`. -/
abbrev Str := List Char

/-! ## `std::string` primitives -/

/-- Scan of `std::string::find`: `rest` is the text from index `i` on. -/
def find_scan (pat : Str) : Str → Nat → Option Nat
  | [], i => if pat.isPrefixOf [] then some i else none
  | c :: cs, i => if pat.isPrefixOf (c :: cs) then some i else find_scan pat cs (i + 1)

/-- Model of `s.find(pat, pos)`: the least index `≥ pos` at which `pat` occurs. -/
def find (s pat : Str) (pos : Nat) : Option Nat :=
  if pos ≤ s.length then find_scan pat (s.drop pos) pos else none

/-- Model of `s.substr(pos)` for `pos ≤ s.size()`. -/
def substr_from (s : Str) (pos : Nat) : Str := s.drop pos

/-- Model of `s.substr(pos, n)` for `pos ≤ s.size()`. -/
def substr (s : Str) (pos n : Nat) : Str := (s.drop pos).take n

/-- Scan of `std::string::find_first_not_of`. -/
def find_first_not_of_scan (set : Str) : Str → Nat → Option Nat
  | [], _ => none
  | c :: cs, i => if set.contains c then find_first_not_of_scan set cs (i + 1) else some i

/-- Model of `s.find_first_not_of(set)`. -/
def find_first_not_of (s set : Str) : Option Nat := find_first_not_of_scan set s 0

/-- Model of `s.erase(0, n)`, where `n` may be `npos`. -/
def erase_front (s : Str) : Option Nat → Str
  | none => []
  | some n => s.drop n

/-- Scan of `std::string::find_last_of`: `last` is the last index seen so far. -/
def find_last_of_scan (c : Char) : Str → Nat → Option Nat → Option Nat
  | [], _, last => last
  | x :: xs, i, last => find_last_of_scan c xs (i + 1) (if x = c then some i else last)

/-- Model of `s.find_last_of(c)`. -/
def find_last_of (s : Str) (c : Char) : Option Nat := find_last_of_scan c s 0 none

/-- Model of `s.insert(pos, t)` for `pos ≤ s.size()`. -/
def insert_at (s : Str) (pos : Nat) (t : Str) : Str := s.take pos ++ t ++ s.drop pos

/-- Model of `std::isalnum` in the "C" locale. -/
def isalnum (c : Char) : Bool :=
  ('0' ≤ c && c ≤ '9') || ('A' ≤ c && c ≤ 'Z') || ('a' ≤ c && c ≤ 'z')

/-- The test `(c >= '0' && c <= '9') || (c >= 'A' && c <= 'F')` of the id scanners. -/
def is_upper_hex (c : Char) : Bool :=
  ('0' ≤ c && c ≤ '9') || ('A' ≤ c && c ≤ 'F')

/-- The idiom `s.erase(0, s.find_first_not_of(" \t"))`. -/
def strip_leading (s : Str) : Str := erase_front s (find_first_not_of s [' ', '\t'])

/-! ## TagParser -/

/-- The member `tag_types`, a `std::set<std::string>`, in its iteration order. -/
def tag_types : List Str :=
  ["BUG".toList, "FIX".toList, "FIXME".toList, "NOTE".toList, "TODO".toList,
   "WARN".toList, "WARNING".toList]

/-- The comment-marker test of `is_tag_line` for a keyword found at `pos`. -/
def comment_before (line : Str) (pos : Nat) : Bool :=
  (match find line "//".toList 0 with | some d => decide (d ≤ pos) | none => false) ||
  (match find line "/*".toList 0 with | some d => decide (d ≤ pos) | none => false) ||
  (match find line "#".toList 0 with | some d => decide (d ≤ pos) | none => false)

/-- Loop of `is_tag_line` over the remaining keyword types; the result is
`(tag_type, content)` when the function returns true. -/
def is_tag_line_loop (line : Str) : List Str → Option (Str × Str)
  | [] => none
  | type :: rest =>
    let pattern := type ++ [':']
    match find line pattern 0 with
    | some pos =>
      if comment_before line pos then
        some (type, strip_leading (substr_from line (pos + pattern.length)))
      else is_tag_line_loop line rest
    | none => is_tag_line_loop line rest

/-- Model of `TagParser::is_tag_line`: `none` is the result `false`, `some (tag_type, content)`
is the result `true` with the two out-parameters. -/
def is_tag_line (line : Str) : Option (Str × Str) := is_tag_line_loop line tag_types

/-- The inner validity loop of `has_codetag_id` over indices 4..9 of the candidate. -/
def has_id_digits_valid (cand : Str) : Bool :=
  (List.range 6).all fun k => is_upper_hex (cand.getD (4 + k) ' ')

/-- The `while` loop of `has_codetag_id`, started at `pos`. -/
def has_codetag_id_loop (line : Str) : Nat → Nat → Bool
  | 0, _ => false
  | fuel + 1, pos0 =>
    match find line "[CT-".toList pos0 with
    | none => false
    | some pos =>
      let found :=
        match find line "]".toList pos with
        | some e =>
          if pos < e then
            let id_candidate := substr line pos (e - pos + 1)
            id_candidate.length == 12 && id_candidate.getD 10 ' ' == ']' &&
              has_id_digits_valid id_candidate
          else false
        | none => false
      if found then true else has_codetag_id_loop line fuel (pos + 1)

/-- Model of `TagParser::has_codetag_id`. -/
def has_codetag_id (line : Str) : Bool := has_codetag_id_loop line (line.length + 1) 0

/-- The acceptance test of `extract_codetag_id` at an index `pos` where `"CT-"` was found. -/
def id_accepted_at (line : Str) (pos : Nat) : Bool :=
  if pos + 11 ≤ line.length && (pos == 0 || !isalnum (line.getD (pos - 1) ' ')) then
    let valid := (List.range 8).all fun k => is_upper_hex (line.getD (pos + 3 + k) ' ')
    valid && (decide (line.length ≤ pos + 11) || !isalnum (line.getD (pos + 11) ' '))
  else false

/-- The `while` loop of `extract_codetag_id`, started at `pos`. -/
def extract_codetag_id_loop (line : Str) : Nat → Nat → Str
  | 0, _ => []
  | fuel + 1, pos0 =>
    match find line "CT-".toList pos0 with
    | none => []
    | some pos =>
      if id_accepted_at line pos then substr line pos 11
      else extract_codetag_id_loop line fuel (pos + 1)

/-- Model of `TagParser::extract_codetag_id`. -/
def extract_codetag_id (line : Str) : Str := extract_codetag_id_loop line (line.length + 1) 0

/-- Loop of `add_codetag_id` over the remaining keyword types. -/
def add_codetag_id_loop (line id : Str) : List Str → Str
  | [] => line
  | type :: rest =>
    let pattern := type ++ [':']
    match find line pattern 0 with
    | some pos => insert_at line (pos + pattern.length) (' ' :: id)
    | none => add_codetag_id_loop line id rest

/-- Model of `TagParser::add_codetag_id`; the result is the new value of `line`. -/
def add_codetag_id (line id : Str) : Str :=
  if !(extract_codetag_id line).isEmpty then line
  else add_codetag_id_loop line id tag_types

/-- The string `"0123456789ABCDEF"` indexed by one draw of `dis(gen)`. -/
def hex_digit (d : Fin 16) : Char := "0123456789ABCDEF".toList.getD d.val '0'

/-- Model of `TagParser::generate_id`: `rng k` is the value of the `k`-th draw of
`dis(gen)` and `n` the number of draws made so far; returns the id and the new count. -/
def generate_id (rng : Nat → Fin 16) (n : Nat) : Str × Nat :=
  ("CT-".toList ++ (List.range 8).map (fun i => hex_digit (rng (n + i))), n + 8)

/-- Model of `TagParser::get_file_relative_path`; `none` is the `std::out_of_range`
thrown by `substr` when its position is past the end of `file_path`. -/
def get_file_relative_path (file_path base_dir : Str) : Option Str :=
  if base_dir.length ≤ file_path.length && file_path.take base_dir.length == base_dir then
    if base_dir.length + 1 ≤ file_path.length then
      some (substr_from file_path (base_dir.length + 1))
    else none
  else some file_path

/-- The record `struct Tag`. -/
structure Tag where
  id : Str
  type : Str
  content : Str
  file_path : Str
  relative_path : Str
  line_number : Nat
  last_modified : Int
deriving DecidableEq, Repr

/-- The stamping pass of `parse_file` (first `for` loop) over the remaining lines:
returns the lines after the pass, the flag `modified`, and the count of draws. -/
def stamping_pass (rng : Nat → Fin 16) : List Str → Nat → List Str × Bool × Nat
  | [], n => ([], false, n)
  | current_line :: rest, n =>
    if (is_tag_line current_line).isSome && !has_codetag_id current_line then
      let new_id := generate_id rng n
      let r := stamping_pass rng rest new_id.2
      (add_codetag_id current_line new_id.1 :: r.1, true, r.2.2)
    else
      let r := stamping_pass rng rest n
      (current_line :: r.1, r.2.1, r.2.2)

/-- The id and content that the extraction pass of `parse_file` gives the tag of
`current_line`, for which `is_tag_line` returned `(tag_type, content)`; the third
component is the count of draws afterwards. -/
def tag_id_content (rng : Nat → Fin 16) (n : Nat) (current_line tag_type content : Str) :
    Str × Str × Nat :=
  let existing_id := extract_codetag_id current_line
  if !existing_id.isEmpty then
    match find current_line (tag_type ++ [':']) 0 with
    | some tag_pos =>
      let content_start := tag_pos + tag_type.length + 1
      let raw_content := strip_leading (substr_from current_line content_start)
      match find raw_content existing_id 0 with
      | some id_pos =>
        (existing_id,
         strip_leading
           (substr raw_content 0 id_pos ++ substr_from raw_content (id_pos + existing_id.length)),
         n)
      | none => (existing_id, raw_content, n)
    | none => (existing_id, content, n)
  else ((generate_id rng n).1, content, (generate_id rng n).2)

/-- The extraction pass of `parse_file` (second `for` loop) over the remaining lines;
`line_number` counts the lines already seen. `none` is the exception of
`get_file_relative_path`. -/
def extraction_pass (file_path base_dir : Str) (mtime : Int) (rng : Nat → Fin 16) :
    List Str → Nat → Nat → Option (List Tag)
  | [], _, _ => some []
  | current_line :: rest, line_number, n =>
    match is_tag_line current_line with
    | some (tag_type, content) =>
      match get_file_relative_path file_path base_dir with
      | none => none
      | some rel =>
        let ic := tag_id_content rng n current_line tag_type content
        match extraction_pass file_path base_dir mtime rng rest (line_number + 1) ic.2.2 with
        | none => none
        | some tags =>
          some ({ id := ic.1, type := tag_type, content := ic.2.1, file_path := file_path,
                  relative_path := rel, line_number := line_number + 1,
                  last_modified := mtime } :: tags)
    | none => extraction_pass file_path base_dir mtime rng rest (line_number + 1) n

/-- What one call of `parse_file` does. -/
structure ParseResult where
  /-- The lines after the stamping pass. -/
  lines : List Str
  /-- The flag `modified`: the file was rewritten with `lines`. -/
  modified : Bool
  /-- The returned vector; `none` when the call ended in an exception. -/
  tags : Option (List Tag)
deriving DecidableEq

/-- Model of `TagParser::parse_file`. `file` is the list of lines read by `getline`
(`none` when the file cannot be opened), `stat_mtime` is what `stat` reports after a
rewrite (`none` when it fails). -/
def parse_file (file : Option (List Str)) (file_path base_dir : Str) (mtime : Int)
    (stat_mtime : Option Int) (rng : Nat → Fin 16) : ParseResult :=
  match file with
  | none => { lines := [], modified := false, tags := some [] }
  | some lines0 =>
    let st := stamping_pass rng lines0 0
    let mtime1 := if st.2.1 then stat_mtime.getD mtime else mtime
    { lines := st.1, modified := st.2.1,
      tags := extraction_pass file_path base_dir mtime1 rng st.1 0 st.2.2 }

/-- Model of `TagParser::is_source_file`. -/
def is_source_file (ext : Str) : Bool :=
  ext == ".cpp".toList || ext == ".h".toList || ext == ".hpp".toList || ext == ".c".toList ||
  ext == ".java".toList || ext == ".js".toList || ext == ".ts".toList || ext == ".py".toList ||
  ext == ".rb".toList || ext == ".go".toList || ext == ".rs".toList || ext == ".php".toList

/-! ## TagDatabase -/

/-- Model of `m.find(k)` on an `unordered_map` held as a list of entries. -/
def map_find {β : Type} (m : List (Str × β)) (k : Str) : Option β :=
  match m with
  | [] => none
  | (k1, v) :: rest => if k1 = k then some v else map_find rest k

/-- Model of `m.erase(k)`. -/
def map_erase {β : Type} (m : List (Str × β)) (k : Str) : List (Str × β) :=
  m.filter fun e => !decide (e.1 = k)

/-- Model of `m[k] = v`: overwrite the entry of `k`, or add one. -/
def map_set {β : Type} (m : List (Str × β)) (k : Str) (v : β) : List (Str × β) :=
  match m with
  | [] => [(k, v)]
  | (k1, v1) :: rest => if k1 = k then (k, v) :: rest else (k1, v1) :: map_set rest k v

/-- Model of `s.insert(x)` on a `std::set<std::string>` held as a list. -/
def set_insert (s : List Str) (x : Str) : List Str := if x ∈ s then s else s ++ [x]

/-- Model of `s.erase(x)` on a `std::set<std::string>`. -/
def set_erase (s : List Str) (x : Str) : List Str := s.filter fun y => !decide (y = x)

/-- The class `TagDatabase`: `db_mutex` is true while the mutex is held. -/
structure TagDatabase where
  db_mutex : Bool
  tags_by_id : List (Str × Tag)
  file_to_ids : List (Str × List Str)
deriving DecidableEq

/-- A freshly constructed `TagDatabase`. -/
def TagDatabase.empty : TagDatabase := { db_mutex := false, tags_by_id := [], file_to_ids := [] }

/-- Construction of `std::lock_guard<std::mutex> lock(db_mutex)`: `std::mutex` is not
recursive, so locking it while it is held does not return (`none`). -/
def lock_guard (db : TagDatabase) : Option TagDatabase :=
  if db.db_mutex then none else some { db with db_mutex := true }

/-- Destruction of the `lock_guard` at the end of the scope. -/
def unlock_guard (db : TagDatabase) : TagDatabase := { db with db_mutex := false }

/-- Body of `add_tag`, run with the mutex held. -/
def add_tag_body (db : TagDatabase) (tag : Tag) : TagDatabase :=
  { db with
    tags_by_id := map_set db.tags_by_id tag.id tag
    file_to_ids :=
      map_set db.file_to_ids tag.file_path
        (set_insert ((map_find db.file_to_ids tag.file_path).getD []) tag.id) }

/-- Model of `TagDatabase::add_tag`. -/
def add_tag (db : TagDatabase) (tag : Tag) : Option TagDatabase :=
  (lock_guard db).map fun d => unlock_guard (add_tag_body d tag)

/-- Body of `remove_tag`, run with the mutex held. -/
def remove_tag_body (db : TagDatabase) (id : Str) : TagDatabase :=
  match map_find db.tags_by_id id with
  | some t =>
    let ids := set_erase ((map_find db.file_to_ids t.file_path).getD []) id
    let f1 := map_set db.file_to_ids t.file_path ids
    { db with
      file_to_ids := if ids.isEmpty then map_erase f1 t.file_path else f1
      tags_by_id := map_erase db.tags_by_id id }
  | none => db

/-- Model of `TagDatabase::remove_tag`. -/
def remove_tag (db : TagDatabase) (id : Str) : Option TagDatabase :=
  (lock_guard db).map fun d => unlock_guard (remove_tag_body d id)

/-- Body of `remove_tags_in_file`, run with the mutex held. -/
def remove_tags_in_file_body (db : TagDatabase) (file_path : Str) : TagDatabase :=
  match map_find db.file_to_ids file_path with
  | some ids =>
    { db with
      tags_by_id := ids.foldl map_erase db.tags_by_id
      file_to_ids := map_erase db.file_to_ids file_path }
  | none => db

/-- Model of `TagDatabase::remove_tags_in_file`. -/
def remove_tags_in_file (db : TagDatabase) (file_path : Str) : Option TagDatabase :=
  (lock_guard db).map fun d => unlock_guard (remove_tags_in_file_body d file_path)

/-- The test of `remove_tags_in_paths` on one tag path and one `bad_path`. -/
def path_is_under (file_path bad_path : Str) : Bool :=
  file_path == bad_path ||
    (decide (bad_path.length < file_path.length) &&
     substr file_path 0 bad_path.length == bad_path &&
     file_path.getD bad_path.length ' ' == '/')

/-- First loop of `remove_tags_in_paths`: the vector `ids_to_remove`. -/
def ids_to_remove (tags_by_id : List (Str × Tag)) (paths_to_remove : List Str) : List Str :=
  (tags_by_id.filter fun e => paths_to_remove.any fun bad_path =>
    path_is_under e.2.file_path bad_path).map fun e => e.1

/-- Second loop of `remove_tags_in_paths`: one call of `remove_tag` for each id. -/
def remove_each (db : TagDatabase) : List Str → Option TagDatabase
  | [] => some db
  | id :: rest =>
    match remove_tag db id with
    | some d => remove_each d rest
    | none => none

/-- Model of `TagDatabase::remove_tags_in_paths`: it takes the lock and then calls
`remove_tag`, which takes the lock again. -/
def remove_tags_in_paths (db : TagDatabase) (paths_to_remove : List Str) :
    Option TagDatabase :=
  match lock_guard db with
  | none => none
  | some d =>
    (remove_each d (ids_to_remove d.tags_by_id paths_to_remove)).map unlock_guard

/-- Model of `TagDatabase::get_all_tags`. -/
def get_all_tags (db : TagDatabase) : Option (List Tag) :=
  (lock_guard db).map fun d => d.tags_by_id.map fun e => e.2

/-- Model of `TagDatabase::get_tag_ids_in_file`. -/
def get_tag_ids_in_file (db : TagDatabase) (file_path : Str) : Option (List Str) :=
  (lock_guard db).map fun d => (map_find d.file_to_ids file_path).getD []

/-- One call of a mutating operation of `TagDatabase`. -/
inductive DbOp where
  | add_tag (tag : Tag)
  | remove_tag (id : Str)
  | remove_tags_in_file (file_path : Str)
  | remove_tags_in_paths (paths_to_remove : List Str)

/-- The effect of one operation. -/
def DbOp.apply (db : TagDatabase) : DbOp → Option TagDatabase
  | .add_tag tag => Codetags.add_tag db tag
  | .remove_tag id => Codetags.remove_tag db id
  | .remove_tags_in_file p => Codetags.remove_tags_in_file db p
  | .remove_tags_in_paths ps => Codetags.remove_tags_in_paths db ps

/-- The effect of a sequence of operations, each of which has to return. -/
def run_ops (db : TagDatabase) : List DbOp → Option TagDatabase
  | [] => some db
  | op :: rest =>
    match op.apply db with
    | some d => run_ops d rest
    | none => none

/-- A state reachable from the empty database by calls that returned. -/
def Reachable (db : TagDatabase) : Prop := ∃ ops, run_ops TagDatabase.empty ops = some db

/-! ## FileWatcher: ignore patterns -/

/-- The `*` of a glob under `FNM_PATHNAME`: it takes any run of characters other
than `/`, and `k` matches what is left. -/
def fnmatch_star (k : Str → Bool) : Str → Bool
  | [] => k []
  | c :: s => k (c :: s) || (c != '/' && fnmatch_star k s)

/-- The body of a bracket expression, read for the character `c`: single characters
and ranges `lo-hi` up to the closing `]` (which is an ordinary character in first
place). Returns whether `c` is listed and the pattern after the `]`; `none` when no
`]` closes the expression. -/
def bracket_scan (c : Char) : Nat → Str → Bool → Bool → Option (Bool × Str)
  | 0, _, _, _ => none
  | _ + 1, [], _, _ => none
  | fuel + 1, x :: rest, first, acc =>
    if x == ']' && !first then some (acc, rest)
    else
      match rest with
      | '-' :: hi :: rest2 =>
        if hi != ']' then
          bracket_scan c fuel rest2 false (acc || (decide (x ≤ c) && decide (c ≤ hi)))
        else bracket_scan c fuel rest false (acc || c == x)
      | _ => bracket_scan c fuel rest false (acc || c == x)

/-- Glob matching with fuel for the length of the pattern. -/
def fnmatch_fuel : Nat → Str → Str → Bool
  | 0, _, _ => false
  | fuel + 1, pat, s =>
    match pat with
    | [] => s.isEmpty
    | '*' :: p => fnmatch_star (fnmatch_fuel fuel p) s
    | '?' :: p =>
      match s with
      | c :: s1 => c != '/' && fnmatch_fuel fuel p s1
      | [] => false
    | ['\\'] => false
    | '\\' :: x :: p =>
      match s with
      | c :: s1 => c == x && fnmatch_fuel fuel p s1
      | [] => false
    | '[' :: p =>
      match s with
      | c :: s1 =>
        let negated := p.head? == some '!' || p.head? == some '^'
        match bracket_scan c p.length (if negated then p.drop 1 else p) true false with
        | some (listed, p1) => c != '/' && (listed != negated) && fnmatch_fuel fuel p1 s1
        | none => c == '[' && fnmatch_fuel fuel p s1
      | [] => false
    | x :: p =>
      match s with
      | c :: s1 => c == x && fnmatch_fuel fuel p s1
      | [] => false

/-- Model of the C library call `fnmatch(pattern, string, FNM_PATHNAME) == 0`, after
POSIX: `*` and `?` do not match `/`, a bracket expression lists characters and ranges
(no character classes), a backslash quotes the next character. -/
def fnmatch_pathname (pattern string : Str) : Bool :=
  fnmatch_fuel (pattern.length + 1) pattern string

/-- The `while` loop of `should_ignore` that appends the ancestor directories of
`temp`, each with a trailing `/`, to `paths_to_check`. -/
def ancestors_loop : Nat → Str → List Str
  | 0, _ => []
  | fuel + 1, temp =>
    if temp.isEmpty then []
    else
      match find_last_of temp '/' with
      | none => []
      | some last_slash =>
        (substr temp 0 last_slash ++ ['/']) :: ancestors_loop fuel (substr temp 0 last_slash)

/-- Model of `s.back() == '/'`. -/
def ends_with_slash (s : Str) : Bool := s.getLast? == some '/'

/-- The loop of `should_ignore` over `paths_to_check` for one pattern; `fnm p s` is
`fnmatch(p, s, FNM_PATHNAME) == 0`. -/
def check_paths_loop (fnm : Str → Str → Bool) (actual_pattern : Str)
    (match_dirs_only anchored : Bool) : List Str → Bool
  | [] => false
  | check_path :: rest =>
    let clean_check := if ends_with_slash check_path then check_path.dropLast else check_path
    if fnm actual_pattern clean_check then
      if match_dirs_only && !ends_with_slash check_path then
        check_paths_loop fnm actual_pattern match_dirs_only anchored rest
      else true
    else if !anchored && fnm ('*' :: actual_pattern) clean_check then
      if match_dirs_only && !ends_with_slash check_path then
        check_paths_loop fnm actual_pattern match_dirs_only anchored rest
      else true
    else check_paths_loop fnm actual_pattern match_dirs_only anchored rest

/-- The loop of `should_ignore` over `ignore_patterns`. -/
def patterns_loop (fnm : Str → Str → Bool) (rel_path : Str) : List Str → Bool
  | [] => false
  | pattern :: rest =>
    if pattern.isEmpty || pattern.head? == some '#' then patterns_loop fnm rel_path rest
    else
      let match_dirs_only := ends_with_slash pattern
      let p1 := if match_dirs_only then pattern.dropLast else pattern
      let anchored := p1.head? == some '/'
      let actual_pattern := if anchored then substr_from p1 1 else p1
      let paths_to_check := rel_path :: ancestors_loop (rel_path.length + 1) rel_path
      if check_paths_loop fnm actual_pattern match_dirs_only anchored paths_to_check then true
      else patterns_loop fnm rel_path rest

/-- Model of `FileWatcher::should_ignore` for the members `directory_path` and
`ignore_patterns`; `fnm p s` is `fnmatch(p, s, FNM_PATHNAME) == 0`. -/
def should_ignore (fnm : Str → Str → Bool) (directory_path : Str) (ignore_patterns : List Str)
    (path : Str) : Bool :=
  let n := directory_path.length
  if decide (n < path.length) && substr path 0 n == directory_path && path.getD n ' ' == '/' then
    let rel_path := substr_from path (n + 1)
    if rel_path.isEmpty then false else patterns_loop fnm rel_path ignore_patterns
  else if path == directory_path then false
  else if path.isEmpty then false else patterns_loop fnm path ignore_patterns

/-! ## The summary artifact -/

/-- The statement `grouped[tag.type].push_back(tag)` on the `std::map` `grouped`, held
as a list of entries in ascending key order. -/
def grouped_push : List (Str × List Tag) → Tag → List (Str × List Tag)
  | [], tag => [(tag.type, [tag])]
  | (k, v) :: rest, tag =>
    if tag.type = k then (k, v ++ [tag]) :: rest
    else if tag.type < k then (tag.type, [tag]) :: (k, v) :: rest
    else (k, v) :: grouped_push rest tag

/-- The three lines that `update_codetags_file` writes for one tag; `ft` is
`Utils::format_time`. -/
def render_tag (ft : Int → Str) (tag : Tag) : Str :=
  "- **[".toList ++ tag.id ++ "]** ".toList ++ tag.content ++ "\n".toList ++
  "  - *File:* ".toList ++ tag.relative_path ++ ":".toList ++
    (Nat.repr tag.line_number).toList ++ "\n".toList ++
  "  - *Modified:* ".toList ++ ft tag.last_modified ++ "\n".toList

/-- What `update_codetags_file` writes for one entry of `grouped`. -/
def render_group (ft : Int → Str) (g : Str × List Tag) : Str :=
  "## ".toList ++ g.1 ++ "\n".toList ++ (g.2.map (render_tag ft)).flatten

/-- The text that `update_codetags_file` writes for the vector `all_tags`. -/
def artifact_text (ft : Int → Str) (all_tags : List Tag) : Str :=
  "# Codetags\n".toList ++ ((all_tags.foldl grouped_push []).map (render_group ft)).flatten

/-! ## The file system -/

/-- What the engine can observe of one path. -/
structure FileEntry where
  /-- The result of `is_regular_file`. -/
  regular : Bool
  /-- The `st_mtime` that `stat` reports. -/
  mtime : Int
  /-- The lines `std::getline` reads; `none` when the file cannot be opened. -/
  lines : Option (List Str)
deriving DecidableEq

/-- The file system at one moment: the existing paths, whether
`recursive_directory_iterator` throws, and the time stamp given to files written now. -/
structure FileSystem where
  entries : List (Str × FileEntry)
  iteration_fails : Bool
  now : Int
deriving DecidableEq

/-- Model of `stat(path, &st) == 0` with `st.st_mtime`. -/
def fs_stat (fs : FileSystem) (path : Str) : Option Int :=
  (map_find fs.entries path).map fun e => e.mtime

/-- Model of opening `path` with `std::ifstream` and reading it line by line. -/
def fs_read (fs : FileSystem) (path : Str) : Option (List Str) :=
  (map_find fs.entries path).bind fun e => e.lines

/-- Model of rewriting `path` with `std::ofstream`: the lines are replaced and the
modification time becomes `now`. -/
def fs_write (fs : FileSystem) (path : Str) (lines : List Str) : FileSystem :=
  { fs with
    entries :=
      map_set fs.entries path ({ regular := true, mtime := fs.now, lines := some lines }) }

/-- The regular files that `recursive_directory_iterator(root)` yields, each once. -/
def regular_files (fs : FileSystem) (root : Str) : List Str :=
  (fs.entries.map fun e => e.1).dedup.filter fun p =>
    (root ++ ['/']).isPrefixOf p &&
      (match map_find fs.entries p with
       | some e => e.regular
       | none => false)

/-- Model of `fs::path(p).filename()`: the text after the last `/`. -/
def path_filename (p : Str) : Str :=
  match find_last_of p '/' with
  | some k => substr_from p (k + 1)
  | none => p

/-- Model of `fs::path(p).extension()`, after the C++ standard: the text from the last
period of the file name, unless the file name is `.` or `..` or its only period is its
first character. -/
def path_extension (p : Str) : Str :=
  let f := path_filename p
  if f = ['.'] ∨ f = ['.', '.'] then []
  else
    match find_last_of f '.' with
    | some 0 => []
    | some k => substr_from f k
    | none => []

/-- Model of `fs::path(p).has_extension()`. -/
def path_has_extension (p : Str) : Bool := !(path_extension p).isEmpty

/-! ## FileWatcher: the engine -/

/-- The members of `FileWatcher` that the event handlers use. `artifact_writes` lists
the texts written to `codetags_file`, one for each call of `update_codetags_file`, and
`parse_calls` counts the calls of `parse_file`. -/
structure FileWatcher where
  directory_path : Str
  ignore_patterns : List Str
  tag_db : TagDatabase
  last_known_mtime : List (Str × Int)
  currently_ignored_files : List Str
  artifact_writes : List Str
  parse_calls : Nat
deriving DecidableEq

/-- What the engine takes from outside the repository's code: the glob matcher
`fnmatch(.., FNM_PATHNAME) == 0`, the time format of `Utils::format_time`, and for each
call of `parse_file` the stream of draws it sees. -/
structure Env where
  fnm : Str → Str → Bool
  ft : Int → Str
  rng : Nat → Nat → Fin 16

/-- Model of `FileWatcher::load_ignore_patterns`. -/
def load_ignore_patterns (w : FileWatcher) (fs : FileSystem) : FileWatcher :=
  { w with ignore_patterns :=
      match fs_read fs (w.directory_path ++ "/.ctagsignore".toList) with
      | none => []
      | some lines =>
        lines.filter fun line =>
          !line.isEmpty && line.head? != some '#' && line.head? != some ' ' }

/-- The constructor `FileWatcher(dir_path, db)`. -/
def FileWatcher.create (dir_path : Str) (db : TagDatabase) (fs : FileSystem) : FileWatcher :=
  load_ignore_patterns
    { directory_path := dir_path, ignore_patterns := [], tag_db := db, last_known_mtime := [],
      currently_ignored_files := [], artifact_writes := [], parse_calls := 0 } fs

/-- Model of `FileWatcher::update_codetags_file`. -/
def update_codetags_file (env : Env) (w : FileWatcher) : Option FileWatcher :=
  (get_all_tags w.tag_db).map fun all_tags =>
    { w with artifact_writes := w.artifact_writes ++ [artifact_text env.ft all_tags] }

/-- The loop `for (const auto& tag : new_tags) tag_db->add_tag(tag)`. -/
def add_each (db : TagDatabase) : List Tag → Option TagDatabase
  | [] => some db
  | tag :: rest =>
    match add_tag db tag with
    | some d => add_each d rest
    | none => none

/-- The branch of `process_file_event` shared by an ignored path and a failed `stat`. -/
def drop_file (env : Env) (w : FileWatcher) (fs : FileSystem) (filepath : Str) :
    Option (FileWatcher × FileSystem) :=
  match remove_tags_in_file w.tag_db filepath with
  | none => none
  | some db =>
    match update_codetags_file env { w with tag_db := db } with
    | none => none
    | some w1 =>
      some ({ w1 with last_known_mtime := map_erase w1.last_known_mtime filepath }, fs)

/-- The end of `process_file_event`: parse the file and replace its tags. `none` when
`parse_file` throws or a call on the index does not return. -/
def reparse_file (env : Env) (w : FileWatcher) (fs : FileSystem) (filepath : Str)
    (st_mtime : Int) : Option (FileWatcher × FileSystem) :=
  let r := parse_file (fs_read fs filepath) filepath w.directory_path st_mtime (some fs.now)
    (env.rng w.parse_calls)
  let fs1 := if r.modified then fs_write fs filepath r.lines else fs
  match r.tags with
  | none => none
  | some new_tags =>
    match get_tag_ids_in_file w.tag_db filepath with
    | none => none
    | some old_ids =>
      match remove_each w.tag_db old_ids with
      | none => none
      | some db1 =>
        match add_each db1 new_tags with
        | none => none
        | some db2 =>
          match update_codetags_file env
              { w with tag_db := db2, parse_calls := w.parse_calls + 1 } with
          | none => none
          | some w1 => some (w1, fs1)

/-- Model of `FileWatcher::process_file_event`. -/
def process_file_event (env : Env) (w : FileWatcher) (fs : FileSystem) (filepath : Str) :
    Option (FileWatcher × FileSystem) :=
  if should_ignore env.fnm w.directory_path w.ignore_patterns filepath then
    drop_file env w fs filepath
  else if !path_has_extension filepath then some (w, fs)
  else if !is_source_file (path_extension filepath) then some (w, fs)
  else
    match fs_stat fs filepath with
    | none => drop_file env w fs filepath
    | some st_mtime =>
      if map_find w.last_known_mtime filepath = some st_mtime then some (w, fs)
      else
        reparse_file env
          { w with last_known_mtime := map_set w.last_known_mtime filepath st_mtime }
          fs filepath st_mtime

/-- A loop that calls `process_file_event` for the paths of a list that pass `keep`. -/
def process_each (env : Env) (keep : Str → Bool) :
    FileWatcher × FileSystem → List Str → Option (FileWatcher × FileSystem)
  | st, [] => some st
  | st, filepath :: rest =>
    if keep filepath then
      match process_file_event env st.1 st.2 filepath with
      | some st1 => process_each env keep st1 rest
      | none => none
    else process_each env keep st rest

/-- The loop of `process_ignore_file_change` over `new_ignored_files`: a newly ignored
file loses its tags and its last known modification time. -/
def drop_newly_ignored (w : FileWatcher) : List Str → Option FileWatcher
  | [] => some w
  | filepath :: rest =>
    if filepath ∈ w.currently_ignored_files then drop_newly_ignored w rest
    else
      match remove_tags_in_file w.tag_db filepath with
      | none => none
      | some db =>
        drop_newly_ignored
          { w with tag_db := db,
                   last_known_mtime := map_erase w.last_known_mtime filepath } rest

/-- Model of `FileWatcher::process_ignore_file_change`. -/
def process_ignore_file_change (env : Env) (w0 : FileWatcher) (fs : FileSystem) :
    Option (FileWatcher × FileSystem) :=
  let w := load_ignore_patterns w0 fs
  if fs.iteration_fails then some (w, fs)
  else
    let files := regular_files fs w.directory_path
    let new_ignored_files :=
      files.filter fun p => should_ignore env.fnm w.directory_path w.ignore_patterns p
    let files_to_process :=
      files.filter fun p => !should_ignore env.fnm w.directory_path w.ignore_patterns p
    match drop_newly_ignored w new_ignored_files with
    | none => none
    | some w1 =>
      match process_each env (fun p => decide (p ∉ new_ignored_files)) (w1, fs)
          w.currently_ignored_files with
      | none => none
      | some st2 =>
        match process_each env (fun p => decide (p ∉ w.currently_ignored_files)) st2
            files_to_process with
        | none => none
        | some st3 =>
          match update_codetags_file env
              { st3.1 with currently_ignored_files := new_ignored_files } with
          | none => none
          | some w4 => some (w4, st3.2)

/-- The initial scan at the end of `FileWatcher::start`. -/
def initial_scan (env : Env) (w : FileWatcher) (fs : FileSystem) :
    Option (FileWatcher × FileSystem) :=
  if fs.iteration_fails then some ({ w with last_known_mtime := [] }, fs)
  else
    process_each env
      (fun p => !should_ignore env.fnm w.directory_path w.ignore_patterns p)
      ({ w with last_known_mtime := [] }, fs) (regular_files fs w.directory_path)

/-! ## CodetagsDaemon -/

/-- The record `struct Repository`. -/
structure Repository where
  name : Str
  path : Str
deriving DecidableEq

/-- The members of `CodetagsDaemon` that `load_and_watch_repos` uses. A
`shared_ptr<TagDatabase>` in `repo_databases` is held as the number of the object that
`make_shared` created; the object itself is the `tag_db` of the watcher of that name. -/
structure CodetagsDaemon where
  registered_repos_file : Str
  monitored_repos : List (Str × Repository)
  repo_watchers : List (Str × FileWatcher)
  repo_databases : List (Str × Nat)
  /-- How many `TagDatabase` objects `make_shared` has created so far. -/
  databases_made : Nat
deriving DecidableEq

/-- Model of `fs::exists(path)`. -/
def fs_exists (fs : FileSystem) (path : Str) : Bool := (map_find fs.entries path).isSome

/-- The first loop of `load_and_watch_repos`: one line of the registration list. -/
def register_line (fs : FileSystem) (new_repos : List (Str × Repository)) (line : Str) :
    List (Str × Repository) :=
  if line.isEmpty then new_repos
  else
    match find line [':'] 0 with
    | some pos =>
      if fs_exists fs (substr_from line (pos + 1)) then
        map_set new_repos (substr line 0 pos)
          ({ name := substr line 0 pos, path := substr_from line (pos + 1) })
      else new_repos
    | none => new_repos

/-- The loop of `load_and_watch_repos` over `to_remove`. -/
def remove_repos (d : CodetagsDaemon) : List Str → CodetagsDaemon
  | [] => d
  | name :: rest =>
    remove_repos
      { d with
        repo_watchers := map_erase d.repo_watchers name
        repo_databases := map_erase d.repo_databases name
        monitored_repos := map_erase d.monitored_repos name } rest

/-- The last loop of `load_and_watch_repos`, over the entries of `new_repos`:
a name that is not monitored gets a new database and a started watcher.
`FileWatcher::start` is its initial scan (`inotify_init1` is taken to succeed). -/
def add_repos (env : Env) :
    CodetagsDaemon × FileSystem → List (Str × Repository) → Option (CodetagsDaemon × FileSystem)
  | st, [] => some st
  | st, (name, repo) :: rest =>
    match map_find st.1.monitored_repos name with
    | some _ => add_repos env st rest
    | none =>
      match initial_scan env (FileWatcher.create repo.path TagDatabase.empty st.2) st.2 with
      | none => none
      | some ws =>
        add_repos env
          ({ st.1 with
             repo_databases := map_set st.1.repo_databases name st.1.databases_made
             databases_made := st.1.databases_made + 1
             repo_watchers := map_set st.1.repo_watchers name ws.1
             monitored_repos := map_set st.1.monitored_repos name repo }, ws.2) rest

/-- Model of `CodetagsDaemon::load_and_watch_repos`. -/
def load_and_watch_repos (env : Env) (d : CodetagsDaemon) (fs : FileSystem) :
    Option (CodetagsDaemon × FileSystem) :=
  let new_repos :=
    ((fs_read fs d.registered_repos_file).getD []).foldl (register_line fs) []
  let to_remove :=
    (d.monitored_repos.filter fun e => (map_find new_repos e.1).isNone).map fun e => e.1
  add_repos env (remove_repos d to_remove, fs) new_repos

/-- A daemon that monitors nothing yet. -/
def CodetagsDaemon.create (registered_repos_file : Str) : CodetagsDaemon :=
  { registered_repos_file := registered_repos_file, monitored_repos := [], repo_watchers := [],
    repo_databases := [], databases_made := 0 }

/-! ## Specification vocabulary -/

/-- The text `pat` stands in `s` at index `p`. -/
def occurs_at (pat s : Str) (p : Nat) : Prop := p ≤ s.length ∧ pat <+: s.drop p

instance (pat s : Str) (p : Nat) : Decidable (occurs_at pat s p) := by
  unfold occurs_at; infer_instance

/-- Index `p` is the leftmost one at which `pat` stands in `s`. -/
def first_occurrence (pat s : Str) (p : Nat) : Prop :=
  occurs_at pat s p ∧ ∀ q, q < p → ¬ occurs_at pat s q

/-- An identifier stands in `line` at index `p`: the marker `CT-` and 8 characters
from `0-9A-F`, with no alphanumeric character right before or right after. -/
def id_at (line : Str) (p : Nat) : Prop :=
  ∃ pre hex post, line = pre ++ ("CT-".toList ++ hex) ++ post ∧ pre.length = p ∧
    hex.length = 8 ∧ (∀ c ∈ hex, c ∈ "0123456789ABCDEF".toList) ∧
    (∀ c, pre.getLast? = some c → isalnum c = false) ∧
    (∀ c, post.head? = some c → isalnum c = false)

/-- The code's test at an index: `CT-` is found there and the acceptance test passes. -/
def valid_at (line : Str) (p : Nat) : Prop :=
  occurs_at "CT-".toList line p ∧ id_accepted_at line p = true

/-- A comment marker `//`, `/*` or `#` begins in `line` at index `m`. -/
def marker_at (line : Str) (m : Nat) : Prop :=
  occurs_at "//".toList line m ∨ occurs_at "/*".toList line m ∨ occurs_at "#".toList line m

/-- The line holds, at some index, a recognized keyword followed by `:`, with a
comment marker beginning at or before that index. -/
def keyword_after_marker (line : Str) : Prop :=
  ∃ K ∈ tag_types, ∃ p m, occurs_at (K ++ [':']) line p ∧ m ≤ p ∧ marker_at line m

/-- For some recognized keyword, the leftmost place where the keyword followed by `:`
stands in the line has a comment marker beginning at or before it. -/
def first_keyword_after_marker (line : Str) : Prop :=
  ∃ K ∈ tag_types, ∃ p m, first_occurrence (K ++ [':']) line p ∧ m ≤ p ∧ marker_at line m

/-- The text `s` without its leading spaces and tabs. -/
def lstrip (s : Str) : Str := s.dropWhile fun c => c == ' ' || c == '\t'

/-- The text `s` with the leftmost occurrence of `t` cut out; `s` itself when `t`
does not occur in it. -/
def cut_first (t : Str) : Str → Str
  | [] => []
  | c :: cs => if t.isPrefixOf (c :: cs) then (c :: cs).drop t.length else c :: cut_first t cs

/-- The text begins with a space or a tab. -/
def starts_blank (s : Str) : Prop := s.head? = some ' ' ∨ s.head? = some '\t'

/-- The text ends with a space or a tab. -/
def ends_blank (s : Str) : Prop := s.getLast? = some ' ' ∨ s.getLast? = some '\t'

instance (s : Str) : Decidable (starts_blank s) := by unfold starts_blank; infer_instance

instance (s : Str) : Decidable (ends_blank s) := by unfold ends_blank; infer_instance

/-- A sample stream of draws: every draw gives `d`. -/
def rng_const (d : Fin 16) : Nat → Fin 16 := fun _ => d

/-- A sample stream of draws: eight times 10, then 11 for ever. -/
def rng_ab : Nat → Fin 16 := fun k => if k < 8 then 10 else 11

/-- A sample tag with the given id and file path. -/
def sample_tag (id file_path : String) : Tag :=
  { id := id.toList, type := "TODO".toList, content := "fix".toList,
    file_path := file_path.toList, relative_path := file_path.toList,
    line_number := 1, last_modified := 0 }

/-- The two mappings of a database agree: an id is in the id set of a path exactly
when the id map holds a record with that id and that path. -/
def consistent (db : TagDatabase) : Prop :=
  ∀ (p id : Str), id ∈ (map_find db.file_to_ids p).getD [] ↔
    ∃ t, map_find db.tags_by_id id = some t ∧ t.file_path = p

/-- The tag that `parse_file` builds for the single line `// TODO: fix ` of `/r/a.cpp`
under `rng_const 10`. -/
def trailing_blank_tag : Tag :=
  { id := "CT-AAAAAAAA".toList, type := "TODO".toList, content := "fix ".toList,
    file_path := "/r/a.cpp".toList, relative_path := "a.cpp".toList, line_number := 1,
    last_modified := 7 }

/-- The block of three lines that the artifact holds for one tag. -/
def tag_block (ft : Int → Str) (t : Tag) : Str :=
  ("- **[".toList ++ t.id ++ "]** ".toList ++ t.content) ++ ['\n'] ++
  ("  - *File:* ".toList ++ t.relative_path ++ [':'] ++ (Nat.repr t.line_number).toList) ++
    ['\n'] ++
  ("  - *Modified:* ".toList ++ ft t.last_modified) ++ ['\n']

/-- The section of the artifact for the type `T`: its heading line and the blocks of
the tags of that type, in the order of `tags`. -/
def type_section (ft : Int → Str) (tags : List Tag) (T : Str) : Str :=
  ("## ".toList ++ T) ++ ['\n'] ++
    ((tags.filter fun t => t.type = T).map (tag_block ft)).flatten

/-- Insertion of a type name into an ascending list without repetition. -/
def insert_type (x : Str) : List Str → List Str
  | [] => [x]
  | k :: ks => if x = k then k :: ks else if x < k then x :: k :: ks else k :: insert_type x ks

/-- The distinct types of a list of tags, in ascending order. -/
def type_keys (tags : List Tag) : List Str :=
  tags.foldl (fun ks t => insert_type t.type ks) []

/-- The entries of `grouped` for the type names `ks` once the tags `done` are in. -/
def grouped_of (done : List Tag) (ks : List Str) : List (Str × List Tag) :=
  ks.map fun T => (T, done.filter fun t => t.type = T)

/-- The representation invariant of a database between two calls: the mutex is free,
the id map has one entry for each key, and an entry is keyed by the id of its record. -/
def well_formed (db : TagDatabase) : Prop :=
  db.db_mutex = false ∧ (db.tags_by_id.map fun e => e.1).Nodup ∧
    ∀ e ∈ db.tags_by_id, e.2.id = e.1

/-- A sample index: two tags in `a.py`, one in `b.py`. -/
def sample_db : TagDatabase :=
  { db_mutex := false,
    tags_by_id := [("CT-00000001".toList, sample_tag "CT-00000001" "a.py"),
                   ("CT-00000002".toList, sample_tag "CT-00000002" "a.py"),
                   ("CT-00000003".toList, sample_tag "CT-00000003" "b.py")],
    file_to_ids := [("a.py".toList, ["CT-00000001".toList, "CT-00000002".toList]),
                    ("b.py".toList, ["CT-00000003".toList])] }

/-- The text holds none of the glob metacharacters `*`, `?`, `[` and backslash. -/
def glob_literal (p : Str) : Prop := ∀ c ∈ p, c ≠ '*' ∧ c ≠ '?' ∧ c ≠ '[' ∧ c ≠ '\\'

instance (p : Str) : Decidable (glob_literal p) := by unfold glob_literal; infer_instance

/-- The paths on which one run of `process_ignore_file_change` calls
`process_file_event`, in order, for the watcher `w` with its patterns reloaded: the
formerly ignored paths that are not ignored regular files now, then the regular files
that are not ignored and were not ignored before. -/
def ignore_change_calls (env : Env) (w : FileWatcher) (fs : FileSystem) : List Str :=
  (w.currently_ignored_files.filter fun p =>
      decide (p ∉ (regular_files fs w.directory_path).filter fun q =>
        should_ignore env.fnm w.directory_path w.ignore_patterns q)) ++
  (((regular_files fs w.directory_path).filter fun q =>
      !should_ignore env.fnm w.directory_path w.ignore_patterns q).filter fun p =>
    decide (p ∉ w.currently_ignored_files))

/-- A sample environment: the POSIX matcher, a constant time format, and draws that
are all 10. -/
def sample_env : Env :=
  { fnm := fnmatch_pathname, ft := fun _ => "T".toList, rng := fun _ => rng_const 10 }

/-- A sample tree: the repository `/repo` with the single file `D/a.cpp`. -/
def fs_tagged : FileSystem :=
  { entries := [("/repo/D/a.cpp".toList,
      { regular := true, mtime := 5, lines := some ["// TODO: x".toList] })],
    iteration_fails := false, now := 9 }

/-- The sample tree after `D` was moved out of the repository and the line `D/` was
written to `.ctagsignore`. -/
def fs_moved : FileSystem :=
  { entries := [("/repo/.ctagsignore".toList,
      { regular := true, mtime := 6, lines := some ["D/".toList] })],
    iteration_fails := false, now := 9 }

/-- A watcher of `/repo` right after its construction on the sample tree. -/
def fresh_watcher : FileWatcher := FileWatcher.create "/repo".toList TagDatabase.empty fs_tagged

/-- A watcher of `/repo` that knows `/repo/D/a.cpp` with the time 5 and holds one tag
of `/repo/gone.cpp`. -/
def sample_watcher : FileWatcher :=
  { directory_path := "/repo".toList, ignore_patterns := [],
    tag_db :=
      { db_mutex := false,
        tags_by_id := [("CT-00000001".toList, sample_tag "CT-00000001" "/repo/gone.cpp")],
        file_to_ids := [("/repo/gone.cpp".toList, ["CT-00000001".toList])] },
    last_known_mtime := [("/repo/D/a.cpp".toList, 5), ("/repo/gone.cpp".toList, 4)],
    currently_ignored_files := [], artifact_writes := [], parse_calls := 0 }

/-- How many times the path `p` stands in the list `l`. -/
def occurrences (p : Str) (l : List Str) : Nat := (l.filter fun q => decide (q = p)).length

/-- A directory entry of a sample tree. -/
def dir_entry : FileEntry := { regular := false, mtime := 1, lines := some [] }

/-- A sample tree with the directories `/p1` and `/p2` and a registration list that
holds `a:/p1`. -/
def fs_registered_p1 : FileSystem :=
  { entries := [("/p1".toList, dir_entry), ("/p2".toList, dir_entry),
      ("/home/.ctags/registered_repos.txt".toList,
        { regular := true, mtime := 2, lines := some ["a:/p1".toList] })],
    iteration_fails := false, now := 9 }

/-- The same tree after the registration of `a` was changed to `a:/p2`. -/
def fs_registered_p2 : FileSystem :=
  { entries := [("/p1".toList, dir_entry), ("/p2".toList, dir_entry),
      ("/home/.ctags/registered_repos.txt".toList,
        { regular := true, mtime := 3, lines := some ["a:/p2".toList] })],
    iteration_fails := false, now := 9 }

/-- The extensions that the specification lists as eligible. -/
def source_extensions : List Str :=
  [".cpp".toList, ".h".toList, ".hpp".toList, ".c".toList, ".java".toList, ".js".toList,
   ".ts".toList, ".py".toList, ".rb".toList, ".go".toList, ".rs".toList, ".php".toList]

/-- The tag types that the specification lists. -/
def spec_tag_types : List Str :=
  ["NOTE".toList, "TODO".toList, "WARNING".toList, "WARN".toList, "FIXME".toList,
   "FIX".toList, "BUG".toList]

/-- The shape of an identifier: `CT-` and 8 characters from `0-9A-F`. -/
def well_shaped_id (id : Str) : Prop :=
  ∃ hex : Str, id = "CT-".toList ++ hex ∧ hex.length = 8 ∧
    ∀ c ∈ hex, c ∈ "0123456789ABCDEF".toList

/-- A sample tree after the ignore file was changed from `old/` to `gen/`: `a.cpp` and
`gen/b.cpp` carry their ids, `a.cpp` was touched since, `old/c.cpp` was never parsed. -/
def fs_ignore_changed : FileSystem :=
  { entries := [("/repo/.ctagsignore".toList,
        { regular := true, mtime := 8, lines := some ["gen/".toList] }),
      ("/repo/a.cpp".toList,
        { regular := true, mtime := 6, lines := some ["// TODO: CT-11111111 x".toList] }),
      ("/repo/gen/b.cpp".toList,
        { regular := true, mtime := 5, lines := some ["// FIXME: CT-22222222 y".toList] }),
      ("/repo/old/c.cpp".toList,
        { regular := true, mtime := 4, lines := some ["// BUG: z".toList] })],
    iteration_fails := false, now := 9 }

/-- The same tree at a moment when the directory iteration throws. -/
def fs_ignore_unreadable : FileSystem := { fs_ignore_changed with iteration_fails := true }

/-- A watcher of `/repo` that ran under the pattern `old/`: it holds the tags of `a.cpp`
and `gen/b.cpp` and has `old/c.cpp` in its set of ignored files. -/
def ignoring_watcher : FileWatcher :=
  { directory_path := "/repo".toList, ignore_patterns := ["old/".toList],
    tag_db :=
      { db_mutex := false,
        tags_by_id := [("CT-11111111".toList, sample_tag "CT-11111111" "/repo/a.cpp"),
                       ("CT-22222222".toList, sample_tag "CT-22222222" "/repo/gen/b.cpp")],
        file_to_ids := [("/repo/a.cpp".toList, ["CT-11111111".toList]),
                        ("/repo/gen/b.cpp".toList, ["CT-22222222".toList])] },
    last_known_mtime := [("/repo/a.cpp".toList, 5), ("/repo/gen/b.cpp".toList, 5)],
    currently_ignored_files := ["/repo/old/c.cpp".toList], artifact_writes := [],
    parse_calls := 2 }

/-- A sample tree with the file `/repo/a.cpp` of two lines, the second a `TODO`. -/
def fs_todo : FileSystem :=
  { entries := [("/repo/README".toList,
        { regular := true, mtime := 3, lines := some ["notes".toList] }),
      ("/repo/a.cpp".toList,
        { regular := true, mtime := 5,
          lines := some ["int x;".toList, "// TODO: fix this".toList] })],
    iteration_fails := false, now := 9 }

/-! ## Facts about the string primitives -/

theorem find_scan_some (pat : Str) : ∀ (rest : Str) (i j : Nat), find_scan pat rest i = some j →
    i ≤ j ∧ j - i ≤ rest.length ∧ pat <+: rest.drop (j - i) ∧
      ∀ k, k < j - i → ¬ pat <+: rest.drop k := by
  intro rest
  induction rest with
  | nil =>
    intro i j h
    simp only [find_scan] at h
    split at h
    · rename_i hp
      have hij : i = j := by simpa using h
      subst hij
      refine ⟨le_refl _, by simp, ?_, ?_⟩
      · simpa using List.isPrefixOf_iff_prefix.mp hp
      · intro k hk; omega
    · exact absurd h (by simp)
  | cons c cs ih =>
    intro i j h
    simp only [find_scan] at h
    split at h
    · rename_i hp
      have hij : i = j := by simpa using h
      subst hij
      refine ⟨le_refl _, by simp, ?_, ?_⟩
      · simpa using List.isPrefixOf_iff_prefix.mp hp
      · intro k hk; omega
    · rename_i hp
      obtain ⟨h1, h2, h3, h4⟩ := ih (i + 1) j h
      have hji : j - i = (j - (i + 1)) + 1 := by omega
      refine ⟨by omega, ?_, ?_, ?_⟩
      · simp only [List.length_cons]; omega
      · rw [hji, List.drop_succ_cons]; exact h3
      · intro k hk
        cases k with
        | zero =>
          intro hpre
          exact hp (List.isPrefixOf_iff_prefix.mpr (by simpa using hpre))
        | succ k =>
          rw [List.drop_succ_cons]
          exact h4 k (by omega)

theorem find_scan_none (pat : Str) : ∀ (rest : Str) (i : Nat), find_scan pat rest i = none →
    ∀ k, k ≤ rest.length → ¬ pat <+: rest.drop k := by
  intro rest
  induction rest with
  | nil =>
    intro i h k hk
    simp only [find_scan] at h
    split at h
    · exact absurd h (by simp)
    · rename_i hp
      intro hpre
      have hk0 : k = 0 := by simpa using hk
      subst hk0
      exact hp (List.isPrefixOf_iff_prefix.mpr (by simpa using hpre))
  | cons c cs ih =>
    intro i h k hk
    simp only [find_scan] at h
    split at h
    · exact absurd h (by simp)
    · rename_i hp
      cases k with
      | zero =>
        intro hpre
        exact hp (List.isPrefixOf_iff_prefix.mpr (by simpa using hpre))
      | succ k =>
        rw [List.drop_succ_cons]
        exact ih (i + 1) h k (by simpa using hk)

theorem drop_add_drop (s : Str) (a b : Nat) : (s.drop a).drop b = s.drop (a + b) := by
  rw [List.drop_drop]

/-- What `find` returns is the leftmost occurrence at or after `pos`. -/
theorem find_some {s pat : Str} {pos j : Nat} (h : find s pat pos = some j) :
    pos ≤ j ∧ occurs_at pat s j ∧ ∀ q, pos ≤ q → q < j → ¬ occurs_at pat s q := by
  unfold find at h
  split at h
  · rename_i hpos
    obtain ⟨h1, h2, h3, h4⟩ := find_scan_some pat _ _ _ h
    have hlen : (s.drop pos).length = s.length - pos := by simp
    obtain ⟨d, rfl⟩ : ∃ d, j = pos + d := ⟨j - pos, by omega⟩
    rw [Nat.add_sub_cancel_left] at h2 h3 h4
    refine ⟨h1, ⟨by omega, ?_⟩, ?_⟩
    · rwa [drop_add_drop] at h3
    · intro q hq1 hq2 hocc
      obtain ⟨e, rfl⟩ : ∃ e, q = pos + e := ⟨q - pos, by omega⟩
      have := h4 e (by omega)
      rw [drop_add_drop] at this
      exact this hocc.2
  · exact absurd h (by simp)

/-- When `find` returns `npos` there is no occurrence at or after `pos`. -/
theorem find_none {s pat : Str} {pos : Nat} (h : find s pat pos = none) :
    ∀ q, pos ≤ q → ¬ occurs_at pat s q := by
  intro q hq hocc
  unfold find at h
  split at h
  · rename_i hpos
    obtain ⟨e, rfl⟩ : ∃ e, q = pos + e := ⟨q - pos, by omega⟩
    have := find_scan_none pat _ _ h e (by simp; have := hocc.1; omega)
    rw [drop_add_drop] at this
    exact this hocc.2
  · rename_i hpos
    have := hocc.1
    omega

/-- The result of `find` from index 0, as a specification. -/
theorem find_zero_iff {s pat : Str} {j : Nat} :
    find s pat 0 = some j ↔ first_occurrence pat s j := by
  constructor
  · intro h
    obtain ⟨_, h2, h3⟩ := find_some h
    exact ⟨h2, fun q hq => h3 q (Nat.zero_le _) hq⟩
  · intro h
    cases hf : find s pat 0 with
    | none => exact absurd h.1 (find_none hf j (Nat.zero_le _))
    | some k =>
      obtain ⟨_, h2, h3⟩ := find_some hf
      have h1 : ¬ k < j := fun hk => h.2 k hk h2
      have h4 : ¬ j < k := fun hk => h3 j (Nat.zero_le _) hk h.1
      have : k = j := by omega
      rw [this]

theorem find_first_not_of_scan_blank : ∀ (s : Str) (i : Nat),
    erase_front s ((find_first_not_of_scan [' ', '\t'] s i).map fun j => j - i) = lstrip s := by
  intro s
  induction s with
  | nil => intro i; rfl
  | cons c cs ih =>
    intro i
    simp only [find_first_not_of_scan, lstrip, List.dropWhile_cons]
    by_cases hc : (c == ' ' || c == '\t') = true
    · have hmem : [' ', '\t'].contains c = true := by
        simp only [Bool.or_eq_true, beq_iff_eq] at hc
        rcases hc with h | h <;> subst h <;> decide
      rw [if_pos hmem, if_pos hc]
      have h1 := ih (i + 1)
      cases hs : find_first_not_of_scan [' ', '\t'] cs (i + 1) with
      | none => rw [hs] at h1; simpa [erase_front, lstrip] using h1
      | some j =>
        rw [hs] at h1
        have hj : i + 1 ≤ j := by
          clear h1 ih
          induction cs generalizing i j with
          | nil => simp [find_first_not_of_scan] at hs
          | cons d ds ihd =>
            simp only [find_first_not_of_scan] at hs
            split at hs
            · have := ihd (i + 1) j hs; omega
            · injection hs with hs; omega
        simp only [Option.map_some', erase_front] at h1 ⊢
        have e : j - i = (j - (i + 1)) + 1 := by omega
        rw [e, List.drop_succ_cons]
        exact h1
    · have hmem : ¬ [' ', '\t'].contains c = true := by
        intro hm
        apply hc
        simp only [List.contains_cons, List.contains_nil, Bool.or_false, Bool.or_eq_true,
          beq_iff_eq] at hm ⊢
        exact hm
      rw [if_neg hmem, if_neg hc]
      simp [erase_front]

/-- The idiom `s.erase(0, s.find_first_not_of(" \t"))` drops the leading spaces and tabs. -/
theorem strip_leading_eq (s : Str) : strip_leading s = lstrip s := by
  have := find_first_not_of_scan_blank s 0
  unfold strip_leading find_first_not_of
  cases h : find_first_not_of_scan [' ', '\t'] s 0 with
  | none => rw [h] at this; simpa using this
  | some j => rw [h] at this; simpa using this

theorem lstrip_not_starts_blank (s : Str) : ¬ starts_blank (lstrip s) := by
  induction s with
  | nil => simp [lstrip, starts_blank]
  | cons c cs ih =>
    simp only [lstrip, List.dropWhile_cons]
    by_cases hc : (c == ' ' || c == '\t') = true
    · rw [if_pos hc]; exact ih
    · rw [if_neg hc]
      simp only [Bool.or_eq_true, beq_iff_eq] at hc
      simp only [starts_blank, List.head?_cons, Option.some.injEq]
      exact hc

theorem lstrip_of_not_starts_blank {s : Str} (h : ¬ starts_blank s) : lstrip s = s := by
  cases s with
  | nil => rfl
  | cons c cs =>
    simp only [starts_blank, List.head?_cons, Option.some.injEq] at h
    simp only [lstrip, List.dropWhile_cons]
    rw [if_neg]
    simpa [Bool.or_eq_true, beq_iff_eq] using h

theorem find_scan_cut (pat : Str) : ∀ (rest : Str) (i : Nat),
    (∀ j, find_scan pat rest i = some j →
      i ≤ j ∧ substr rest 0 (j - i) ++ substr_from rest (j - i + pat.length) = cut_first pat rest) ∧
    (find_scan pat rest i = none → cut_first pat rest = rest) := by
  intro rest
  induction rest with
  | nil =>
    intro i
    refine ⟨fun j h => ?_, fun _ => rfl⟩
    simp only [find_scan] at h
    split at h
    · injection h with h; subst h; simp [substr, substr_from, cut_first]
    · exact absurd h (by simp)
  | cons c cs ih =>
    intro i
    simp only [find_scan, cut_first]
    by_cases hp : pat.isPrefixOf (c :: cs) = true
    · rw [if_pos hp, if_pos hp]
      refine ⟨fun j h => ?_, fun h => absurd h (by simp)⟩
      injection h with h
      subst h
      simp [substr, substr_from]
    · rw [if_neg hp, if_neg hp]
      obtain ⟨h1, h2⟩ := ih (i + 1)
      refine ⟨fun j h => ?_, fun h => by rw [h2 h]⟩
      obtain ⟨hle, heq⟩ := h1 j h
      refine ⟨by omega, ?_⟩
      have e : j - i = (j - (i + 1)) + 1 := by omega
      rw [e, ← heq]
      simp [substr, substr_from, Nat.add_right_comm]

/-- Cutting the text found by `find` out of a string, as `parse_file` does for the id. -/
theorem find_cut (s pat : Str) :
    (∀ j, find s pat 0 = some j →
      substr s 0 j ++ substr_from s (j + pat.length) = cut_first pat s) ∧
    (find s pat 0 = none → cut_first pat s = s) := by
  have h := find_scan_cut pat s 0
  unfold find
  simp only [Nat.zero_le, if_true, List.drop_zero]
  exact ⟨fun j hj => by simpa using (h.1 j hj).2, h.2⟩

/-! ## `extract_codetag_id` -/

theorem is_upper_hex_iff (c : Char) :
    is_upper_hex c = true ↔ c ∈ "0123456789ABCDEF".toList := by
  constructor
  · intro h
    have hc : c = Char.ofNat c.toNat := (Char.ofNat_toNat c).symm
    have hb : (48 ≤ c.toNat ∧ c.toNat ≤ 57) ∨ (65 ≤ c.toNat ∧ c.toNat ≤ 70) := by
      simp only [is_upper_hex, Bool.or_eq_true, Bool.and_eq_true, decide_eq_true_eq] at h
      rcases h with ⟨h1, h2⟩ | ⟨h1, h2⟩
      · left; exact ⟨h1, h2⟩
      · right; exact ⟨h1, h2⟩
    generalize c.toNat = n at hc hb
    subst hc
    rcases hb with ⟨h1, h2⟩ | ⟨h1, h2⟩ <;> interval_cases n <;> decide
  · intro h
    simp only [String.toList, List.mem_cons, List.mem_nil_iff, or_false] at h
    rcases h with h | h | h | h | h | h | h | h | h | h | h | h | h | h | h | h <;>
      subst h <;> decide

theorem id_accepted_at_iff (line : Str) (pos : Nat) :
    id_accepted_at line pos = true ↔
      pos + 11 ≤ line.length ∧ (pos = 0 ∨ isalnum (line.getD (pos - 1) ' ') = false) ∧
      (∀ k, k < 8 → is_upper_hex (line.getD (pos + 3 + k) ' ') = true) ∧
      (line.length ≤ pos + 11 ∨ isalnum (line.getD (pos + 11) ' ') = false) := by
  unfold id_accepted_at
  split
  · rename_i h
    simp only [Bool.and_eq_true, decide_eq_true_eq, Bool.or_eq_true, beq_iff_eq,
      Bool.not_eq_true'] at h
    simp only [Bool.and_eq_true, List.all_eq_true, List.mem_range, Bool.or_eq_true,
      decide_eq_true_eq, Bool.not_eq_true']
    exact ⟨fun ⟨h1, h2⟩ => ⟨h.1, h.2, h1, h2⟩, fun ⟨_, _, h1, h2⟩ => ⟨h1, h2⟩⟩
  · rename_i h
    simp only [Bool.and_eq_true, decide_eq_true_eq, Bool.or_eq_true, beq_iff_eq,
      Bool.not_eq_true'] at h
    constructor
    · intro hf; exact absurd hf (by simp)
    · intro ⟨h1, h2, _, _⟩; exact absurd ⟨h1, h2⟩ h

theorem getD_append_at (pre rest : Str) (k : Nat) (d : Char) :
    (pre ++ rest).getD (pre.length + k) d = rest.getD k d := by
  simp [List.getD_eq_getElem?_getD, List.getElem?_append_right]

theorem getD_append_last (pre rest : Str) (d : Char) (h : pre ≠ []) :
    some ((pre ++ rest).getD (pre.length - 1) d) = pre.getLast? := by
  have hlen : 0 < pre.length := List.length_pos.mpr h
  rw [List.getD_eq_getElem?_getD, List.getElem?_append_left (by omega),
    List.getLast?_eq_getElem?]
  rw [List.getElem?_eq_getElem (by omega)]
  rfl

theorem valid_at_of_id_at {line : Str} {p : Nat} (h : id_at line p) : valid_at line p := by
  obtain ⟨pre, hex, post, hline, hp, hhex, hall, hpre, hpost⟩ := h
  subst hp
  have hlen : line.length = pre.length + 11 + post.length := by
    rw [hline]; simp [hhex, String.toList]; omega
  refine ⟨⟨by omega, ?_⟩, (id_accepted_at_iff _ _).mpr ⟨by omega, ?_, ?_, ?_⟩⟩
  · rw [hline, List.append_assoc, List.drop_left, List.append_assoc]
    exact List.prefix_append _ _
  · by_cases hnil : pre = []
    · left; simp [hnil]
    · right
      apply hpre
      rw [hline, List.append_assoc]
      exact (getD_append_last pre _ ' ' hnil).symm
  · intro k hk
    rw [is_upper_hex_iff]
    apply hall
    have e : pre.length + 3 + k = pre.length + (3 + k) := by omega
    rw [hline, List.append_assoc, e, getD_append_at, List.append_assoc]
    have e2 : ("CT-".toList ++ (hex ++ post)).getD ("CT-".toList.length + k) ' '
        = (hex ++ post).getD k ' ' := getD_append_at _ _ _ _
    have e3 : "CT-".toList.length = 3 := rfl
    rw [e3] at e2
    rw [e2, List.getD_eq_getElem?_getD, List.getElem?_append_left (by omega),
      List.getElem?_eq_getElem (by omega)]
    exact List.getElem_mem _
  · cases post with
    | nil => left; simp at hlen; omega
    | cons c post1 =>
      right
      have e : pre.length + 11 = (pre ++ ("CT-".toList ++ hex)).length + 0 := by
        simp [hhex, String.toList]
      rw [hline, e, getD_append_at]
      exact hpost c rfl

theorem id_at_of_valid_at {line : Str} {p : Nat} (h : valid_at line p) : id_at line p := by
  obtain ⟨⟨_, hocc⟩, hacc⟩ := h
  obtain ⟨h1, h2, h3, h4⟩ := (id_accepted_at_iff _ _).mp hacc
  obtain ⟨tail, htail⟩ := hocc
  have hline : line = line.take p ++ ("CT-".toList ++ tail) := by
    rw [htail]; exact (List.take_append_drop p line).symm
  have htl : tail.length = line.length - p - 3 := by
    have := congrArg List.length htail
    simp [String.toList] at this
    omega
  have hpl : (line.take p).length = p := by simp; omega
  have hget : ∀ k, line.getD (p + 3 + k) ' ' = tail.getD k ' ' := by
    intro k
    have e : p + 3 + k = (line.take p ++ "CT-".toList).length + k := by
      simp [String.toList]; omega
    rw [hline, ← List.append_assoc, e, getD_append_at]
  refine ⟨line.take p, tail.take 8, tail.drop 8, ?_, hpl, by simp; omega, ?_, ?_, ?_⟩
  · rw [List.append_assoc, List.append_assoc, List.take_append_drop]
    exact hline
  · intro c hc
    rw [← is_upper_hex_iff]
    obtain ⟨k, hk, rfl⟩ := List.getElem_of_mem hc
    have hk8 : k < 8 := by simp at hk; omega
    have := h3 k hk8
    rw [hget, List.getD_eq_getElem?_getD, List.getElem?_eq_getElem (by omega)] at this
    simpa [List.getElem_take] using this
  · intro c hc
    rcases h2 with h2 | h2
    · subst h2; simp at hc
    · have hne : line.take p ≠ [] := by
        intro hnil; rw [hnil] at hc; simp at hc
      have := getD_append_last (line.take p) ("CT-".toList ++ tail) ' ' hne
      rw [← hline, hpl, hc] at this
      injection this with this
      rw [← this]; exact h2
  · intro c hc
    rcases h4 with h4 | h4
    · have : tail.drop 8 = [] := by
        apply List.drop_eq_nil_of_le; omega
      rw [this] at hc; simp at hc
    · have e := hget 8
      rw [show p + 3 + 8 = p + 11 by omega] at e
      rw [e] at h4
      rw [List.head?_drop] at hc
      rw [List.getD_eq_getElem?_getD, hc] at h4
      exact h4

theorem valid_at_iff_id_at (line : Str) (p : Nat) : valid_at line p ↔ id_at line p :=
  ⟨id_at_of_valid_at, valid_at_of_id_at⟩

theorem valid_at_bound {line : Str} {p : Nat} (h : valid_at line p) : p + 11 ≤ line.length :=
  ((id_accepted_at_iff _ _).mp h.2).1

theorem substr_length {line : Str} {p n : Nat} (h : p + n ≤ line.length) :
    (substr line p n).length = n := by
  simp [substr]; omega

/-- The loop of `extract_codetag_id`, given fuel for the rest of the line, stops at
the leftmost accepted index. -/
theorem extract_codetag_id_loop_spec (line : Str) : ∀ (fuel pos0 : Nat),
    line.length < fuel + pos0 → (∀ q, q < pos0 → ¬ valid_at line q) →
    (extract_codetag_id_loop line fuel pos0 = [] ∧ ∀ p, ¬ valid_at line p) ∨
    (∃ p, valid_at line p ∧ (∀ q, q < p → ¬ valid_at line q) ∧
      extract_codetag_id_loop line fuel pos0 = substr line p 11) := by
  intro fuel
  induction fuel with
  | zero =>
    intro pos0 hfuel hbefore
    left
    refine ⟨rfl, fun p hp => hbefore p ?_ hp⟩
    have := valid_at_bound hp
    omega
  | succ fuel ih =>
    intro pos0 hfuel hbefore
    simp only [extract_codetag_id_loop]
    cases hf : find line "CT-".toList pos0 with
    | none =>
      left
      refine ⟨rfl, fun p hp => ?_⟩
      by_cases hlt : p < pos0
      · exact hbefore p hlt hp
      · exact find_none hf p (by omega) hp.1
    | some pos =>
      obtain ⟨hge, hocc, hfirst⟩ := find_some hf
      have hbefore2 : ∀ q, q < pos → ¬ valid_at line q := by
        intro q hq hv
        by_cases hlt : q < pos0
        · exact hbefore q hlt hv
        · exact hfirst q (by omega) hq hv.1
      by_cases hacc : id_accepted_at line pos = true
      · right
        refine ⟨pos, ⟨hocc, hacc⟩, hbefore2, ?_⟩
        simp [hacc]
      · have hstep := ih (pos + 1) (by omega) (by
          intro q hq hv
          by_cases hlt : q < pos
          · exact hbefore2 q hlt hv
          · have : q = pos := by omega
            subst this
            exact hacc hv.2)
        simpa [hacc] using hstep

/-! ## `is_tag_line` -/

theorem marker_test_iff (line pat : Str) (pos : Nat) :
    (match find line pat 0 with | some d => decide (d ≤ pos) | none => false) = true ↔
      ∃ m, m ≤ pos ∧ occurs_at pat line m := by
  cases hf : find line pat 0 with
  | none =>
    simp only [Bool.false_eq_true, false_iff]
    rintro ⟨m, _, hm⟩
    exact find_none hf m (Nat.zero_le _) hm
  | some d =>
    obtain ⟨_, hocc, hfirst⟩ := find_some hf
    simp only [decide_eq_true_eq]
    constructor
    · intro hd; exact ⟨d, hd, hocc⟩
    · rintro ⟨m, hm, hoccm⟩
      by_contra hlt
      exact hfirst m (Nat.zero_le _) (by omega) hoccm

theorem comment_before_iff (line : Str) (pos : Nat) :
    comment_before line pos = true ↔ ∃ m, m ≤ pos ∧ marker_at line m := by
  unfold comment_before marker_at
  simp only [Bool.or_eq_true, marker_test_iff]
  constructor
  · rintro ((⟨m, h1, h2⟩ | ⟨m, h1, h2⟩) | ⟨m, h1, h2⟩)
    · exact ⟨m, h1, Or.inl h2⟩
    · exact ⟨m, h1, Or.inr (Or.inl h2)⟩
    · exact ⟨m, h1, Or.inr (Or.inr h2)⟩
  · rintro ⟨m, h1, h2 | h2 | h2⟩
    · exact Or.inl (Or.inl ⟨m, h1, h2⟩)
    · exact Or.inl (Or.inr ⟨m, h1, h2⟩)
    · exact Or.inr ⟨m, h1, h2⟩

theorem is_tag_line_loop_isSome (line : Str) : ∀ types : List Str,
    (is_tag_line_loop line types).isSome = true ↔
      ∃ K ∈ types, ∃ p, find line (K ++ [':']) 0 = some p ∧ comment_before line p = true := by
  intro types
  induction types with
  | nil => simp [is_tag_line_loop]
  | cons t rest ih =>
    simp only [is_tag_line_loop, List.mem_cons]
    cases hf : find line (t ++ [':']) 0 with
    | none =>
      simp only [ih]
      constructor
      · rintro ⟨K, hK, p, h1, h2⟩; exact ⟨K, Or.inr hK, p, h1, h2⟩
      · rintro ⟨K, hK | hK, p, h1, h2⟩
        · subst hK; rw [hf] at h1; exact absurd h1 (by simp)
        · exact ⟨K, hK, p, h1, h2⟩
    | some pos =>
      by_cases hc : comment_before line pos = true
      · simp only [hc, if_true, Option.isSome_some, true_iff]
        exact ⟨t, Or.inl rfl, pos, hf, hc⟩
      · simp only [hc, Bool.false_eq_true, if_false, ih]
        constructor
        · rintro ⟨K, hK, p, h1, h2⟩; exact ⟨K, Or.inr hK, p, h1, h2⟩
        · rintro ⟨K, hK | hK, p, h1, h2⟩
          · subst hK
            rw [hf] at h1
            injection h1 with h1
            subst h1
            exact absurd h2 hc
          · exact ⟨K, hK, p, h1, h2⟩

/-- C8 as stated fails: in `TODO: x // TODO: y` the keyword at index 11 follows the
marker at index 8, yet `is_tag_line` returns false, because it looks only at the
leftmost `TODO:`, at index 0. -/
theorem is_tag_line_any_occurrence_fails :
    ¬ ((is_tag_line "TODO: x // TODO: y".toList).isSome = true ↔
        keyword_after_marker "TODO: x // TODO: y".toList) := by
  intro h
  have hk : keyword_after_marker "TODO: x // TODO: y".toList :=
    ⟨"TODO".toList, by decide, 11, 8, by decide, by decide, Or.inl (by decide)⟩
  exact absurd (h.mpr hk) (by decide)

/-- C8, amended: `is_tag_line` returns true exactly when, for one of the recognized
keywords, the leftmost occurrence of the keyword followed by `:` has a comment marker
(`//`, `/*` or `#`) beginning at or before it. -/
theorem is_tag_line_iff (line : Str) :
    (is_tag_line line).isSome = true ↔ first_keyword_after_marker line := by
  unfold is_tag_line first_keyword_after_marker
  rw [is_tag_line_loop_isSome]
  constructor
  · rintro ⟨K, hK, p, h1, h2⟩
    obtain ⟨m, hm, hmark⟩ := (comment_before_iff line p).mp h2
    exact ⟨K, hK, p, m, find_zero_iff.mp h1, hm, hmark⟩
  · rintro ⟨K, hK, p, m, h1, hm, hmark⟩
    exact ⟨K, hK, p, find_zero_iff.mpr h1, (comment_before_iff line p).mpr ⟨m, hm, hmark⟩⟩

/-! ## `parse_file` -/

theorem is_tag_line_loop_some (line : Str) : ∀ (types : List Str) (K c : Str),
    is_tag_line_loop line types = some (K, c) →
      K ∈ types ∧ ∃ p, find line (K ++ [':']) 0 = some p ∧ comment_before line p = true ∧
        c = strip_leading (substr_from line (p + K.length + 1)) := by
  intro types
  induction types with
  | nil => intro K c h; simp [is_tag_line_loop] at h
  | cons t rest ih =>
    intro K c h
    simp only [is_tag_line_loop] at h
    cases hf : find line (t ++ [':']) 0 with
    | none =>
      rw [hf] at h
      obtain ⟨h1, h2⟩ := ih K c h
      exact ⟨List.mem_cons_of_mem _ h1, h2⟩
    | some pos =>
      rw [hf] at h
      by_cases hc : comment_before line pos = true
      · simp only [hc, if_true, Option.some.injEq, Prod.mk.injEq] at h
        obtain ⟨h1, h2⟩ := h
        subst h1
        refine ⟨List.mem_cons_self _ _, pos, hf, hc, ?_⟩
        rw [← h2]
        simp [Nat.add_assoc]
      · simp only [hc, Bool.false_eq_true, if_false] at h
        obtain ⟨h1, h2⟩ := ih K c h
        exact ⟨List.mem_cons_of_mem _ h1, h2⟩

theorem cut_first_nil (s : Str) : cut_first [] s = s := by
  cases s with
  | nil => rfl
  | cons c cs => simp [cut_first, List.isPrefixOf]

/-- The id of the tag of a line that carries an identifier is that identifier. -/
theorem tag_id_content_id (rng : Nat → Fin 16) (n : Nat) (line K c : Str)
    (h : extract_codetag_id line ≠ []) :
    (tag_id_content rng n line K c).1 = extract_codetag_id line := by
  have hne : (!(extract_codetag_id line).isEmpty) = true := by
    cases he : extract_codetag_id line with
    | nil => exact absurd he h
    | cons a b => rfl
  unfold tag_id_content
  simp only [hne, if_true]
  cases find line (K ++ [':']) 0 with
  | none => rfl
  | some tag_pos =>
    simp only
    cases find (strip_leading (substr_from line (tag_pos + K.length + 1)))
      (extract_codetag_id line) 0 <;> rfl

/-- The content of the tag of a line on which `is_tag_line` returned `(K, c)`. -/
theorem tag_id_content_content (rng : Nat → Fin 16) (n : Nat) (line K c : Str) (p : Nat)
    (hp : find line (K ++ [':']) 0 = some p)
    (hc : c = strip_leading (substr_from line (p + K.length + 1))) :
    (tag_id_content rng n line K c).2.1 =
      lstrip (cut_first (extract_codetag_id line) (lstrip (line.drop (p + K.length + 1)))) := by
  have hidem : ∀ s : Str, lstrip (lstrip s) = lstrip s :=
    fun s => lstrip_of_not_starts_blank (lstrip_not_starts_blank s)
  unfold tag_id_content
  cases he : extract_codetag_id line with
  | nil =>
    simp only [List.isEmpty_nil, Bool.not_true, Bool.false_eq_true, if_false]
    rw [cut_first_nil, hidem, hc, strip_leading_eq]
    rfl
  | cons a b =>
    simp only [List.isEmpty_cons, Bool.not_false, if_true, hp]
    rw [strip_leading_eq]
    have hraw : substr_from line (p + K.length + 1) = line.drop (p + K.length + 1) := rfl
    rw [hraw]
    obtain ⟨h1, h2⟩ := find_cut (lstrip (line.drop (p + K.length + 1))) (a :: b)
    cases hf : find (lstrip (line.drop (p + K.length + 1))) (a :: b) 0 with
    | none =>
      simp only
      rw [h2 hf, hidem]
    | some id_pos =>
      simp only
      rw [strip_leading_eq, h1 id_pos hf]

theorem get_file_relative_path_some {file_path base_dir : Str} (h : file_path ≠ base_dir) :
    ∃ rel, get_file_relative_path file_path base_dir = some rel := by
  unfold get_file_relative_path
  split
  · rename_i hpre
    split
    · exact ⟨_, rfl⟩
    · rename_i hlen
      exfalso
      simp only [Bool.and_eq_true, decide_eq_true_eq, beq_iff_eq] at hpre
      apply h
      rw [← hpre.2]
      exact (List.take_of_length_le (by omega)).symm
  · exact ⟨_, rfl⟩

/-- The extraction pass returns whenever `get_file_relative_path` does. -/
theorem extraction_pass_returns (file_path base_dir : Str) (mtime : Int) (rng : Nat → Fin 16)
    (rel : Str) (hrel : get_file_relative_path file_path base_dir = some rel) :
    ∀ (lines : List Str) (ln n : Nat),
      ∃ tags, extraction_pass file_path base_dir mtime rng lines ln n = some tags := by
  intro lines
  induction lines with
  | nil => intro ln n; exact ⟨[], rfl⟩
  | cons l rest ih =>
    intro ln n
    simp only [extraction_pass]
    cases hl : is_tag_line l with
    | none => exact ih (ln + 1) n
    | some kc =>
      obtain ⟨K, c⟩ := kc
      simp only [hrel]
      obtain ⟨tags, ht⟩ := ih (ln + 1) (tag_id_content rng n l K c).2.2
      rw [ht]
      exact ⟨_, rfl⟩

/-- Every tag the extraction pass returns was built from a qualifying line. -/
theorem extraction_pass_mem (file_path base_dir : Str) (mtime : Int) (rng : Nat → Fin 16) :
    ∀ (lines : List Str) (ln n : Nat) (tags : List Tag) (t : Tag),
      extraction_pass file_path base_dir mtime rng lines ln n = some tags → t ∈ tags →
      ∃ i line c m, lines[i]? = some line ∧ t.line_number = ln + i + 1 ∧
        is_tag_line line = some (t.type, c) ∧ t.id = (tag_id_content rng m line t.type c).1 ∧
        t.content = (tag_id_content rng m line t.type c).2.1 := by
  intro lines
  induction lines with
  | nil =>
    intro ln n tags t h ht
    simp only [extraction_pass, Option.some.injEq] at h
    subst h
    simp at ht
  | cons l rest ih =>
    intro ln n tags t h ht
    simp only [extraction_pass] at h
    cases hl : is_tag_line l with
    | none =>
      rw [hl] at h
      obtain ⟨i, line, c, m, h1, h2, h3⟩ := ih (ln + 1) n tags t h ht
      exact ⟨i + 1, line, c, m, by simpa using h1, by omega, h3⟩
    | some kc =>
      obtain ⟨K, c⟩ := kc
      rw [hl] at h
      simp only at h
      cases hr : get_file_relative_path file_path base_dir with
      | none => rw [hr] at h; exact absurd h (by simp)
      | some rel =>
        rw [hr] at h
        simp only at h
        cases hrest : extraction_pass file_path base_dir mtime rng rest (ln + 1)
            (tag_id_content rng n l K c).2.2 with
        | none => rw [hrest] at h; exact absurd h (by simp)
        | some tags1 =>
          rw [hrest] at h
          simp only [Option.some.injEq] at h
          subst h
          rcases List.mem_cons.mp ht with ht1 | ht1
          · subst ht1
            exact ⟨0, l, c, n, List.getElem?_cons_zero, rfl, hl, rfl, rfl⟩
          · obtain ⟨i, line, c1, m, h1, h2, h3⟩ := ih (ln + 1) _ tags1 t hrest ht1
            exact ⟨i + 1, line, c1, m, by simpa using h1, by omega, h3⟩

/-- Every qualifying line gets a tag from the extraction pass. -/
theorem extraction_pass_emits (file_path base_dir : Str) (mtime : Int) (rng : Nat → Fin 16) :
    ∀ (lines : List Str) (ln n : Nat) (tags : List Tag) (i : Nat) (line K c : Str),
      extraction_pass file_path base_dir mtime rng lines ln n = some tags →
      lines[i]? = some line → is_tag_line line = some (K, c) →
      ∃ t m, t ∈ tags ∧ t.line_number = ln + i + 1 ∧ t.type = K ∧
        t.id = (tag_id_content rng m line K c).1 ∧
        t.content = (tag_id_content rng m line K c).2.1 := by
  intro lines
  induction lines with
  | nil => intro ln n tags i line K c _ hi; simp at hi
  | cons l rest ih =>
    intro ln n tags i line K c h hi hl
    simp only [extraction_pass] at h
    cases i with
    | zero =>
      simp only [List.getElem?_cons_zero, Option.some.injEq] at hi
      subst hi
      rw [hl] at h
      simp only at h
      cases hr : get_file_relative_path file_path base_dir with
      | none => rw [hr] at h; exact absurd h (by simp)
      | some rel =>
        rw [hr] at h
        simp only at h
        cases hrest : extraction_pass file_path base_dir mtime rng rest (ln + 1)
            (tag_id_content rng n l K c).2.2 with
        | none => rw [hrest] at h; exact absurd h (by simp)
        | some tags1 =>
          rw [hrest] at h
          simp only [Option.some.injEq] at h
          subst h
          exact ⟨_, n, List.mem_cons_self _ _, rfl, rfl, rfl, rfl⟩
    | succ i =>
      simp only [List.getElem?_cons_succ] at hi
      cases hl0 : is_tag_line l with
      | none =>
        rw [hl0] at h
        obtain ⟨t, m, h1, h2, h3⟩ := ih (ln + 1) n tags i line K c h hi hl
        exact ⟨t, m, h1, by omega, h3⟩
      | some kc =>
        obtain ⟨K0, c0⟩ := kc
        rw [hl0] at h
        simp only at h
        cases hr : get_file_relative_path file_path base_dir with
        | none => rw [hr] at h; exact absurd h (by simp)
        | some rel =>
          rw [hr] at h
          simp only at h
          cases hrest : extraction_pass file_path base_dir mtime rng rest (ln + 1)
              (tag_id_content rng n l K0 c0).2.2 with
          | none => rw [hrest] at h; exact absurd h (by simp)
          | some tags1 =>
            rw [hrest] at h
            simp only [Option.some.injEq] at h
            subst h
            obtain ⟨t, m, h1, h2, h3⟩ := ih (ln + 1) _ tags1 i line K c hrest hi hl
            exact ⟨t, m, List.mem_cons_of_mem _ h1, by omega, h3⟩

/-- The stamping pass does not touch a line that carries an identifier. -/
theorem stamping_pass_keeps (rng : Nat → Fin 16) : ∀ (lines : List Str) (n i : Nat) (line : Str),
    lines[i]? = some line → extract_codetag_id line ≠ [] →
      (stamping_pass rng lines n).1[i]? = some line := by
  intro lines
  induction lines with
  | nil => intro n i line hi; simp at hi
  | cons l rest ih =>
    intro n i line hi hid
    cases i with
    | zero =>
      simp only [List.getElem?_cons_zero, Option.some.injEq] at hi
      subst hi
      have hadd : ∀ id, add_codetag_id l id = l := by
        intro id
        unfold add_codetag_id
        rw [if_pos]
        cases he : extract_codetag_id l with
        | nil => exact absurd he hid
        | cons a b => rfl
      simp only [stamping_pass]
      split <;> simp [hadd]
    | succ i =>
      simp only [List.getElem?_cons_succ] at hi
      simp only [stamping_pass]
      split
      · simpa using ih _ i line hi hid
      · simpa using ih _ i line hi hid

/-- C5: a qualifying line that carries an identifier keeps its text through
`parse_file`, and the returned tags hold one for that line with exactly that id,
whatever the other lines are. -/
theorem parse_file_keeps_stamped_line (lines : List Str) (file_path base_dir : Str)
    (mtime : Int) (stat_mtime : Option Int) (rng : Nat → Fin 16) (i : Nat) (line : Str)
    (hpath : file_path ≠ base_dir) (hline : lines[i]? = some line)
    (htag : (is_tag_line line).isSome = true) (hid : extract_codetag_id line ≠ []) :
    (parse_file (some lines) file_path base_dir mtime stat_mtime rng).lines[i]? = some line ∧
    ∃ tags t, (parse_file (some lines) file_path base_dir mtime stat_mtime rng).tags = some tags ∧
      t ∈ tags ∧ t.line_number = i + 1 ∧ t.id = extract_codetag_id line := by
  have hkeep := stamping_pass_keeps rng lines 0 i line hline hid
  refine ⟨hkeep, ?_⟩
  obtain ⟨rel, hrel⟩ := get_file_relative_path_some hpath
  simp only [parse_file]
  obtain ⟨tags, htags⟩ := extraction_pass_returns file_path base_dir
    (if (stamping_pass rng lines 0).2.1 = true then stat_mtime.getD mtime else mtime) rng rel hrel
    (stamping_pass rng lines 0).1 0 (stamping_pass rng lines 0).2.2
  obtain ⟨kc, hkc⟩ := Option.isSome_iff_exists.mp htag
  obtain ⟨t, m, h1, h2, _, h4, _⟩ := extraction_pass_emits file_path base_dir _ rng _ 0 _ tags i
    line kc.1 kc.2 htags hkeep hkc
  refine ⟨tags, t, htags, h1, by omega, ?_⟩
  rw [h4]
  exact tag_id_content_id rng m line kc.1 kc.2 hid

/-- C5 at a two-line file whose second line is stamped. -/
theorem parse_file_keeps_stamped_line_witness :
    (parse_file (some ["int x;".toList, "// TODO: CT-12345678 fix".toList]) "/r/a.cpp".toList
        "/r".toList 5 (some 7) (rng_const 10)).lines[1]?
      = some "// TODO: CT-12345678 fix".toList ∧
    ∃ tags t, (parse_file (some ["int x;".toList, "// TODO: CT-12345678 fix".toList])
        "/r/a.cpp".toList "/r".toList 5 (some 7) (rng_const 10)).tags = some tags ∧
      t ∈ tags ∧ t.line_number = 1 + 1 ∧
      t.id = extract_codetag_id "// TODO: CT-12345678 fix".toList :=
  parse_file_keeps_stamped_line ["int x;".toList, "// TODO: CT-12345678 fix".toList]
    "/r/a.cpp".toList "/r".toList 5 (some 7) (rng_const 10) 1
    "// TODO: CT-12345678 fix".toList (by decide) (by decide) (by decide) (by decide)

/-- C10 as stated fails: the line `// TODO: fix ` (one trailing space) gets a tag whose
content is `fix ` and ends with a space. -/
theorem parse_file_content_trailing_blank :
    ∃ tags t, (parse_file (some ["// TODO: fix ".toList]) "/r/a.cpp".toList "/r".toList 5
        (some 7) (rng_const 10)).tags = some tags ∧ t ∈ tags ∧
      t.content = "fix ".toList ∧ ends_blank t.content :=
  ⟨[trailing_blank_tag], trailing_blank_tag, by decide, List.mem_singleton.mpr rfl, rfl,
    by decide⟩

/-- C10, amended: for every tag `parse_file` returns, the content is the text after the
colon of the leftmost `KEYWORD:` of its line, with leading spaces and tabs dropped, the
leftmost occurrence of the line's identifier (if any) cut out, and leading spaces and
tabs dropped again; it never begins with a space or a tab. -/
theorem parse_file_content_spec (file : Option (List Str)) (file_path base_dir : Str)
    (mtime : Int) (stat_mtime : Option Int) (rng : Nat → Fin 16) (tags : List Tag) (t : Tag)
    (htags : (parse_file file file_path base_dir mtime stat_mtime rng).tags = some tags)
    (ht : t ∈ tags) :
    (∃ line p,
      (parse_file file file_path base_dir mtime stat_mtime rng).lines[t.line_number - 1]?
        = some line ∧
      first_occurrence (t.type ++ [':']) line p ∧
      t.content = lstrip (cut_first (extract_codetag_id line)
        (lstrip (line.drop (p + t.type.length + 1))))) ∧
    ¬ starts_blank t.content := by
  cases file with
  | none =>
    simp only [parse_file, Option.some.injEq] at htags
    subst htags
    simp at ht
  | some lines0 =>
    simp only [parse_file] at htags ⊢
    obtain ⟨i, line, c, m, h1, h2, h3, _, h5⟩ :=
      extraction_pass_mem file_path base_dir _ rng _ 0 _ tags t htags ht
    obtain ⟨_, p, hp, _, hc⟩ := is_tag_line_loop_some line tag_types t.type c h3
    have hcontent := tag_id_content_content rng m line t.type c p hp hc
    rw [← h5] at hcontent
    refine ⟨⟨line, p, ?_, find_zero_iff.mp hp, hcontent⟩, ?_⟩
    · have e : t.line_number - 1 = i := by omega
      rw [e]; exact h1
    · rw [hcontent]; exact lstrip_not_starts_blank _

/-- C10, amended, at the file of the single line `// TODO: fix `. -/
theorem parse_file_content_spec_witness :
    (∃ line p,
      (parse_file (some ["// TODO: fix ".toList]) "/r/a.cpp".toList "/r".toList 5 (some 7)
        (rng_const 10)).lines[trailing_blank_tag.line_number - 1]? = some line ∧
      first_occurrence (trailing_blank_tag.type ++ [':']) line p ∧
      trailing_blank_tag.content = lstrip (cut_first (extract_codetag_id line)
        (lstrip (line.drop (p + trailing_blank_tag.type.length + 1))))) ∧
    ¬ starts_blank trailing_blank_tag.content :=
  parse_file_content_spec (some ["// TODO: fix ".toList]) "/r/a.cpp".toList "/r".toList 5
    (some 7) (rng_const 10) [trailing_blank_tag] trailing_blank_tag
    (by decide) (List.mem_singleton.mpr rfl)

/-- C1 fails on the line `// TODO:fix`: stamped with `CT-AAAAAAAA` it becomes
`// TODO: CT-AAAAAAAAfix`, where the id runs into `fix` and is not recognized; the tag
built from the stamped line has a freshly drawn id and the content `CT-AAAAAAAAfix`. -/
theorem stamp_then_reparse_loses_id :
    is_tag_line "// TODO:fix".toList = some ("TODO".toList, "fix".toList) ∧
    extract_codetag_id "// TODO:fix".toList = [] ∧
    add_codetag_id "// TODO:fix".toList "CT-AAAAAAAA".toList
      = "// TODO: CT-AAAAAAAAfix".toList ∧
    extract_codetag_id "// TODO: CT-AAAAAAAAfix".toList = [] ∧
    parse_file (some ["// TODO:fix".toList]) "/r/a.cpp".toList "/r".toList 5 (some 7) rng_ab
      = { lines := ["// TODO: CT-AAAAAAAAfix".toList], modified := true,
          tags := some [{ id := "CT-BBBBBBBB".toList, type := "TODO".toList,
                          content := "CT-AAAAAAAAfix".toList, file_path := "/r/a.cpp".toList,
                          relative_path := "a.cpp".toList, line_number := 1,
                          last_modified := 7 }] } := by
  refine ⟨by decide, by decide, by decide, by decide, by decide⟩

/-- C4 fails on a file whose only qualifying line is already stamped: `has_codetag_id`
is false on it, so the stamping pass sets `modified` although no line changes, and the
file is rewritten. -/
theorem parse_file_rewrites_stamped_file (rng : Nat → Fin 16) :
    extract_codetag_id "// TODO: CT-12345678 fix".toList = "CT-12345678".toList ∧
    has_codetag_id "// TODO: CT-12345678 fix".toList = false ∧
    (parse_file (some ["// TODO: CT-12345678 fix".toList]) "/r/a.cpp".toList "/r".toList 5
      (some 7) rng).modified = true ∧
    (parse_file (some ["// TODO: CT-12345678 fix".toList]) "/r/a.cpp".toList "/r".toList 5
      (some 7) rng).lines = ["// TODO: CT-12345678 fix".toList] := by
  have h1 : (is_tag_line "// TODO: CT-12345678 fix".toList).isSome = true := by decide
  have h2 : has_codetag_id "// TODO: CT-12345678 fix".toList = false := by decide
  have h3 : ∀ id, add_codetag_id "// TODO: CT-12345678 fix".toList id
      = "// TODO: CT-12345678 fix".toList := by
    intro id
    unfold add_codetag_id
    rw [if_pos (by decide)]
  have hs : ∀ line : Str, (is_tag_line line).isSome = true → has_codetag_id line = false →
      (∀ id, add_codetag_id line id = line) →
      stamping_pass rng [line] 0 = ([line], true, (generate_id rng 0).2) := by
    intro line e1 e2 e3
    simp only [stamping_pass, e1, e2, e3, Bool.not_false, Bool.and_self, if_true]
  refine ⟨by decide, h2, ?_, ?_⟩
  · simp only [parse_file]
    rw [hs _ h1 h2 h3]
  · simp only [parse_file]
    rw [hs _ h1 h2 h3]

/-- C7 fails on `BUG: x // TODO: y`: the line qualifies through `TODO:` at index 10, but
`add_codetag_id` stamps after the `BUG:` at index 0, which stands before the comment. -/
theorem add_codetag_id_stamps_other_keyword :
    is_tag_line "BUG: x // TODO: y".toList = some ("TODO".toList, "y".toList) ∧
    find "BUG: x // TODO: y".toList "TODO:".toList 0 = some 10 ∧
    extract_codetag_id "BUG: x // TODO: y".toList = [] ∧
    add_codetag_id "BUG: x // TODO: y".toList "CT-AAAAAAAA".toList
      = "BUG: CT-AAAAAAAA x // TODO: y".toList ∧
    add_codetag_id "BUG: x // TODO: y".toList "CT-AAAAAAAA".toList
      ≠ insert_at "BUG: x // TODO: y".toList (10 + "TODO".toList.length + 1)
          (' ' :: "CT-AAAAAAAA".toList) := by
  refine ⟨by decide, by decide, by decide, by decide, by decide⟩

/-! ## `TagDatabase` -/

/-- C2 fails after two calls of `add_tag` with one id and two paths: the id stays in
the id set of `a.py` while its record in the id map has the path `b.py`. -/
theorem add_tag_overwrite_breaks_consistency :
    ∃ db, Reachable db ∧
      get_tag_ids_in_file db "a.py".toList = some ["CT-00000001".toList] ∧
      map_find db.tags_by_id "CT-00000001".toList = some (sample_tag "CT-00000001" "b.py") ∧
      ¬ consistent db := by
  refine ⟨{ db_mutex := false,
            tags_by_id := [("CT-00000001".toList, sample_tag "CT-00000001" "b.py")],
            file_to_ids := [("a.py".toList, ["CT-00000001".toList]),
                            ("b.py".toList, ["CT-00000001".toList])] },
    ⟨[.add_tag (sample_tag "CT-00000001" "a.py"), .add_tag (sample_tag "CT-00000001" "b.py")],
      by decide⟩, by decide, by decide, ?_⟩
  intro h
  have h1 := (h "a.py".toList "CT-00000001".toList).mp (by decide)
  obtain ⟨t, ht1, ht2⟩ := h1
  have ht : t = sample_tag "CT-00000001" "b.py" := by
    have e : map_find [("CT-00000001".toList, sample_tag "CT-00000001" "b.py")]
        "CT-00000001".toList = some (sample_tag "CT-00000001" "b.py") := by decide
    rw [e] at ht1
    exact (Option.some.inj ht1).symm
  subst ht
  exact absurd ht2 (by decide)

/-- C6 fails when a tag has to be removed: with tags under `foo/a.py` and
`foobar/b.py`, `remove_tags_in_paths` selects the id of the first only, and then calls
`remove_tag` while it holds `db_mutex`, so the call never returns. -/
theorem remove_tags_in_paths_never_returns :
    ∃ db, run_ops TagDatabase.empty
        [.add_tag (sample_tag "CT-00000001" "foo/a.py"),
         .add_tag (sample_tag "CT-00000002" "foobar/b.py")] = some db ∧
      ids_to_remove db.tags_by_id ["foo".toList] = ["CT-00000001".toList] ∧
      remove_tags_in_paths db ["foo".toList] = none :=
  ⟨{ db_mutex := false,
     tags_by_id := [("CT-00000001".toList, sample_tag "CT-00000001" "foo/a.py"),
                    ("CT-00000002".toList, sample_tag "CT-00000002" "foobar/b.py")],
     file_to_ids := [("foo/a.py".toList, ["CT-00000001".toList]),
                     ("foobar/b.py".toList, ["CT-00000002".toList])] },
    by decide, by decide, by decide⟩

/-! ## `should_ignore` -/

/-- C3 fails for the pattern `*.log` and the path `/repo/src/app.log`: the last
component `app.log` matches the pattern, but under `FNM_PATHNAME` neither `*.log` nor
`**.log` matches `src/app.log`, and `should_ignore` returns false. -/
theorem should_ignore_unanchored_not_at_depth :
    fnmatch_pathname "*.log".toList "app.log".toList = true ∧
    should_ignore fnmatch_pathname "/repo".toList ["*.log".toList] "/repo/app.log".toList
      = true ∧
    should_ignore fnmatch_pathname "/repo".toList ["*.log".toList] "/repo/src/app.log".toList
      = false := by
  refine ⟨by decide, by decide, by decide⟩

/-- C9: `extract_codetag_id` returns the leftmost substring `CT-` + 8 characters of
`0-9A-F` that has no alphanumeric neighbour on either side, and it returns the empty
string exactly when the line holds no such substring. -/
theorem extract_codetag_id_leftmost (line : Str) :
    ((extract_codetag_id line = [] ∧ ∀ p, ¬ id_at line p) ∨
     (∃ p, id_at line p ∧ (∀ q, q < p → ¬ id_at line q) ∧
       extract_codetag_id line = substr line p 11 ∧ (extract_codetag_id line).length = 11)) ∧
    (extract_codetag_id line = [] ↔ ∀ p, ¬ id_at line p) := by
  have key := extract_codetag_id_loop_spec line (line.length + 1) 0 (by omega)
    (fun q hq => absurd hq (Nat.not_lt_zero q))
  have hdisj : (extract_codetag_id line = [] ∧ ∀ p, ¬ id_at line p) ∨
     (∃ p, id_at line p ∧ (∀ q, q < p → ¬ id_at line q) ∧
       extract_codetag_id line = substr line p 11 ∧ (extract_codetag_id line).length = 11) := by
    rcases key with ⟨h1, h2⟩ | ⟨p, h1, h2, h3⟩
    · left
      exact ⟨h1, fun p hp => h2 p (valid_at_of_id_at hp)⟩
    · right
      refine ⟨p, id_at_of_valid_at h1, fun q hq hid => h2 q hq (valid_at_of_id_at hid), h3, ?_⟩
      unfold extract_codetag_id
      rw [h3]
      exact substr_length (valid_at_bound h1)
  refine ⟨hdisj, ?_⟩
  rcases hdisj with ⟨h1, h2⟩ | ⟨p, h1, _, _, h4⟩
  · exact ⟨fun _ => h2, fun _ => h1⟩
  · constructor
    · intro hnil
      rw [hnil] at h4
      exact absurd h4 (by simp)
    · intro hno
      exact absurd h1 (hno p)

/-! ## The summary artifact -/

theorem mem_insert_type (x T : Str) : ∀ ks : List Str, T ∈ insert_type x ks ↔ T = x ∨ T ∈ ks := by
  intro ks
  induction ks with
  | nil => simp [insert_type]
  | cons k ks ih =>
    simp only [insert_type]
    split
    · rename_i h
      subst h
      simp
    · split
      · simp
      · simp only [List.mem_cons, ih]
        tauto

theorem sorted_insert_type (x : Str) : ∀ ks : List Str, ks.Sorted (· < ·) →
    (insert_type x ks).Sorted (· < ·) := by
  intro ks
  induction ks with
  | nil => intro _; simp [insert_type]
  | cons k ks ih =>
    intro hs
    simp only [insert_type]
    split
    · exact hs
    · rename_i hne
      split
      · rename_i hlt
        refine List.sorted_cons.mpr ⟨?_, hs⟩
        intro b hb
        rcases List.mem_cons.mp hb with rfl | hb
        · exact hlt
        · exact lt_trans hlt (List.rel_of_sorted_cons hs b hb)
      · rename_i hnlt
        have hkx : k < x := lt_of_le_of_ne (not_lt.mp hnlt) (fun h => hne h.symm)
        refine List.sorted_cons.mpr ⟨?_, ih (List.sorted_cons.mp hs).2⟩
        intro b hb
        rcases (mem_insert_type x b ks).mp hb with rfl | hb
        · exact hkx
        · exact List.rel_of_sorted_cons hs b hb

theorem grouped_of_append_other (done : List Tag) (t : Tag) (ks : List Str)
    (h : t.type ∉ ks) : grouped_of (done ++ [t]) ks = grouped_of done ks := by
  unfold grouped_of
  apply List.map_congr_left
  intro T hT
  have hne : ¬ t.type = T := fun e => h (e ▸ hT)
  simp [List.filter_append, hne]

/-- One `push_back` on `grouped` adds the tag to the entry of its type. -/
theorem grouped_push_grouped_of (done : List Tag) (t : Tag) : ∀ ks : List Str,
    ks.Sorted (· < ·) → (t.type ∉ ks → ∀ u ∈ done, u.type ≠ t.type) →
    grouped_push (grouped_of done ks) t = grouped_of (done ++ [t]) (insert_type t.type ks) := by
  intro ks
  induction ks with
  | nil =>
    intro _ hnew
    have hnone : done.filter (fun u => u.type = t.type) = [] := by
      apply List.filter_eq_nil_iff.mpr
      intro u hu
      simpa using hnew (by simp) u hu
    simp [grouped_of, grouped_push, insert_type, List.filter_append, hnone]
  | cons k ks ih =>
    intro hs hnew
    have hk : ∀ b ∈ ks, k < b := fun b hb => List.rel_of_sorted_cons hs b hb
    simp only [insert_type]
    by_cases h1 : t.type = k
    · have hnot : t.type ∉ ks := fun hmem => lt_irrefl k (h1 ▸ hk _ hmem)
      rw [if_pos h1]
      have e := grouped_of_append_other done t ks hnot
      simp only [grouped_of, List.map_cons] at e ⊢
      simp only [grouped_push, h1, if_true]
      rw [e]
      simp [List.filter_append, h1]
    · rw [if_neg h1]
      by_cases h2 : t.type < k
      · rw [if_pos h2]
        have hnot : t.type ∉ k :: ks := by
          intro hmem
          rcases List.mem_cons.mp hmem with e | hmem
          · exact h1 e
          · exact lt_asymm h2 (hk _ hmem)
        have hnone : done.filter (fun u => u.type = t.type) = [] := by
          apply List.filter_eq_nil_iff.mpr
          intro u hu
          simpa using hnew hnot u hu
        have e := grouped_of_append_other done t (k :: ks) hnot
        simp only [grouped_of, List.map_cons] at e ⊢
        simp only [grouped_push, h1, h2, if_true, if_false]
        rw [e]
        simp [List.filter_append, hnone]
      · rw [if_neg h2]
        have hrec := ih (List.sorted_cons.mp hs).2 (fun hnot => hnew (by
          intro hmem
          rcases List.mem_cons.mp hmem with e | hmem
          · exact h1 e
          · exact hnot hmem))
        have hne : ¬ t.type = k := h1
        simp only [grouped_of, List.map_cons] at hrec ⊢
        simp only [grouped_push, h1, h2, if_false]
        rw [hrec]
        simp [List.filter_append, hne]

theorem foldl_grouped_push (tags : List Tag) : ∀ (done : List Tag) (ks : List Str),
    ks.Sorted (· < ·) → (∀ T, T ∈ ks ↔ ∃ u ∈ done, u.type = T) →
    tags.foldl grouped_push (grouped_of done ks)
        = grouped_of (done ++ tags) (tags.foldl (fun ks t => insert_type t.type ks) ks) ∧
      (tags.foldl (fun ks t => insert_type t.type ks) ks).Sorted (· < ·) ∧
      (∀ T, T ∈ tags.foldl (fun ks t => insert_type t.type ks) ks ↔
        ∃ u ∈ done ++ tags, u.type = T) := by
  induction tags with
  | nil => intro done ks hs hm; simpa using ⟨hs, hm⟩
  | cons t rest ih =>
    intro done ks hs hm
    simp only [List.foldl_cons]
    rw [grouped_push_grouped_of done t ks hs (fun hnot u hu e => hnot ((hm _).mpr ⟨u, hu, e⟩))]
    have hm2 : ∀ T, T ∈ insert_type t.type ks ↔ ∃ u ∈ done ++ [t], u.type = T := by
      intro T
      rw [mem_insert_type, hm]
      constructor
      · rintro (rfl | ⟨u, hu, e⟩)
        · exact ⟨t, by simp, rfl⟩
        · exact ⟨u, by simp [hu], e⟩
      · rintro ⟨u, hu, e⟩
        rcases List.mem_append.mp hu with hu | hu
        · exact Or.inr ⟨u, hu, e⟩
        · have : u = t := by simpa using hu
          subst this
          exact Or.inl e.symm
    have := ih (done ++ [t]) (insert_type t.type ks) (sorted_insert_type _ _ hs) hm2
    simpa [List.append_assoc] using this

theorem render_tag_eq_tag_block (ft : Int → Str) (t : Tag) : render_tag ft t = tag_block ft t := by
  simp [render_tag, tag_block, String.toList, List.append_assoc]

theorem render_group_grouped_of (ft : Int → Str) (tags : List Tag) (T : Str) :
    render_group ft (T, tags.filter fun t => t.type = T) = type_section ft tags T := by
  have h : render_tag ft = tag_block ft := funext (render_tag_eq_tag_block ft)
  simp [render_group, type_section, String.toList, List.append_assoc, h]

theorem sum_indicator (x : Str) (c : Nat) : ∀ ks : List Str, ks.Nodup →
    (ks.map fun T => if x = T then c else 0).sum = if x ∈ ks then c else 0 := by
  intro ks
  induction ks with
  | nil => intro _; simp
  | cons k ks ih =>
    intro hnd
    have hk : k ∉ ks := (List.nodup_cons.mp hnd).1
    rw [List.map_cons, List.sum_cons, ih (List.nodup_cons.mp hnd).2]
    by_cases h1 : x = k
    · subst h1
      simp [hk]
    · simp [h1]

theorem sections_perm (tags : List Tag) (types : List Str) (hnd : types.Nodup)
    (hm : ∀ T, T ∈ types ↔ ∃ u ∈ tags, u.type = T) :
    (types.flatMap fun T => tags.filter fun t => t.type = T).Perm tags := by
  rw [List.perm_iff_count]
  intro a
  rw [List.count_flatMap]
  have hfun : (List.count a ∘ fun T => tags.filter fun t => t.type = T)
      = fun T => if a.type = T then tags.count a else 0 := by
    funext T
    simp only [Function.comp]
    by_cases h : a.type = T
    · rw [if_pos h]
      exact List.count_filter (by simpa using h)
    · rw [if_neg h]
      apply List.count_eq_zero.mpr
      intro hmem
      exact h (by simpa using (List.mem_filter.mp hmem).2)
  rw [hfun, sum_indicator _ _ _ hnd]
  split
  · rfl
  · rename_i hnot
    symm
    apply List.count_eq_zero.mpr
    intro hmem
    exact hnot ((hm _).mpr ⟨a, hmem, rfl⟩)

/-- C20: the artifact text is the header line followed by one section for each
distinct type present, in ascending order of the type name; a section is its `##`
heading and one block of three lines for every tag of that type; the sections together
hold every tag exactly once, and an empty list gives the header alone. -/
theorem artifact_text_sections (ft : Int → Str) (tags : List Tag) :
    (type_keys tags).Sorted (· < ·) ∧
    (∀ T, T ∈ type_keys tags ↔ ∃ t ∈ tags, t.type = T) ∧
    artifact_text ft tags
      = "# Codetags".toList ++ ['\n'] ++ ((type_keys tags).map (type_section ft tags)).flatten ∧
    ((type_keys tags).flatMap fun T => tags.filter fun t => t.type = T).Perm tags ∧
    artifact_text ft [] = "# Codetags".toList ++ ['\n'] := by
  obtain ⟨h1, h2, h3⟩ := foldl_grouped_push tags [] [] List.sorted_nil (by simp)
  have h1' : tags.foldl grouped_push [] = grouped_of tags (type_keys tags) := by
    simpa [grouped_of, type_keys] using h1
  have h3' : ∀ T, T ∈ type_keys tags ↔ ∃ t ∈ tags, t.type = T := by
    simpa [type_keys] using h3
  refine ⟨h2, h3', ?_, sections_perm tags _ (List.Sorted.nodup h2) h3', rfl⟩
  unfold artifact_text
  rw [h1']
  have hmap : (grouped_of tags (type_keys tags)).map (render_group ft)
      = (type_keys tags).map (type_section ft tags) := by
    unfold grouped_of
    rw [List.map_map]
    apply List.map_congr_left
    intro T _
    exact render_group_grouped_of ft tags T
  rw [hmap]
  simp [String.toList, List.append_assoc]

/-! ## The maps of `TagDatabase` -/

theorem map_find_map_set_same {β : Type} (k : Str) (v : β) : ∀ m : List (Str × β),
    map_find (map_set m k v) k = some v := by
  intro m
  induction m with
  | nil => simp [map_set, map_find]
  | cons e rest ih =>
    obtain ⟨k1, v1⟩ := e
    simp only [map_set]
    split
    · simp [map_find]
    · rename_i h
      simp [map_find, h, ih]

theorem map_find_map_set_other {β : Type} (k k2 : Str) (v : β) (h : k2 ≠ k) :
    ∀ m : List (Str × β), map_find (map_set m k v) k2 = map_find m k2 := by
  intro m
  induction m with
  | nil => simp [map_set, map_find, Ne.symm h]
  | cons e rest ih =>
    obtain ⟨k1, v1⟩ := e
    simp only [map_set]
    split
    · rename_i h1
      subst h1
      simp [map_find, Ne.symm h]
    · simp only [map_find, ih]

theorem map_find_map_erase_same {β : Type} (k : Str) : ∀ m : List (Str × β),
    map_find (map_erase m k) k = none := by
  intro m
  induction m with
  | nil => rfl
  | cons e rest ih =>
    obtain ⟨k1, v1⟩ := e
    by_cases h : k1 = k
    · simpa [map_erase, List.filter_cons, h] using ih
    · simpa [map_erase, List.filter_cons, h, map_find] using ih

theorem map_find_map_erase_other {β : Type} (k k2 : Str) (h : k2 ≠ k) :
    ∀ m : List (Str × β), map_find (map_erase m k) k2 = map_find m k2 := by
  intro m
  induction m with
  | nil => rfl
  | cons e rest ih =>
    obtain ⟨k1, v1⟩ := e
    have hf : map_erase ((k1, v1) :: rest) k
        = if k1 = k then map_erase rest k else (k1, v1) :: map_erase rest k := by
      by_cases h1 : k1 = k <;> simp [map_erase, List.filter_cons, h1]
    rw [hf]
    by_cases h1 : k1 = k
    · rw [if_pos h1, ih]
      have h2 : ¬ k1 = k2 := fun e => h (e ▸ h1)
      simp [map_find, h2]
    · rw [if_neg h1]
      simp only [map_find, ih]

theorem map_find_none_of_not_mem {β : Type} (k : Str) : ∀ m : List (Str × β),
    k ∉ m.map (fun e => e.1) → map_find m k = none := by
  intro m
  induction m with
  | nil => intro _; rfl
  | cons e rest ih =>
    obtain ⟨k1, v1⟩ := e
    intro h
    simp only [List.map_cons, List.mem_cons, not_or] at h
    simp [map_find, Ne.symm h.1, ih h.2]

theorem keys_map_set {β : Type} (k : Str) (v : β) : ∀ m : List (Str × β),
    (map_set m k v).map (fun e => e.1)
      = if k ∈ m.map (fun e => e.1) then m.map (fun e => e.1) else m.map (fun e => e.1) ++ [k] := by
  intro m
  induction m with
  | nil => simp [map_set]
  | cons e rest ih =>
    obtain ⟨k1, v1⟩ := e
    by_cases h : k1 = k
    · have hstep : map_set ((k1, v1) :: rest) k v = (k, v) :: rest := by
        simp only [map_set]
        rw [if_pos h]
      have hmem : k ∈ ((k1, v1) :: rest).map (fun e => e.1) := by
        rw [List.map_cons, h]; exact List.mem_cons_self _ _
      rw [hstep, if_pos hmem, List.map_cons, List.map_cons, h]
    · have hstep : map_set ((k1, v1) :: rest) k v = (k1, v1) :: map_set rest k v := by
        simp only [map_set]
        rw [if_neg h]
      rw [hstep, List.map_cons, ih]
      by_cases h3 : k ∈ rest.map (fun e => e.1)
      · have h4 : k ∈ ((k1, v1) :: rest).map (fun e => e.1) := by
          rw [List.map_cons]; exact List.mem_cons_of_mem _ h3
        rw [if_pos h3, if_pos h4, List.map_cons]
      · have h4 : k ∉ ((k1, v1) :: rest).map (fun e => e.1) := by
          rw [List.map_cons]
          intro hm
          rcases List.mem_cons.mp hm with hm | hm
          · exact h hm.symm
          · exact h3 hm
        rw [if_neg h3, if_neg h4, List.map_cons, List.cons_append]

theorem nodup_keys_map_set {β : Type} (k : Str) (v : β) (m : List (Str × β))
    (h : (m.map fun e => e.1).Nodup) : ((map_set m k v).map fun e => e.1).Nodup := by
  rw [keys_map_set]
  split
  · exact h
  · rename_i hk
    exact List.Nodup.append h (List.nodup_singleton k) (by
      intro a ha hb
      have : a = k := by simpa using hb
      exact hk (this ▸ ha))

theorem mem_map_set {β : Type} (k : Str) (v : β) : ∀ (m : List (Str × β)) (e : Str × β),
    e ∈ map_set m k v → e = (k, v) ∨ e ∈ m := by
  intro m
  induction m with
  | nil => intro e he; left; simpa [map_set] using he
  | cons e0 rest ih =>
    obtain ⟨k1, v1⟩ := e0
    intro e he
    simp only [map_set] at he
    split at he
    · rcases List.mem_cons.mp he with he | he
      · exact Or.inl he
      · exact Or.inr (List.mem_cons_of_mem _ he)
    · rcases List.mem_cons.mp he with he | he
      · exact Or.inr (he ▸ List.mem_cons_self _ _)
      · rcases ih e he with h | h
        · exact Or.inl h
        · exact Or.inr (List.mem_cons_of_mem _ h)

theorem nodup_keys_map_erase {β : Type} (k : Str) (m : List (Str × β))
    (h : (m.map fun e => e.1).Nodup) : ((map_erase m k).map fun e => e.1).Nodup :=
  List.Nodup.sublist (List.Sublist.map _ (List.filter_sublist m)) h

theorem mem_map_erase {β : Type} (k : Str) (m : List (Str × β)) (e : Str × β)
    (h : e ∈ map_erase m k) : e ∈ m :=
  (List.mem_filter.mp h).1

theorem well_formed_add_tag_body (db : TagDatabase) (t : Tag)
    (h : (db.tags_by_id.map fun e => e.1).Nodup ∧ ∀ e ∈ db.tags_by_id, e.2.id = e.1) :
    ((add_tag_body db t).tags_by_id.map fun e => e.1).Nodup ∧
      ∀ e ∈ (add_tag_body db t).tags_by_id, e.2.id = e.1 := by
  refine ⟨nodup_keys_map_set _ _ _ h.1, fun e he => ?_⟩
  rcases mem_map_set _ _ _ e he with rfl | he
  · rfl
  · exact h.2 e he

theorem well_formed_remove_tag_body (db : TagDatabase) (id : Str)
    (h : (db.tags_by_id.map fun e => e.1).Nodup ∧ ∀ e ∈ db.tags_by_id, e.2.id = e.1) :
    ((remove_tag_body db id).tags_by_id.map fun e => e.1).Nodup ∧
      ∀ e ∈ (remove_tag_body db id).tags_by_id, e.2.id = e.1 := by
  unfold remove_tag_body
  split
  · exact ⟨nodup_keys_map_erase _ _ h.1, fun e he => h.2 e (mem_map_erase _ _ e he)⟩
  · exact h

theorem well_formed_foldl_erase (ids : List Str) : ∀ m : List (Str × Tag),
    ((m.map fun e => e.1).Nodup ∧ ∀ e ∈ m, e.2.id = e.1) →
    (((ids.foldl map_erase m).map fun e => e.1).Nodup ∧
      ∀ e ∈ ids.foldl map_erase m, e.2.id = e.1) := by
  induction ids with
  | nil => intro m h; exact h
  | cons i rest ih =>
    intro m h
    exact ih (map_erase m i)
      ⟨nodup_keys_map_erase _ _ h.1, fun e he => h.2 e (mem_map_erase _ _ e he)⟩

theorem well_formed_remove_tags_in_file_body (db : TagDatabase) (p : Str)
    (h : (db.tags_by_id.map fun e => e.1).Nodup ∧ ∀ e ∈ db.tags_by_id, e.2.id = e.1) :
    ((remove_tags_in_file_body db p).tags_by_id.map fun e => e.1).Nodup ∧
      ∀ e ∈ (remove_tags_in_file_body db p).tags_by_id, e.2.id = e.1 := by
  unfold remove_tags_in_file_body
  split
  · exact well_formed_foldl_erase _ _ h
  · exact h

/-- With the mutex held, `remove_each` returns only for the empty list. -/
theorem remove_each_locked (db : TagDatabase) (h : db.db_mutex = true) (ids : List Str)
    (db1 : TagDatabase) (hr : remove_each db ids = some db1) : ids = [] ∧ db1 = db := by
  cases ids with
  | nil => simp only [remove_each, Option.some.injEq] at hr; exact ⟨rfl, hr.symm⟩
  | cons i rest => simp [remove_each, remove_tag, lock_guard, h] at hr

theorem well_formed_apply (db db1 : TagDatabase) (op : DbOp) (h : well_formed db)
    (hop : op.apply db = some db1) : well_formed db1 := by
  obtain ⟨hfree, hwf⟩ := h
  cases op with
  | add_tag t =>
    simp only [DbOp.apply, add_tag, lock_guard, hfree, Bool.false_eq_true, if_false,
      Option.map_some', Option.some.injEq] at hop
    subst hop
    exact ⟨rfl, well_formed_add_tag_body _ t hwf⟩
  | remove_tag id =>
    simp only [DbOp.apply, remove_tag, lock_guard, hfree, Bool.false_eq_true, if_false,
      Option.map_some', Option.some.injEq] at hop
    subst hop
    exact ⟨rfl, well_formed_remove_tag_body _ id hwf⟩
  | remove_tags_in_file p =>
    simp only [DbOp.apply, remove_tags_in_file, lock_guard, hfree, Bool.false_eq_true,
      if_false, Option.map_some', Option.some.injEq] at hop
    subst hop
    exact ⟨rfl, well_formed_remove_tags_in_file_body _ p hwf⟩
  | remove_tags_in_paths ps =>
    simp only [DbOp.apply, remove_tags_in_paths, lock_guard, hfree, Bool.false_eq_true,
      if_false] at hop
    cases hr : remove_each { db with db_mutex := true }
        (ids_to_remove db.tags_by_id ps) with
    | none => rw [hr] at hop; exact absurd hop (by simp)
    | some d =>
      rw [hr] at hop
      simp only [Option.map_some', Option.some.injEq] at hop
      subst hop
      obtain ⟨_, hd⟩ := remove_each_locked _ rfl _ _ hr
      subst hd
      exact ⟨rfl, hwf⟩

theorem well_formed_run_ops : ∀ (ops : List DbOp) (db db1 : TagDatabase),
    well_formed db → run_ops db ops = some db1 → well_formed db1 := by
  intro ops
  induction ops with
  | nil =>
    intro db db1 h hr
    simp only [run_ops, Option.some.injEq] at hr
    exact hr ▸ h
  | cons op rest ih =>
    intro db db1 h hr
    simp only [run_ops] at hr
    cases hop : op.apply db with
    | none => rw [hop] at hr; exact absurd hr (by simp)
    | some d =>
      rw [hop] at hr
      exact ih d db1 (well_formed_apply db d op h hop) hr

/-- Every reachable database satisfies the representation invariant. -/
theorem well_formed_of_reachable {db : TagDatabase} (h : Reachable db) : well_formed db := by
  obtain ⟨ops, hops⟩ := h
  exact well_formed_run_ops ops TagDatabase.empty db
    ⟨rfl, by simp [TagDatabase.empty], by simp [TagDatabase.empty]⟩ hops

theorem filter_id_map_set (t : Tag) : ∀ m : List (Str × Tag),
    (m.map fun e => e.1).Nodup → (∀ e ∈ m, e.2.id = e.1) →
    ((map_set m t.id t).map fun e => e.2).filter (fun r => r.id = t.id) = [t] := by
  intro m
  induction m with
  | nil => intro _ _; simp [map_set]
  | cons e0 rest ih =>
    obtain ⟨k1, v1⟩ := e0
    intro hnd hid
    have hrest : ∀ e ∈ rest, e.2.id = e.1 := fun e he => hid e (List.mem_cons_of_mem _ he)
    have hv1 : v1.id = k1 := hid (k1, v1) (List.mem_cons_self _ _)
    simp only [List.map_cons, List.nodup_cons] at hnd
    simp only [map_set]
    split
    · rename_i h1
      have hnone : (rest.map fun e => e.2).filter (fun r => r.id = t.id) = [] := by
        apply List.filter_eq_nil_iff.mpr
        intro r hr
        obtain ⟨e, he, rfl⟩ := List.mem_map.mp hr
        have : e.2.id ≠ t.id := by
          rw [hrest e he]
          intro heq
          exact hnd.1 (List.mem_map.mpr ⟨e, he, by rw [heq, h1]⟩)
        simpa using this
      simp [List.filter_cons, hnone]
    · rename_i h1
      have : ¬ v1.id = t.id := by rw [hv1]; exact h1
      simp only [List.map_cons, List.filter_cons, decide_eq_true_eq, this, if_false]
      exact ih hnd.2 hrest

/-- C14: on every index, `add_tag(t)` returns, and afterwards `get_all_tags` holds
exactly one record with the id of `t`, equal to `t`; no two of its records share an id;
and `get_tag_ids_in_file(t.file_path)` contains the id of `t`. -/
theorem add_tag_upsert (db : TagDatabase) (t : Tag) (h : Reachable db) :
    ∃ db1 tags ids, add_tag db t = some db1 ∧ get_all_tags db1 = some tags ∧
      tags.filter (fun r => r.id = t.id) = [t] ∧ (tags.map fun r => r.id).Nodup ∧
      get_tag_ids_in_file db1 t.file_path = some ids ∧ t.id ∈ ids := by
  obtain ⟨hfree, hnd, hid⟩ := well_formed_of_reachable h
  obtain ⟨hnd1, hid1⟩ := well_formed_add_tag_body { db with db_mutex := true } t ⟨hnd, hid⟩
  refine ⟨unlock_guard (add_tag_body { db with db_mutex := true } t), _, _, ?_, rfl, ?_, ?_,
    rfl, ?_⟩
  · simp [add_tag, lock_guard, hfree]
  · exact filter_id_map_set t db.tags_by_id hnd hid
  · have e : ((add_tag_body { db with db_mutex := true } t).tags_by_id.map fun e => e.2).map
        (fun r => r.id)
        = (add_tag_body { db with db_mutex := true } t).tags_by_id.map fun e => e.1 := by
      rw [List.map_map]
      apply List.map_congr_left
      intro e he
      exact hid1 e he
    simp only [unlock_guard]
    rw [e]
    exact hnd1
  · simp only [unlock_guard, add_tag_body, map_find_map_set_same, Option.getD_some, set_insert]
    split
    · assumption
    · simp

theorem sample_db_reachable : Reachable sample_db :=
  ⟨[.add_tag (sample_tag "CT-00000001" "a.py"), .add_tag (sample_tag "CT-00000002" "a.py"),
    .add_tag (sample_tag "CT-00000003" "b.py")], by decide⟩

/-- C14 at the sample index, overwriting the record of `CT-00000003` with one in `a.py`. -/
theorem add_tag_upsert_witness :
    ∃ db1 tags ids, add_tag sample_db (sample_tag "CT-00000003" "a.py") = some db1 ∧
      get_all_tags db1 = some tags ∧
      tags.filter (fun r => r.id = (sample_tag "CT-00000003" "a.py").id)
        = [sample_tag "CT-00000003" "a.py"] ∧
      (tags.map fun r => r.id).Nodup ∧
      get_tag_ids_in_file db1 (sample_tag "CT-00000003" "a.py").file_path = some ids ∧
      (sample_tag "CT-00000003" "a.py").id ∈ ids :=
  add_tag_upsert sample_db (sample_tag "CT-00000003" "a.py") sample_db_reachable

theorem mem_set_erase (s : List Str) (id x : Str) : x ∈ set_erase s id ↔ x ∈ s ∧ x ≠ id := by
  simp [set_erase, List.mem_filter]

/-- C15: `remove_tag(id)` leaves an index without a record for `id` exactly as it was;
on an index with such a record it erases the record from the id map, takes `id` out of
the id set of the record's path (the set is dropped when it becomes empty), and leaves
every other record and every other id set as they were. -/
theorem remove_tag_spec (db : TagDatabase) (id : Str) (hfree : db.db_mutex = false) :
    (map_find db.tags_by_id id = none → remove_tag db id = some db) ∧
    (∀ t, map_find db.tags_by_id id = some t →
      ∃ db1, remove_tag db id = some db1 ∧
        map_find db1.tags_by_id id = none ∧
        (∀ id2, id2 ≠ id → map_find db1.tags_by_id id2 = map_find db.tags_by_id id2) ∧
        map_find db1.file_to_ids t.file_path
          = (if set_erase ((map_find db.file_to_ids t.file_path).getD []) id = [] then none
             else some (set_erase ((map_find db.file_to_ids t.file_path).getD []) id)) ∧
        id ∉ (map_find db1.file_to_ids t.file_path).getD [] ∧
        (∀ p, p ≠ t.file_path → map_find db1.file_to_ids p = map_find db.file_to_ids p)) := by
  constructor
  · intro hnone
    simp only [remove_tag, lock_guard, hfree, Bool.false_eq_true, if_false, Option.map_some',
      remove_tag_body, hnone, unlock_guard]
    cases db
    simp only at hfree
    subst hfree
    rfl
  · intro t ht
    refine ⟨unlock_guard (remove_tag_body { db with db_mutex := true } id), ?_, ?_, ?_, ?_, ?_,
      ?_⟩
    · simp [remove_tag, lock_guard, hfree]
    · simp only [unlock_guard, remove_tag_body, ht]
      exact map_find_map_erase_same _ _
    · intro id2 hne
      simp only [unlock_guard, remove_tag_body, ht]
      exact map_find_map_erase_other _ _ hne _
    · simp only [unlock_guard, remove_tag_body, ht]
      by_cases hemp : set_erase ((map_find db.file_to_ids t.file_path).getD []) id = []
      · simp only [hemp, List.isEmpty_nil, if_true]
        exact map_find_map_erase_same _ _
      · have hne : (set_erase ((map_find db.file_to_ids t.file_path).getD []) id).isEmpty
            = false := by
          cases hs : set_erase ((map_find db.file_to_ids t.file_path).getD []) id with
          | nil => exact absurd hs hemp
          | cons a b => rfl
        simp only [hne, Bool.false_eq_true, if_false, hemp]
        exact map_find_map_set_same _ _ _
    · simp only [unlock_guard, remove_tag_body, ht]
      by_cases hemp : (set_erase ((map_find db.file_to_ids t.file_path).getD []) id).isEmpty
          = true
      · simp only [hemp, if_true]
        rw [map_find_map_erase_same]
        simp
      · simp only [hemp, Bool.false_eq_true, if_false]
        rw [map_find_map_set_same]
        simp only [Option.getD_some]
        intro hmem
        exact ((mem_set_erase _ _ _).mp hmem).2 rfl
    · intro p hp
      simp only [unlock_guard, remove_tag_body, ht]
      split
      · rw [map_find_map_erase_other _ _ hp, map_find_map_set_other _ _ _ hp]
      · rw [map_find_map_set_other _ _ _ hp]

/-- C15 at the sample index, for an id it holds and for one it does not hold. -/
theorem remove_tag_spec_witness :
    (map_find sample_db.tags_by_id "CT-00000009".toList = none →
      remove_tag sample_db "CT-00000009".toList = some sample_db) ∧
    (∃ db1, remove_tag sample_db "CT-00000003".toList = some db1 ∧
      map_find db1.tags_by_id "CT-00000003".toList = none ∧
      map_find db1.file_to_ids "b.py".toList = none) := by
  refine ⟨(remove_tag_spec sample_db "CT-00000009".toList rfl).1, ?_⟩
  obtain ⟨db1, h1, h2, _, h4, _, _⟩ :=
    (remove_tag_spec sample_db "CT-00000003".toList rfl).2 (sample_tag "CT-00000003" "b.py")
      (by decide)
  refine ⟨db1, h1, h2, ?_⟩
  rw [show "b.py".toList = (sample_tag "CT-00000003" "b.py").file_path from rfl, h4]
  decide

/-! ## `process_file_event` -/

theorem map_find_foldl_erase {β : Type} (x : Str) : ∀ (ids : List Str) (m : List (Str × β)),
    map_find (ids.foldl map_erase m) x = if x ∈ ids then none else map_find m x := by
  intro ids
  induction ids with
  | nil => intro m; simp
  | cons i rest ih =>
    intro m
    rw [List.foldl_cons, ih]
    by_cases h1 : x ∈ rest
    · simp [h1]
    · by_cases h2 : x = i
      · subst h2
        simp [h1, map_find_map_erase_same]
      · simp [h1, h2, map_find_map_erase_other _ _ h2]

theorem mem_foldl_erase {β : Type} (e : Str × β) : ∀ (ids : List Str) (m : List (Str × β)),
    e ∈ ids.foldl map_erase m → e ∈ m ∧ e.1 ∉ ids := by
  intro ids
  induction ids with
  | nil => intro m h; exact ⟨h, by simp⟩
  | cons i rest ih =>
    intro m h
    rw [List.foldl_cons] at h
    obtain ⟨h1, h2⟩ := ih _ h
    have h3 := List.mem_filter.mp h1
    refine ⟨h3.1, ?_⟩
    intro hmem
    rcases List.mem_cons.mp hmem with hmem | hmem
    · simpa [hmem] using h3.2
    · exact h2 hmem

/-- What the branch for an ignored or vanished path does to the watcher. -/
theorem drop_file_spec (env : Env) (w : FileWatcher) (fs : FileSystem) (path : Str)
    (hfree : w.tag_db.db_mutex = false) (hkeys : ∀ e ∈ w.tag_db.tags_by_id, e.2.id = e.1) :
    ∃ w1 ids tags, drop_file env w fs path = some (w1, fs) ∧
      get_tag_ids_in_file w.tag_db path = some ids ∧
      (∀ id ∈ ids, map_find w1.tag_db.tags_by_id id = none) ∧
      get_tag_ids_in_file w1.tag_db path = some [] ∧
      map_find w1.last_known_mtime path = none ∧
      get_all_tags w1.tag_db = some tags ∧
      w1.artifact_writes = w.artifact_writes ++ [artifact_text env.ft tags] ∧
      (∀ t ∈ tags, t.id ∉ ids) := by
  have hdrop : drop_file env w fs path
      = some ({ w with
          tag_db := unlock_guard
            (remove_tags_in_file_body { w.tag_db with db_mutex := true } path),
          artifact_writes := w.artifact_writes ++ [artifact_text env.ft
            ((remove_tags_in_file_body { w.tag_db with db_mutex := true } path).tags_by_id.map
              fun e => e.2)],
          last_known_mtime := map_erase w.last_known_mtime path }, fs) := by
    simp [drop_file, remove_tags_in_file, lock_guard, hfree, update_codetags_file,
      get_all_tags, unlock_guard]
  refine ⟨_, (map_find w.tag_db.file_to_ids path).getD [], _, hdrop, ?_, ?_, ?_, ?_, ?_, rfl, ?_⟩
  · simp [get_tag_ids_in_file, lock_guard, hfree]
  · intro id hid
    simp only [unlock_guard, remove_tags_in_file_body]
    cases hf : map_find w.tag_db.file_to_ids path with
    | none => rw [hf] at hid; simp at hid
    | some ids =>
      rw [hf] at hid
      simp only [Option.getD_some] at hid
      simp only [map_find_foldl_erase, hid, if_true]
  · simp only [get_tag_ids_in_file, lock_guard, unlock_guard, Bool.false_eq_true, if_false,
      Option.map_some', remove_tags_in_file_body]
    cases hf : map_find w.tag_db.file_to_ids path with
    | none => simp [hf]
    | some ids => simp [map_find_map_erase_same]
  · exact map_find_map_erase_same _ _
  · simp [get_all_tags, lock_guard, unlock_guard]
  · intro t ht
    simp only [remove_tags_in_file_body] at ht
    cases hf : map_find w.tag_db.file_to_ids path with
    | none => simp
    | some ids =>
      rw [hf] at ht
      simp only [Option.getD_some]
      obtain ⟨e, he, rfl⟩ := List.mem_map.mp ht
      obtain ⟨h1, h2⟩ := mem_foldl_erase e ids _ he
      rw [hkeys e h1]
      exact h2

/-- C16: for a path that is not ignored, has an eligible extension and fails `stat`,
`process_file_event` erases from the id map every id that `get_tag_ids_in_file(path)`
held, leaves that id set empty, forgets the last known modification time of the path,
and then writes the artifact of the resulting index, in which no tag has one of those
ids; the file system is not touched. -/
theorem process_file_event_deleted (env : Env) (w : FileWatcher) (fs : FileSystem) (path : Str)
    (hfree : w.tag_db.db_mutex = false) (hkeys : ∀ e ∈ w.tag_db.tags_by_id, e.2.id = e.1)
    (hign : should_ignore env.fnm w.directory_path w.ignore_patterns path = false)
    (hext : path_has_extension path = true)
    (hsrc : is_source_file (path_extension path) = true)
    (hstat : fs_stat fs path = none) :
    ∃ w1 ids tags, process_file_event env w fs path = some (w1, fs) ∧
      get_tag_ids_in_file w.tag_db path = some ids ∧
      (∀ id ∈ ids, map_find w1.tag_db.tags_by_id id = none) ∧
      get_tag_ids_in_file w1.tag_db path = some [] ∧
      map_find w1.last_known_mtime path = none ∧
      get_all_tags w1.tag_db = some tags ∧
      w1.artifact_writes = w.artifact_writes ++ [artifact_text env.ft tags] ∧
      (∀ t ∈ tags, t.id ∉ ids) := by
  have hstep : process_file_event env w fs path = drop_file env w fs path := by
    simp [process_file_event, hign, hext, hsrc, hstat]
  rw [hstep]
  exact drop_file_spec env w fs path hfree hkeys

/-- C18: for a path that is not ignored, has an eligible extension and whose `st_mtime`
equals the value stored in `last_known_mtime`, `process_file_event` changes nothing:
not the watcher (index, table of times, artifact writes, count of parses) and not the
file system. -/
theorem process_file_event_debounce (env : Env) (w : FileWatcher) (fs : FileSystem)
    (path : Str) (m : Int)
    (hign : should_ignore env.fnm w.directory_path w.ignore_patterns path = false)
    (hext : path_has_extension path = true)
    (hsrc : is_source_file (path_extension path) = true)
    (hstat : fs_stat fs path = some m)
    (hknown : map_find w.last_known_mtime path = some m) :
    process_file_event env w fs path = some (w, fs) := by
  simp [process_file_event, hign, hext, hsrc, hstat, hknown]

/-! ## `should_ignore`: the candidate paths -/

theorem find_last_of_scan_spec (c : Char) : ∀ (xs : Str) (i : Nat) (last : Option Nat),
    (c ∉ xs → find_last_of_scan c xs i last = last) ∧
    (∀ a b, xs = a ++ c :: b → c ∉ b → find_last_of_scan c xs i last = some (i + a.length)) := by
  intro xs
  induction xs with
  | nil =>
    intro i last
    refine ⟨fun _ => rfl, fun a b h _ => ?_⟩
    exact absurd h (by simp)
  | cons x xs ih =>
    intro i last
    simp only [find_last_of_scan]
    constructor
    · intro hc
      simp only [List.mem_cons, not_or] at hc
      rw [(ih (i + 1) _).1 hc.2, if_neg (fun e => hc.1 e.symm)]
    · intro a b h hb
      cases a with
      | nil =>
        simp only [List.nil_append, List.cons.injEq] at h
        obtain ⟨h1, h2⟩ := h
        subst h1 h2
        rw [(ih (i + 1) _).1 hb]
        simp
      | cons y a1 =>
        simp only [List.cons_append, List.cons.injEq] at h
        obtain ⟨_, h2⟩ := h
        rw [(ih (i + 1) _).2 a1 b h2 hb]
        simp only [List.length_cons]
        congr 1
        omega

theorem exists_last_split (c : Char) : ∀ s : Str, c ∈ s → ∃ a b, s = a ++ c :: b ∧ c ∉ b := by
  intro s
  induction s with
  | nil => intro h; simp at h
  | cons x xs ih =>
    intro h
    by_cases hxs : c ∈ xs
    · obtain ⟨a, b, h1, h2⟩ := ih hxs
      exact ⟨x :: a, b, by rw [h1]; rfl, h2⟩
    · have hx : c = x := by
        rcases List.mem_cons.mp h with h | h
        · exact h
        · exact absurd h hxs
      subst hx
      exact ⟨[], xs, rfl, hxs⟩

/-- The candidates that `should_ignore` adds to the path itself are its proper
prefixes that end right before a `/`, each followed by a `/`. -/
theorem mem_ancestors_loop : ∀ (fuel : Nat) (s : Str), s.length < fuel → ∀ cp : Str,
    cp ∈ ancestors_loop fuel s ↔ ∃ t rest, cp = t ++ ['/'] ∧ s = t ++ '/' :: rest := by
  intro fuel
  induction fuel with
  | zero => intro s h; omega
  | succ fuel ih =>
    intro s hlen cp
    simp only [ancestors_loop]
    by_cases hemp : s.isEmpty = true
    · rw [if_pos hemp]
      have hs : s = [] := List.isEmpty_iff.mp hemp
      subst hs
      simp
    · rw [if_neg hemp]
      by_cases hmem : '/' ∈ s
      · obtain ⟨a, b, hs, hb⟩ := exists_last_split '/' s hmem
        have hfind : find_last_of s '/' = some a.length := by
          have := (find_last_of_scan_spec '/' s 0 none).2 a b hs hb
          simpa [find_last_of] using this
        have htake : substr s 0 a.length = a := by
          simp [substr, hs]
        have hlen2 : a.length < fuel := by
          have : s.length = a.length + 1 + b.length := by rw [hs]; simp; omega
          omega
        simp only [hfind, htake, List.mem_cons, ih a hlen2 cp]
        constructor
        · rintro (h | ⟨t, rest, h1, h2⟩)
          · exact ⟨a, b, h, hs⟩
          · exact ⟨t, rest ++ '/' :: b, h1, by rw [hs, h2]; simp⟩
        · rintro ⟨t, rest, h1, h2⟩
          rw [hs] at h2
          rcases List.append_eq_append_iff.mp h2 with ⟨a1, h3, h4⟩ | ⟨c1, h3, h4⟩
          · cases a1 with
            | nil => left; rw [h1, h3]; simp
            | cons y a2 =>
              exfalso
              simp only [List.cons_append, List.cons.injEq] at h4
              apply hb
              rw [h4.2]
              simp
          · cases c1 with
            | nil => left; rw [h1, h3]; simp
            | cons y c2 =>
              right
              simp only [List.cons_append, List.cons.injEq] at h4
              exact ⟨t, c2, h1, by rw [h3, ← h4.1]⟩
      · have hfind : find_last_of s '/' = none := by
          have := (find_last_of_scan_spec '/' s 0 none).1 hmem
          simpa [find_last_of] using this
        simp only [hfind, List.not_mem_nil, false_iff]
        rintro ⟨t, rest, _, h2⟩
        apply hmem
        rw [h2]
        simp

theorem fnmatch_fuel_literal : ∀ (p : Str) (fuel : Nat) (s : Str), glob_literal p →
    p.length < fuel → (fnmatch_fuel fuel p s = true ↔ s = p) := by
  intro p
  induction p with
  | nil =>
    intro fuel s _ hfuel
    cases fuel with
    | zero => omega
    | succ fuel => simp [fnmatch_fuel, List.isEmpty_iff]
  | cons x p ih =>
    intro fuel s hlit hfuel
    cases fuel with
    | zero => omega
    | succ fuel =>
      have hx := hlit x (List.mem_cons_self _ _)
      have hp : glob_literal p := fun c hc => hlit c (List.mem_cons_of_mem _ hc)
      have hfuel2 : p.length < fuel := by simp at hfuel; omega
      have hstep : fnmatch_fuel (fuel + 1) (x :: p) s
          = (match s with
             | c :: s1 => c == x && fnmatch_fuel fuel p s1
             | [] => false) := by
        conv_lhs => unfold fnmatch_fuel
        split
        · rename_i h; exact absurd h (by simp)
        · rename_i h
          simp only [List.cons.injEq] at h
          exact absurd h.1 hx.1
        · rename_i h
          simp only [List.cons.injEq] at h
          exact absurd h.1 hx.2.1
        · rename_i h
          simp only [List.cons.injEq] at h
          exact absurd h.1 hx.2.2.2
        · rename_i h
          simp only [List.cons.injEq] at h
          exact absurd h.1 hx.2.2.2
        · rename_i h
          simp only [List.cons.injEq] at h
          exact absurd h.1 hx.2.2.1
        · rename_i h
          simp only [List.cons.injEq] at h
          obtain ⟨h1, h2⟩ := h
          subst h1 h2
          rfl
      rw [hstep]
      cases s with
      | nil => simp
      | cons c s1 =>
        simp only [Bool.and_eq_true, beq_iff_eq, ih fuel s1 hp hfuel2, List.cons.injEq]

/-- A pattern without metacharacters matches its own text and nothing else. -/
theorem fnmatch_pathname_literal (p s : Str) (h : glob_literal p) :
    fnmatch_pathname p s = true ↔ s = p :=
  fnmatch_fuel_literal p (p.length + 1) s h (Nat.lt_succ_self _)

/-! ## `should_ignore`: single patterns -/

theorem should_ignore_under (fnm : Str → Str → Bool) (root : Str) (pats : List Str) (rel : Str) :
    should_ignore fnm root pats (root ++ '/' :: rel)
      = if rel.isEmpty then false else patterns_loop fnm rel pats := by
  have h1 : root.length < (root ++ '/' :: rel).length := by simp
  have h2 : substr (root ++ '/' :: rel) 0 root.length = root := by simp [substr]
  have h3 : (root ++ '/' :: rel).getD root.length ' ' = '/' := by
    have := getD_append_at root ('/' :: rel) 0 ' '
    simpa using this
  have h4 : substr_from (root ++ '/' :: rel) (root.length + 1) = rel := by
    simp [substr_from]
  simp only [should_ignore, h1, h2, h3, h4, decide_True, beq_self_eq_true, Bool.and_self,
    if_true]

theorem ends_with_slash_concat (s : Str) : ends_with_slash (s ++ ['/']) = true := by
  simp [ends_with_slash]

theorem ends_with_slash_split {s : Str} (h : ends_with_slash s = true) :
    s = s.dropLast ++ ['/'] := by
  have h1 : s.getLast? = some '/' := by simpa [ends_with_slash] using h
  exact (List.dropLast_append_getLast? '/' (by simp [h1])).symm

theorem ends_with_slash_cons {a : Char} {s : Str} (h : s ≠ []) :
    ends_with_slash (a :: s) = ends_with_slash s := by
  cases s with
  | nil => exact absurd rfl h
  | cons b t => simp [ends_with_slash, List.getLast?_cons_cons]

theorem ends_with_slash_of_not_mem {s : Str} (h : '/' ∉ s) : ends_with_slash s = false := by
  cases hs : ends_with_slash s with
  | false => rfl
  | true =>
    exfalso
    apply h
    rw [ends_with_slash_split hs]
    simp

/-- For an anchored pattern that is not restricted to directories, the loop over the
candidates asks whether the pattern matches one of them without its trailing `/`. -/
theorem check_paths_loop_anchored (fnm : Str → Str → Bool) (pat : Str) : ∀ list : List Str,
    check_paths_loop fnm pat false true list
      = list.any fun cp => fnm pat (if ends_with_slash cp then cp.dropLast else cp) := by
  intro list
  induction list with
  | nil => rfl
  | cons cp rest ih =>
    simp only [check_paths_loop, List.any_cons, ih]
    cases fnm pat (if ends_with_slash cp = true then cp.dropLast else cp) <;> simp

/-- For a pattern restricted to directories, a matching candidate that ends in `/`
makes the loop return true. -/
theorem check_paths_loop_dir (fnm : Str → Str → Bool) (pat : Str) (anchored : Bool) :
    ∀ list : List Str,
      (∃ cp ∈ list, ends_with_slash cp = true ∧ fnm pat cp.dropLast = true) →
      check_paths_loop fnm pat true anchored list = true := by
  intro list
  induction list with
  | nil => rintro ⟨cp, h, _⟩; simp at h
  | cons c rest ih =>
    rintro ⟨cp, hmem, hs, hm⟩
    simp only [check_paths_loop]
    rcases List.mem_cons.mp hmem with h | h
    · subst h
      simp [hs, hm]
    · have hrest := ih ⟨cp, h, hs, hm⟩
      rw [hrest]
      simp

/-- C13: for a non-empty name `x` without glob metacharacters and without a trailing
`/`, the single pattern `/x` makes `should_ignore(root/p)` true exactly when `p` is `x`
or begins with `x/`. -/
theorem should_ignore_anchored (root x p : Str) (hlit : glob_literal x) (hne : x ≠ [])
    (hend : ends_with_slash x = false) :
    should_ignore fnmatch_pathname root ['/' :: x] (root ++ '/' :: p) = true ↔
      (p = x ∨ (x ++ ['/']) <+: p) := by
  rw [should_ignore_under]
  by_cases hp : p = []
  · subst hp
    simp only [List.isEmpty_nil, if_true, Bool.false_eq_true, false_iff, not_or]
    refine ⟨fun h => hne h.symm, ?_⟩
    rintro ⟨t, ht⟩
    simp at ht
  · have hpe : p.isEmpty = false := by
      cases p with
      | nil => exact absurd rfl hp
      | cons a b => rfl
    have hloop : patterns_loop fnmatch_pathname p ['/' :: x]
        = check_paths_loop fnmatch_pathname x false true
            (p :: ancestors_loop (p.length + 1) p) := by
      simp only [patterns_loop, List.isEmpty_cons, List.head?_cons, ends_with_slash_cons hne,
        hend, Bool.false_eq_true, if_false, substr_from, List.drop_succ_cons, List.drop_zero]
      simp
    rw [hpe, hloop, check_paths_loop_anchored]
    simp only [Bool.false_eq_true, if_false, List.any_eq_true, fnmatch_pathname_literal _ _ hlit]
    constructor
    · rintro ⟨cp, hmem, hclean⟩
      rcases List.mem_cons.mp hmem with h | h
      · subst h
        by_cases hs : ends_with_slash cp = true
        · rw [if_pos hs] at hclean
          right
          rw [ends_with_slash_split hs, hclean]
        · rw [if_neg hs] at hclean
          exact Or.inl hclean
      · obtain ⟨t, rest, h1, h2⟩ := (mem_ancestors_loop _ p (Nat.lt_succ_self _) cp).mp h
        rw [h1, ends_with_slash_concat, if_pos rfl, List.dropLast_concat] at hclean
        right
        rw [h2, hclean]
        exact ⟨rest, by simp⟩
    · rintro (h | ⟨rest, h⟩)
      · refine ⟨p, List.mem_cons_self _ _, ?_⟩
        rw [h, hend]
        simp
      · refine ⟨x ++ ['/'], List.mem_cons_of_mem _ ?_, ?_⟩
        · exact (mem_ancestors_loop _ p (Nat.lt_succ_self _) _).mpr
            ⟨x, rest, rfl, by rw [← h]; simp⟩
        · rw [ends_with_slash_concat, if_pos rfl, List.dropLast_concat]

/-- C13 for `/secret.txt`: the top-level `secret.txt` is ignored, `lib/secret.txt` is not. -/
theorem should_ignore_anchored_witness :
    (should_ignore fnmatch_pathname "/repo".toList ['/' :: "secret.txt".toList]
        ("/repo".toList ++ '/' :: "secret.txt".toList) = true ↔
      ("secret.txt".toList = "secret.txt".toList ∨
        ("secret.txt".toList ++ ['/']) <+: "secret.txt".toList)) ∧
    (should_ignore fnmatch_pathname "/repo".toList ['/' :: "secret.txt".toList]
        ("/repo".toList ++ '/' :: "lib/secret.txt".toList) = true ↔
      ("lib/secret.txt".toList = "secret.txt".toList ∨
        ("secret.txt".toList ++ ['/']) <+: "lib/secret.txt".toList)) :=
  ⟨should_ignore_anchored "/repo".toList "secret.txt".toList "secret.txt".toList
      (by decide) (by decide) (by decide),
   should_ignore_anchored "/repo".toList "secret.txt".toList "lib/secret.txt".toList
      (by decide) (by decide) (by decide)⟩

/-- C12 as stated fails for a name that begins with `#`: the pattern `#tmp/` is
skipped as a comment and nothing under `#tmp/` is ignored. -/
theorem should_ignore_directory_pattern_hash :
    glob_literal "#tmp".toList ∧ '/' ∉ "#tmp".toList ∧
    should_ignore fnmatch_pathname "/repo".toList ["#tmp/".toList]
      "/repo/#tmp/output.log".toList = false := by
  refine ⟨by decide, by decide, by decide⟩

/-- C12, amended: for a name `d` without glob metacharacters and without `/` that does
not begin with `#`, the single pattern `d/` ignores every path under `d/` and does not
ignore the path `d` itself. -/
theorem should_ignore_directory_pattern (root d rest : Str) (hlit : glob_literal d)
    (hslash : '/' ∉ d) (hhash : d.head? ≠ some '#') :
    should_ignore fnmatch_pathname root [d ++ ['/']] (root ++ '/' :: (d ++ '/' :: rest)) = true ∧
    should_ignore fnmatch_pathname root [d ++ ['/']] (root ++ '/' :: d) = false := by
  have hpat1 : (d ++ ['/']).isEmpty = false := by cases d <;> rfl
  have hpat2 : ((d ++ ['/']).head? == some '#') = false := by
    cases d with
    | nil => rfl
    | cons a b =>
      simp only [List.cons_append, List.head?_cons] at hhash ⊢
      simpa using hhash
  have hanch : (d.head? == some '/') = false := by
    cases d with
    | nil => rfl
    | cons a b =>
      have : a ≠ '/' := fun e => hslash (e ▸ List.mem_cons_self _ _)
      simpa using this
  have hloop : ∀ rel : Str, patterns_loop fnmatch_pathname rel [d ++ ['/']]
      = check_paths_loop fnmatch_pathname d true false
          (rel :: ancestors_loop (rel.length + 1) rel) := by
    intro rel
    simp only [patterns_loop, hpat1, hpat2, Bool.or_self, Bool.false_eq_true, if_false,
      ends_with_slash_concat, if_true, List.dropLast_concat, hanch]
    simp
  constructor
  · rw [should_ignore_under]
    have hne : (d ++ '/' :: rest).isEmpty = false := by cases d <;> rfl
    rw [hne, hloop]
    simp only [Bool.false_eq_true, if_false]
    apply check_paths_loop_dir
    refine ⟨d ++ ['/'], List.mem_cons_of_mem _ ?_, ends_with_slash_concat d, ?_⟩
    · exact (mem_ancestors_loop _ _ (Nat.lt_succ_self _) _).mpr ⟨d, rest, rfl, rfl⟩
    · rw [List.dropLast_concat]
      exact (fnmatch_pathname_literal d d hlit).mpr rfl
  · rw [should_ignore_under]
    by_cases hd : d.isEmpty = true
    · rw [if_pos hd]
    · rw [if_neg hd, hloop]
      have hanc : ancestors_loop (d.length + 1) d = [] := by
        apply List.eq_nil_iff_forall_not_mem.mpr
        intro cp hcp
        obtain ⟨t, r, _, h2⟩ := (mem_ancestors_loop _ d (Nat.lt_succ_self _) cp).mp hcp
        apply hslash
        rw [h2]
        simp
      rw [hanc]
      simp [check_paths_loop, ends_with_slash_of_not_mem hslash]

/-- C12, amended, for `build/`: `build/output.log` is ignored, `build` itself is not. -/
theorem should_ignore_directory_pattern_witness :
    should_ignore fnmatch_pathname "/repo".toList ["build".toList ++ ['/']]
      ("/repo".toList ++ '/' :: ("build".toList ++ '/' :: "output.log".toList)) = true ∧
    should_ignore fnmatch_pathname "/repo".toList ["build".toList ++ ['/']]
      ("/repo".toList ++ '/' :: "build".toList) = false :=
  should_ignore_directory_pattern "/repo".toList "build".toList "output.log".toList
    (by decide) (by decide) (by decide)

/-! ## `parse_file` on a fresh `// TODO: ` line -/

theorem find_scan_none_of_no_occurrence (pat rest : Str) (i : Nat)
    (h : ∀ k, ¬ occurs_at pat rest k) : find_scan pat rest i = none := by
  cases hf : find_scan pat rest i with
  | none => rfl
  | some j =>
    obtain ⟨_, h2, h3, _⟩ := find_scan_some pat rest i j hf
    exact absurd ⟨h2, h3⟩ (h (j - i))

theorem find_zero_eq (s pat : Str) : find s pat 0 = find_scan pat s 0 := by
  simp [find]

theorem find_scan_skip (a : Char) (pt T : Str) : ∀ (pre : Str) (i : Nat), a ∉ pre →
    find_scan (a :: pt) (pre ++ T) i = find_scan (a :: pt) T (i + pre.length) := by
  intro pre
  induction pre with
  | nil => intro i _; simp
  | cons x pre ih =>
    intro i hx
    simp only [List.mem_cons, not_or] at hx
    have hne : (a == x) = false := by simpa using hx.1
    simp only [List.cons_append, find_scan, List.isPrefixOf, hne, Bool.false_and,
      Bool.false_eq_true, if_false]
    change find_scan (a :: pt) (pre ++ T) (i + 1) = _
    rw [ih (i + 1) hx.2]
    simp only [List.length_cons]
    congr 1
    omega

theorem find_scan_hit (pat rest : Str) (i : Nat) : find_scan pat (pat ++ rest) i = some i := by
  have hp : pat.isPrefixOf (pat ++ rest) = true :=
    List.isPrefixOf_iff_prefix.mpr (List.prefix_append _ _)
  cases h : pat ++ rest with
  | nil =>
    rw [h] at hp
    simp [find_scan, hp]
  | cons x xs =>
    rw [h] at hp
    simp [find_scan, hp]

/-- A text with a character that `A` lacks and without the separator does not stand
anywhere in `A ++ sep :: B` unless it stands in `B`. -/
theorem no_occurrence_after_sep (pat A B : Str) (sep x : Char) (hx : x ∈ pat) (hxA : x ∉ A)
    (hsep : sep ∉ pat) (hB : ∀ k, ¬ occurs_at pat B k) :
    ∀ k, ¬ occurs_at pat (A ++ sep :: B) k := by
  intro k hocc
  obtain ⟨hk, hpre⟩ := hocc
  by_cases hle : k ≤ A.length
  · have hdrop : (A ++ sep :: B).drop k = A.drop k ++ sep :: B := by
      rw [List.drop_append_of_le_length hle]
    rw [hdrop] at hpre
    have h2 : (A.drop k ++ [sep]) <+: (A.drop k ++ sep :: B) := ⟨B, by simp⟩
    rcases List.prefix_or_prefix_of_prefix hpre h2 with h | h
    · rcases List.prefix_concat_iff.mp h with h | h
      · apply hsep
        rw [h]
        simp
      · exact hxA (List.mem_of_mem_drop (h.subset hx))
    · apply hsep
      exact h.subset (by simp)
  · have hk2 : k = (A.length + 1) + (k - A.length - 1) := by omega
    have hdrop : (A ++ sep :: B).drop k = B.drop (k - A.length - 1) := by
      rw [hk2, ← drop_add_drop]
      have : (A ++ sep :: B).drop (A.length + 1) = B := by simp
      rw [this]
      congr 1
      omega
    rw [hdrop] at hpre
    refine hB (k - A.length - 1) ⟨?_, hpre⟩
    simp at hk
    omega

theorem hex_digit_mem (d : Fin 16) : hex_digit d ∈ "0123456789ABCDEF".toList := by
  revert d
  decide

theorem generate_id_eq (rng : Nat → Fin 16) (n : Nat) :
    (generate_id rng n).1
      = "CT-".toList ++ (List.range 8).map (fun i => hex_digit (rng (n + i))) := rfl

theorem generate_id_no_colon (rng : Nat → Fin 16) (n : Nat) : ':' ∉ (generate_id rng n).1 := by
  rw [generate_id_eq]
  intro h
  rcases List.mem_append.mp h with h | h
  · exact absurd h (by decide)
  · obtain ⟨i, _, hi⟩ := List.mem_map.mp h
    have := hex_digit_mem (rng (n + i))
    rw [hi] at this
    exact absurd this (by decide)

theorem keyword_pattern_facts : ∀ K ∈ tag_types, ':' ∈ K ++ [':'] ∧ ' ' ∉ K ++ [':'] := by
  decide

theorem todo_line_find_other (T K : Str) (a : Char) (pt : Str) (hK : K ++ [':'] = a :: pt)
    (ha : a ∉ "// TODO: ".toList) (hT : ∀ k, ¬ occurs_at (K ++ [':']) T k) :
    find ("// TODO: ".toList ++ T) (K ++ [':']) 0 = none := by
  rw [find_zero_eq, hK, find_scan_skip a pt T _ 0 ha, ← hK]
  exact find_scan_none_of_no_occurrence _ _ _ hT

theorem todo_line_find_todo (T : Str) :
    find ("// TODO: ".toList ++ T) ("TODO".toList ++ [':']) 0 = some 3 := by
  have e : "// TODO: ".toList ++ T = "// ".toList ++ (("TODO".toList ++ [':']) ++ ' ' :: T) := rfl
  have e2 : "TODO".toList ++ [':'] = 'T' :: "ODO:".toList := rfl
  rw [find_zero_eq, e]
  conv_lhs => rw [e2, find_scan_skip 'T' _ _ "// ".toList 0 (by decide), ← e2]
  exact find_scan_hit _ _ _

theorem todo_line_comment_before (T : Str) (pos : Nat) :
    comment_before ("// TODO: ".toList ++ T) pos = true := by
  have e : "// TODO: ".toList ++ T = "//".toList ++ (" TODO: ".toList ++ T) := rfl
  have h : find ("// TODO: ".toList ++ T) "//".toList 0 = some 0 := by
    rw [find_zero_eq, e]
    exact find_scan_hit _ _ _
  unfold comment_before
  rw [h]
  simp

/-- A line `// TODO: ` + `T`, where `T` holds no keyword followed by `:`, qualifies
through `TODO`, and its content is `T` without leading blanks. -/
theorem todo_line_is_tag_line (T : Str)
    (hT : ∀ K ∈ tag_types, ∀ k, ¬ occurs_at (K ++ [':']) T k) :
    is_tag_line ("// TODO: ".toList ++ T) = some ("TODO".toList, lstrip T) := by
  have h1 := todo_line_find_other T "BUG".toList 'B' "UG:".toList rfl (by decide)
    (hT _ (by decide))
  have h2 := todo_line_find_other T "FIX".toList 'F' "IX:".toList rfl (by decide)
    (hT _ (by decide))
  have h3 := todo_line_find_other T "FIXME".toList 'F' "IXME:".toList rfl (by decide)
    (hT _ (by decide))
  have h4 := todo_line_find_other T "NOTE".toList 'N' "OTE:".toList rfl (by decide)
    (hT _ (by decide))
  have h5 := todo_line_find_todo T
  have h6 := todo_line_comment_before T 3
  have h7 : strip_leading (substr_from ("// TODO: ".toList ++ T)
      (3 + ("TODO".toList ++ [':']).length)) = lstrip T := by
    rw [strip_leading_eq]
    have : substr_from ("// TODO: ".toList ++ T) (3 + ("TODO".toList ++ [':']).length)
        = ' ' :: T := rfl
    rw [this]
    simp [lstrip]
  simp only [is_tag_line, tag_types, is_tag_line_loop, h1, h2, h3, h4, h5, h6, h7, if_true]

theorem todo_line_add_codetag_id (c id : Str)
    (hct : ∀ k, ¬ occurs_at "CT-".toList c k)
    (hkw : ∀ K ∈ tag_types, ∀ k, ¬ occurs_at (K ++ [':']) c k) :
    extract_codetag_id ("// TODO: ".toList ++ c) = [] ∧
    add_codetag_id ("// TODO: ".toList ++ c) id = "// TODO: ".toList ++ id ++ ' ' :: c := by
  have hfind : find ("// TODO: ".toList ++ c) "CT-".toList 0 = none := by
    have e : "CT-".toList = 'C' :: "T-".toList := rfl
    rw [find_zero_eq, e, find_scan_skip 'C' _ c _ 0 (by decide), ← e]
    exact find_scan_none_of_no_occurrence _ _ _ hct
  have hex : extract_codetag_id ("// TODO: ".toList ++ c) = [] := by
    simp only [extract_codetag_id, extract_codetag_id_loop, hfind]
  have h1 := todo_line_find_other c "BUG".toList 'B' "UG:".toList rfl (by decide)
    (hkw _ (by decide))
  have h2 := todo_line_find_other c "FIX".toList 'F' "IX:".toList rfl (by decide)
    (hkw _ (by decide))
  have h3 := todo_line_find_other c "FIXME".toList 'F' "IXME:".toList rfl (by decide)
    (hkw _ (by decide))
  have h4 := todo_line_find_other c "NOTE".toList 'N' "OTE:".toList rfl (by decide)
    (hkw _ (by decide))
  have h5 := todo_line_find_todo c
  refine ⟨hex, ?_⟩
  have hins : insert_at ("// TODO: ".toList ++ c) (3 + ("TODO".toList ++ [':']).length)
      (' ' :: id) = "// TODO: ".toList ++ id ++ ' ' :: c := by
    have e1 : ("// TODO: ".toList ++ c).take (3 + ("TODO".toList ++ [':']).length)
        = "// TODO:".toList := rfl
    have e2 : ("// TODO: ".toList ++ c).drop (3 + ("TODO".toList ++ [':']).length)
        = ' ' :: c := rfl
    simp only [insert_at, e1, e2]
    simp [String.toList]
  simp only [add_codetag_id, hex, List.isEmpty_nil, Bool.not_true, Bool.false_eq_true, if_false,
    tag_types, add_codetag_id_loop, h1, h2, h3, h4, h5, hins]

theorem todo_line_has_codetag_id (c : Str) (hct : ∀ k, ¬ occurs_at "CT-".toList c k) :
    has_codetag_id ("// TODO: ".toList ++ c) = false := by
  have hno : ∀ k, ¬ occurs_at "[CT-".toList c k := by
    intro k hocc
    apply hct (k + 1)
    obtain ⟨hk, t, ht⟩ := hocc
    have hlen : k + 4 ≤ c.length := by
      have := congrArg List.length ht
      simp [String.toList] at this
      omega
    refine ⟨by omega, t, ?_⟩
    have e : c.drop (k + 1) = (c.drop k).drop 1 := by rw [drop_add_drop]
    rw [e, ← ht]
    rfl
  have hfind : find ("// TODO: ".toList ++ c) "[CT-".toList 0 = none := by
    have e : "[CT-".toList = '[' :: "CT-".toList := rfl
    rw [find_zero_eq, e, find_scan_skip '[' _ c _ 0 (by decide), ← e]
    exact find_scan_none_of_no_occurrence _ _ _ hno
  simp only [has_codetag_id, has_codetag_id_loop, hfind]

theorem generate_id_not_starts_blank (rng : Nat → Fin 16) (n : Nat) (T : Str) :
    lstrip ((generate_id rng n).1 ++ T) = (generate_id rng n).1 ++ T := by
  apply lstrip_of_not_starts_blank
  rw [generate_id_eq]
  simp [starts_blank, String.toList]

/-- The line `// TODO: id c` that stamping produces: `is_tag_line`, `extract_codetag_id`
and the id and content of its tag. -/
theorem stamped_line_facts (rng : Nat → Fin 16) (n m : Nat) (c : Str)
    (hkw : ∀ K ∈ tag_types, ∀ k, ¬ occurs_at (K ++ [':']) c k) (hblank : ¬ starts_blank c) :
    is_tag_line ("// TODO: ".toList ++ (generate_id rng n).1 ++ ' ' :: c)
      = some ("TODO".toList, (generate_id rng n).1 ++ ' ' :: c) ∧
    (tag_id_content rng m ("// TODO: ".toList ++ (generate_id rng n).1 ++ ' ' :: c)
      "TODO".toList ((generate_id rng n).1 ++ ' ' :: c)).1 = (generate_id rng n).1 ∧
    (tag_id_content rng m ("// TODO: ".toList ++ (generate_id rng n).1 ++ ' ' :: c)
      "TODO".toList ((generate_id rng n).1 ++ ' ' :: c)).2.1 = c := by
  have hassoc : "// TODO: ".toList ++ (generate_id rng n).1 ++ ' ' :: c
      = "// TODO: ".toList ++ ((generate_id rng n).1 ++ ' ' :: c) := List.append_assoc _ _ _
  have hlen : (generate_id rng n).1.length = 11 := by
    rw [generate_id_eq]; simp [String.toList]
  -- no keyword stands in the text after `// TODO: `
  have hT : ∀ K ∈ tag_types, ∀ k,
      ¬ occurs_at (K ++ [':']) ((generate_id rng n).1 ++ ' ' :: c) k := by
    intro K hK
    obtain ⟨h1, h2⟩ := keyword_pattern_facts K hK
    exact no_occurrence_after_sep _ _ _ ' ' ':' h1 (generate_id_no_colon rng n) h2 (hkw K hK)
  have htag : is_tag_line ("// TODO: ".toList ++ (generate_id rng n).1 ++ ' ' :: c)
      = some ("TODO".toList, (generate_id rng n).1 ++ ' ' :: c) := by
    rw [hassoc, todo_line_is_tag_line _ hT, generate_id_not_starts_blank]
  -- the id is found at index 9 and accepted
  have hfind : find ("// TODO: ".toList ++ (generate_id rng n).1 ++ ' ' :: c) "CT-".toList 0
      = some 9 := by
    have e : "CT-".toList = 'C' :: "T-".toList := rfl
    rw [hassoc, find_zero_eq, e, find_scan_skip 'C' _ _ _ 0 (by decide), ← e, generate_id_eq,
      List.append_assoc]
    exact find_scan_hit _ _ _
  have hidat : id_at ("// TODO: ".toList ++ (generate_id rng n).1 ++ ' ' :: c) 9 := by
    refine ⟨"// TODO: ".toList, (List.range 8).map (fun i => hex_digit (rng (n + i))), ' ' :: c,
      ?_, rfl, by simp, ?_, ?_, ?_⟩
    · rw [generate_id_eq]
    · intro x hx
      obtain ⟨i, _, hi⟩ := List.mem_map.mp hx
      rw [← hi]
      exact hex_digit_mem _
    · intro x hx
      have : x = ' ' := by
        have e : "// TODO: ".toList.getLast? = some ' ' := rfl
        rw [e] at hx
        exact (Option.some.inj hx).symm
      subst this
      decide
    · intro x hx
      have : x = ' ' := by
        simp only [List.head?_cons, Option.some.injEq] at hx
        exact hx.symm
      subst this
      decide
  have hacc := (valid_at_of_id_at hidat).2
  have hsub : substr ("// TODO: ".toList ++ (generate_id rng n).1 ++ ' ' :: c) 9 11
      = (generate_id rng n).1 := by
    have e : ("// TODO: ".toList ++ (generate_id rng n).1 ++ ' ' :: c).drop 9
        = (generate_id rng n).1 ++ ' ' :: c := by
      rw [hassoc]; rfl
    simp only [substr, e]
    rw [List.take_append_of_le_length (by omega), List.take_of_length_le (by omega)]
  have hex : extract_codetag_id ("// TODO: ".toList ++ (generate_id rng n).1 ++ ' ' :: c)
      = (generate_id rng n).1 := by
    simp only [extract_codetag_id, extract_codetag_id_loop, hfind, hacc, if_true, hsub]
  have hne : (generate_id rng n).1 ≠ [] := by
    intro h; rw [h] at hlen; simp at hlen
  refine ⟨htag, ?_, ?_⟩
  · rw [tag_id_content_id _ _ _ _ _ (by rw [hex]; exact hne), hex]
  · have hp := todo_line_find_todo ((generate_id rng n).1 ++ ' ' :: c)
    rw [← hassoc] at hp
    have hc : (generate_id rng n).1 ++ ' ' :: c
        = strip_leading (substr_from ("// TODO: ".toList ++ (generate_id rng n).1 ++ ' ' :: c)
            (3 + "TODO".toList.length + 1)) := by
      have e : substr_from ("// TODO: ".toList ++ (generate_id rng n).1 ++ ' ' :: c)
          (3 + "TODO".toList.length + 1) = ' ' :: ((generate_id rng n).1 ++ ' ' :: c) := by
        rw [hassoc]; rfl
      rw [e, strip_leading_eq]
      have : lstrip (' ' :: ((generate_id rng n).1 ++ ' ' :: c))
          = lstrip ((generate_id rng n).1 ++ ' ' :: c) := by simp [lstrip]
      rw [this, generate_id_not_starts_blank]
    rw [tag_id_content_content rng m _ _ _ 3 hp hc, hex]
    have e : ("// TODO: ".toList ++ (generate_id rng n).1 ++ ' ' :: c).drop
        (3 + "TODO".toList.length + 1) = ' ' :: ((generate_id rng n).1 ++ ' ' :: c) := by
      rw [hassoc]; rfl
    have e2 : lstrip (' ' :: ((generate_id rng n).1 ++ ' ' :: c))
        = (generate_id rng n).1 ++ ' ' :: c := by
      have : lstrip (' ' :: ((generate_id rng n).1 ++ ' ' :: c))
          = lstrip ((generate_id rng n).1 ++ ' ' :: c) := by simp [lstrip]
      rw [this, generate_id_not_starts_blank]
    have e3 : cut_first (generate_id rng n).1 ((generate_id rng n).1 ++ ' ' :: c) = ' ' :: c := by
      have hpre : (generate_id rng n).1.isPrefixOf ((generate_id rng n).1 ++ ' ' :: c) = true :=
        List.isPrefixOf_iff_prefix.mpr (List.prefix_append _ _)
      cases hs : (generate_id rng n).1 ++ ' ' :: c with
      | nil => simp at hs
      | cons a b =>
        rw [hs] at hpre
        simp only [cut_first, hpre, if_true]
        rw [← hs]
        simp
    rw [e, e2, e3]
    have : lstrip (' ' :: c) = lstrip c := by simp [lstrip]
    rw [this]
    exact lstrip_of_not_starts_blank hblank

theorem stamping_pass_idle (rng : Nat → Fin 16) : ∀ (ls : List Str) (n : Nat),
    (∀ l ∈ ls, is_tag_line l = none) → stamping_pass rng ls n = (ls, false, n) := by
  intro ls
  induction ls with
  | nil => intro n _; rfl
  | cons l rest ih =>
    intro n h
    have hl : is_tag_line l = none := h l (List.mem_cons_self _ _)
    simp only [stamping_pass, hl, Option.isSome_none, Bool.false_and, Bool.false_eq_true,
      if_false, ih n (fun x hx => h x (List.mem_cons_of_mem _ hx))]

theorem stamping_pass_single (rng : Nat → Fin 16) (line : Str) (after : List Str)
    (hq : (is_tag_line line).isSome = true) (hh : has_codetag_id line = false)
    (hafter : ∀ l ∈ after, is_tag_line l = none) : ∀ (before : List Str) (n : Nat),
    (∀ l ∈ before, is_tag_line l = none) →
    stamping_pass rng (before ++ line :: after) n
      = (before ++ add_codetag_id line (generate_id rng n).1 :: after, true, n + 8) := by
  intro before
  induction before with
  | nil =>
    intro n _
    simp only [List.nil_append, stamping_pass, hq, hh, Bool.not_false, Bool.and_self, if_true,
      stamping_pass_idle rng after _ hafter]
    rfl
  | cons l rest ih =>
    intro n h
    have hl : is_tag_line l = none := h l (List.mem_cons_self _ _)
    rw [List.cons_append]
    simp only [stamping_pass, hl, Option.isSome_none, Bool.false_and,
      Bool.false_eq_true, if_false, ih n (fun x hx => h x (List.mem_cons_of_mem _ hx))]
    rfl

theorem extraction_pass_idle (file_path base_dir : Str) (mtime : Int) (rng : Nat → Fin 16) :
    ∀ (ls : List Str) (ln n : Nat), (∀ l ∈ ls, is_tag_line l = none) →
      extraction_pass file_path base_dir mtime rng ls ln n = some [] := by
  intro ls
  induction ls with
  | nil => intro ln n _; rfl
  | cons l rest ih =>
    intro ln n h
    have hl : is_tag_line l = none := h l (List.mem_cons_self _ _)
    simp only [extraction_pass, hl]
    exact ih _ _ (fun x hx => h x (List.mem_cons_of_mem _ hx))

theorem extraction_pass_single (file_path base_dir rel : Str) (mtime : Int)
    (rng : Nat → Fin 16) (line K content : Str) (after : List Str)
    (hrel : get_file_relative_path file_path base_dir = some rel)
    (hq : is_tag_line line = some (K, content))
    (hafter : ∀ l ∈ after, is_tag_line l = none) : ∀ (before : List Str) (ln n : Nat),
    (∀ l ∈ before, is_tag_line l = none) →
    extraction_pass file_path base_dir mtime rng (before ++ line :: after) ln n
      = some [{ id := (tag_id_content rng n line K content).1, type := K,
                content := (tag_id_content rng n line K content).2.1,
                file_path := file_path, relative_path := rel,
                line_number := ln + before.length + 1, last_modified := mtime }] := by
  intro before
  induction before with
  | nil =>
    intro ln n _
    simp only [List.nil_append, extraction_pass, hq, hrel,
      extraction_pass_idle file_path base_dir mtime rng after _ _ hafter, List.length_nil,
      Nat.add_zero]
  | cons l rest ih =>
    intro ln n h
    have hl : is_tag_line l = none := h l (List.mem_cons_self _ _)
    rw [List.cons_append]
    simp only [extraction_pass, hl, List.length_cons]
    rw [ih (ln + 1) n (fun x hx => h x (List.mem_cons_of_mem _ hx))]
    have e : ln + 1 + rest.length + 1 = ln + (rest.length + 1) + 1 := by omega
    rw [e]

/-- The lines, the flag and the tags that `parse_file` computes for a file whose only
tag line is `// TODO: ` followed by a content `c` that holds no `CT-` and no keyword
followed by `:` and does not begin with a blank. -/
theorem parse_file_single_line (before after : List Str) (c : Str)
    (file_path base_dir : Str) (mtime : Int) (stat_mtime : Option Int) (rng : Nat → Fin 16)
    (hpath : file_path ≠ base_dir)
    (hct : ∀ k, ¬ occurs_at "CT-".toList c k)
    (hkw : ∀ K ∈ tag_types, ∀ k, ¬ occurs_at (K ++ [':']) c k)
    (hblank : ¬ starts_blank c)
    (hother : ∀ l ∈ before ++ after, is_tag_line l = none) :
    ∃ rel, get_file_relative_path file_path base_dir = some rel ∧
      parse_file (some (before ++ ("// TODO: ".toList ++ c) :: after)) file_path base_dir mtime
          stat_mtime rng
        = { lines := before ++ ("// TODO: ".toList ++ (generate_id rng 0).1 ++ ' ' :: c) :: after,
            modified := true,
            tags := some [{ id := (generate_id rng 0).1, type := "TODO".toList, content := c,
                            file_path := file_path, relative_path := rel,
                            line_number := before.length + 1,
                            last_modified := stat_mtime.getD mtime }] } := by
  obtain ⟨rel, hrel⟩ := get_file_relative_path_some hpath
  refine ⟨rel, hrel, ?_⟩
  have hbefore : ∀ l ∈ before, is_tag_line l = none :=
    fun l hl => hother l (List.mem_append_left _ hl)
  have hafter : ∀ l ∈ after, is_tag_line l = none :=
    fun l hl => hother l (List.mem_append_right _ hl)
  have hq : (is_tag_line ("// TODO: ".toList ++ c)).isSome = true := by
    rw [todo_line_is_tag_line c hkw]; rfl
  have hstamp := stamping_pass_single rng _ after hq (todo_line_has_codetag_id c hct) hafter
    before 0 hbefore
  rw [(todo_line_add_codetag_id c (generate_id rng 0).1 hct hkw).2] at hstamp
  obtain ⟨h1, h2, h3⟩ := stamped_line_facts rng 0 (0 + 8) c hkw hblank
  have hextract := extraction_pass_single file_path base_dir rel (stat_mtime.getD mtime) rng _ _ _
    after hrel h1 hafter before 0 (0 + 8) hbefore
  rw [h2, h3] at hextract
  simp only [parse_file, hstamp, if_true, hextract, Nat.zero_add]

/-! ## `process_ignore_file_change` -/

theorem remove_each_free : ∀ (ids : List Str) (db : TagDatabase), db.db_mutex = false →
    ∃ db1, remove_each db ids = some db1 ∧ db1.db_mutex = false := by
  intro ids
  induction ids with
  | nil => intro db h; exact ⟨db, rfl, h⟩
  | cons i rest ih =>
    intro db h
    have hr : remove_tag db i = some (unlock_guard (remove_tag_body { db with db_mutex := true } i)) := by
      simp [remove_tag, lock_guard, h]
    simp only [remove_each, hr]
    exact ih _ rfl

theorem add_each_free : ∀ (tags : List Tag) (db : TagDatabase), db.db_mutex = false →
    ∃ db1, add_each db tags = some db1 ∧ db1.db_mutex = false := by
  intro tags
  induction tags with
  | nil => intro db h; exact ⟨db, rfl, h⟩
  | cons t rest ih =>
    intro db h
    have hr : add_tag db t = some (unlock_guard (add_tag_body { db with db_mutex := true } t)) := by
      simp [add_tag, lock_guard, h]
    simp only [add_each, hr]
    exact ih _ rfl

theorem parse_file_tags_some (file : Option (List Str)) (file_path base_dir : Str)
    (mtime : Int) (stat_mtime : Option Int) (rng : Nat → Fin 16) (h : file_path ≠ base_dir) :
    ∃ tags, (parse_file file file_path base_dir mtime stat_mtime rng).tags = some tags := by
  cases file with
  | none => exact ⟨[], rfl⟩
  | some lines0 =>
    obtain ⟨rel, hrel⟩ := get_file_relative_path_some h
    simp only [parse_file]
    exact extraction_pass_returns file_path base_dir _ rng rel hrel _ _ _

theorem drop_file_returns (env : Env) (w : FileWatcher) (fs : FileSystem) (p : Str)
    (hfree : w.tag_db.db_mutex = false) :
    ∃ st, drop_file env w fs p = some st ∧ st.1.tag_db.db_mutex = false ∧
      st.1.directory_path = w.directory_path := by
  have hdrop : drop_file env w fs p
      = some ({ w with
          tag_db := unlock_guard
            (remove_tags_in_file_body { w.tag_db with db_mutex := true } p),
          artifact_writes := w.artifact_writes ++ [artifact_text env.ft
            ((remove_tags_in_file_body { w.tag_db with db_mutex := true } p).tags_by_id.map
              fun e => e.2)],
          last_known_mtime := map_erase w.last_known_mtime p }, fs) := by
    simp [drop_file, remove_tags_in_file, lock_guard, hfree, update_codetags_file,
      get_all_tags, unlock_guard]
  exact ⟨_, hdrop, rfl, rfl⟩

theorem reparse_file_returns (env : Env) (w : FileWatcher) (fs : FileSystem) (p : Str)
    (st_mtime : Int) (hfree : w.tag_db.db_mutex = false) (hp : p ≠ w.directory_path) :
    ∃ st, reparse_file env w fs p st_mtime = some st ∧ st.1.tag_db.db_mutex = false ∧
      st.1.directory_path = w.directory_path := by
  obtain ⟨tags, htags⟩ := parse_file_tags_some (fs_read fs p) p w.directory_path
    st_mtime (some fs.now) (env.rng w.parse_calls) hp
  obtain ⟨db1, hdb1, hfree1⟩ := remove_each_free
    ((map_find w.tag_db.file_to_ids p).getD []) w.tag_db hfree
  obtain ⟨db2, hdb2, hfree2⟩ := add_each_free tags db1 hfree1
  have hget : get_tag_ids_in_file w.tag_db p
      = some ((map_find w.tag_db.file_to_ids p).getD []) := by
    simp [get_tag_ids_in_file, lock_guard, hfree]
  have hres : reparse_file env w fs p st_mtime
      = some ({ w with
          tag_db := db2, parse_calls := w.parse_calls + 1,
          artifact_writes := w.artifact_writes ++
            [artifact_text env.ft (db2.tags_by_id.map fun e => e.2)] },
        if (parse_file (fs_read fs p) p w.directory_path st_mtime (some fs.now)
              (env.rng w.parse_calls)).modified = true
        then fs_write fs p (parse_file (fs_read fs p) p w.directory_path st_mtime (some fs.now)
              (env.rng w.parse_calls)).lines
        else fs) := by
    simp only [reparse_file, htags, hget, hdb1, hdb2, update_codetags_file,
      get_all_tags, lock_guard, hfree2, Bool.false_eq_true, if_false, Option.map_some']
  exact ⟨_, hres, hfree2, rfl⟩

/-- A call of `process_file_event` returns when the mutex of the index is free and the
path is not the repository root itself; the mutex is free again afterwards. -/
theorem process_file_event_returns (env : Env) (w : FileWatcher) (fs : FileSystem) (p : Str)
    (hfree : w.tag_db.db_mutex = false) (hp : p ≠ w.directory_path) :
    ∃ st, process_file_event env w fs p = some st ∧ st.1.tag_db.db_mutex = false ∧
      st.1.directory_path = w.directory_path := by
  unfold process_file_event
  split
  · exact drop_file_returns env w fs p hfree
  · split
    · exact ⟨_, rfl, hfree, rfl⟩
    · split
      · exact ⟨_, rfl, hfree, rfl⟩
      · split
        · exact drop_file_returns env w fs p hfree
        · rename_i st_mtime _
          split
          · exact ⟨_, rfl, hfree, rfl⟩
          · exact reparse_file_returns env
              { w with last_known_mtime := map_set w.last_known_mtime p st_mtime } fs p
              st_mtime hfree hp

theorem process_each_returns (env : Env) (keep : Str → Bool) : ∀ (l : List Str)
    (st : FileWatcher × FileSystem), st.1.tag_db.db_mutex = false →
    (∀ p ∈ l, p ≠ st.1.directory_path) →
    ∃ st1, process_each env keep st l = some st1 ∧ st1.1.tag_db.db_mutex = false ∧
      st1.1.directory_path = st.1.directory_path := by
  intro l
  induction l with
  | nil => intro st h _; exact ⟨st, rfl, h, rfl⟩
  | cons p rest ih =>
    intro st hfree hne
    simp only [process_each]
    split
    · obtain ⟨st1, h1, h2, h3⟩ := process_file_event_returns env st.1 st.2 p hfree
        (hne p (List.mem_cons_self _ _))
      rw [h1]
      obtain ⟨st2, h4, h5, h6⟩ := ih st1 h2 (fun q hq => by
        rw [h3]; exact hne q (List.mem_cons_of_mem _ hq))
      exact ⟨st2, h4, h5, by rw [h6, h3]⟩
    · exact ih st hfree (fun q hq => hne q (List.mem_cons_of_mem _ hq))

theorem drop_newly_ignored_returns : ∀ (l : List Str) (w : FileWatcher),
    w.tag_db.db_mutex = false →
    ∃ w1, drop_newly_ignored w l = some w1 ∧ w1.tag_db.db_mutex = false ∧
      w1.directory_path = w.directory_path := by
  intro l
  induction l with
  | nil => intro w h; exact ⟨w, rfl, h, rfl⟩
  | cons p rest ih =>
    intro w hfree
    simp only [drop_newly_ignored]
    split
    · exact ih w hfree
    · have hr : remove_tags_in_file w.tag_db p
          = some (unlock_guard (remove_tags_in_file_body { w.tag_db with db_mutex := true } p)) := by
        simp [remove_tags_in_file, lock_guard, hfree]
      simp only [hr]
      obtain ⟨w1, h1, h2, h3⟩ := ih
        { w with tag_db := unlock_guard
                   (remove_tags_in_file_body { w.tag_db with db_mutex := true } p),
                 last_known_mtime := map_erase w.last_known_mtime p } rfl
      exact ⟨w1, h1, h2, h3⟩

theorem process_each_filter (env : Env) (keep : Str → Bool) : ∀ (l : List Str)
    (st : FileWatcher × FileSystem),
    process_each env keep st l = process_each env (fun _ => true) st (l.filter keep) := by
  intro l
  induction l with
  | nil => intro st; rfl
  | cons p rest ih =>
    intro st
    by_cases hk : keep p = true
    · simp only [process_each, hk, if_true, List.filter_cons]
      cases process_file_event env st.1 st.2 p with
      | none => rfl
      | some st1 => exact ih st1
    · simp only [process_each, hk, Bool.false_eq_true, if_false, List.filter_cons]
      exact ih st

theorem process_each_append (env : Env) : ∀ (l1 l2 : List Str)
    (st : FileWatcher × FileSystem),
    process_each env (fun _ => true) st (l1 ++ l2)
      = (process_each env (fun _ => true) st l1).bind fun st1 =>
          process_each env (fun _ => true) st1 l2 := by
  intro l1
  induction l1 with
  | nil => intro l2 st; rfl
  | cons p rest ih =>
    intro l2 st
    rw [List.cons_append]
    simp only [process_each, if_true]
    cases process_file_event env st.1 st.2 p with
    | none => rfl
    | some st1 => exact ih l2 st1

theorem regular_files_nodup (fs : FileSystem) (root : Str) : (regular_files fs root).Nodup :=
  List.Nodup.filter _ (List.nodup_dedup _)

theorem regular_files_ne_root (fs : FileSystem) (root p : Str)
    (h : p ∈ regular_files fs root) : p ≠ root := by
  intro e
  have h1 := (List.mem_filter.mp h).2
  simp only [Bool.and_eq_true] at h1
  have h2 := List.isPrefixOf_iff_prefix.mp h1.1
  have := h2.length_le
  rw [e] at this
  simp at this

theorem occurrences_append (p : Str) (l1 l2 : List Str) :
    occurrences p (l1 ++ l2) = occurrences p l1 + occurrences p l2 := by
  simp [occurrences, List.filter_append]

theorem occurrences_of_not_mem (p : Str) (l : List Str) (h : p ∉ l) : occurrences p l = 0 := by
  unfold occurrences
  rw [List.length_eq_zero]
  apply List.filter_eq_nil_iff.mpr
  intro q hq
  simp only [decide_eq_true_eq]
  intro e
  exact h (e ▸ hq)

theorem occurrences_of_nodup (p : Str) : ∀ l : List Str, l.Nodup → p ∈ l →
    occurrences p l = 1 := by
  intro l
  induction l with
  | nil => intro _ h; simp at h
  | cons x rest ih =>
    intro hnd hmem
    obtain ⟨hx, hrest⟩ := List.nodup_cons.mp hnd
    have happ : occurrences p (x :: rest) = occurrences p [x] + occurrences p rest :=
      occurrences_append p [x] rest
    rw [happ]
    by_cases e : x = p
    · subst e
      rw [occurrences_of_not_mem x rest hx]
      simp [occurrences]
    · have hm : p ∈ rest := by
        rcases List.mem_cons.mp hmem with h | h
        · exact absurd h.symm e
        · exact h
      rw [ih hrest hm]
      simp [occurrences, e]

theorem occurrences_filter (p : Str) (f : Str → Bool) (hf : f p = true) : ∀ l : List Str,
    occurrences p (l.filter f) = occurrences p l := by
  intro l
  induction l with
  | nil => rfl
  | cons x rest ih =>
    have h1 : occurrences p (x :: rest) = occurrences p [x] + occurrences p rest :=
      occurrences_append p [x] rest
    by_cases hx : f x = true
    · have h2 : (x :: rest).filter f = [x] ++ rest.filter f := by
        simp [List.filter_cons, hx]
      rw [h2, occurrences_append, ih, h1]
    · have h2 : (x :: rest).filter f = rest.filter f := by
        simp [List.filter_cons, hx]
      have hne : ¬ x = p := fun e => hx (e ▸ hf)
      rw [h2, ih, h1]
      simp [occurrences, hne]

/-- Every regular file that is not ignored is among the calls of one run exactly once. -/
theorem ignore_change_calls_once (env : Env) (w : FileWatcher) (fs : FileSystem) (p : Str)
    (hnodup : w.currently_ignored_files.Nodup)
    (hp : p ∈ regular_files fs w.directory_path)
    (hign : should_ignore env.fnm w.directory_path w.ignore_patterns p = false) :
    occurrences p (ignore_change_calls env w fs) = 1 := by
  have hnew : p ∉ (regular_files fs w.directory_path).filter fun q =>
      should_ignore env.fnm w.directory_path w.ignore_patterns q := by
    intro h
    have := (List.mem_filter.mp h).2
    rw [hign] at this
    exact absurd this (by simp)
  have hproc : occurrences p ((regular_files fs w.directory_path).filter fun q =>
      !should_ignore env.fnm w.directory_path w.ignore_patterns q) = 1 := by
    rw [occurrences_filter p _ (by simp [hign])]
    exact occurrences_of_nodup p _ (regular_files_nodup fs _) hp
  unfold ignore_change_calls
  rw [occurrences_append]
  by_cases hcur : p ∈ w.currently_ignored_files
  · rw [occurrences_filter p _ (decide_eq_true hnew), occurrences_of_nodup p _ hnodup hcur,
      occurrences_of_not_mem]
    intro h
    have := (List.mem_filter.mp h).2
    simp only [decide_eq_true_eq] at this
    exact this hcur
  · rw [occurrences_of_not_mem p _ (fun h => hcur (List.mem_filter.mp h).1),
      occurrences_filter p _ (decide_eq_true hcur), hproc]

/-- When the directory iteration succeeds, one run of `process_ignore_file_change`
strips the newly ignored files, calls `process_file_event` for the paths of
`ignore_change_calls`, and ends with one call of `update_codetags_file`. -/
theorem process_ignore_file_change_iterated (env : Env) (w : FileWatcher) (fs : FileSystem)
    (hfree : w.tag_db.db_mutex = false) (hiter : fs.iteration_fails = false)
    (hnodup : w.currently_ignored_files.Nodup)
    (hroot : w.directory_path ∉ w.currently_ignored_files) :
    ∃ w2 st3 tags,
      drop_newly_ignored (load_ignore_patterns w fs)
        ((regular_files fs w.directory_path).filter fun q =>
          should_ignore env.fnm w.directory_path (load_ignore_patterns w fs).ignore_patterns q)
        = some w2 ∧
      process_each env (fun _ => true) (w2, fs)
        (ignore_change_calls env (load_ignore_patterns w fs) fs) = some st3 ∧
      get_all_tags st3.1.tag_db = some tags ∧
      process_ignore_file_change env w fs
        = some ({ st3.1 with
            currently_ignored_files := (regular_files fs w.directory_path).filter fun q =>
              should_ignore env.fnm w.directory_path (load_ignore_patterns w fs).ignore_patterns q,
            artifact_writes := st3.1.artifact_writes ++ [artifact_text env.ft tags] }, st3.2) ∧
      (∀ p ∈ regular_files fs w.directory_path,
        should_ignore env.fnm w.directory_path (load_ignore_patterns w fs).ignore_patterns p
          = false →
        occurrences p (ignore_change_calls env (load_ignore_patterns w fs) fs) = 1) := by
  obtain ⟨w2, hw2, hfree2, hdir2⟩ := drop_newly_ignored_returns
    ((regular_files fs w.directory_path).filter fun q =>
      should_ignore env.fnm w.directory_path (load_ignore_patterns w fs).ignore_patterns q)
    (load_ignore_patterns w fs) hfree
  have hdir2' : w2.directory_path = w.directory_path := hdir2
  have hcalls : ∀ p ∈ ignore_change_calls env (load_ignore_patterns w fs) fs,
      p ≠ (w2, fs).1.directory_path := by
    intro p hp
    rw [hdir2']
    rcases List.mem_append.mp hp with h | h
    · intro e
      exact hroot (e ▸ (List.mem_filter.mp h).1)
    · exact regular_files_ne_root fs _ p (List.mem_filter.mp (List.mem_filter.mp h).1).1
  obtain ⟨st3, hst3, hfree3, _⟩ := process_each_returns env (fun _ => true) _ (w2, fs) hfree2
    hcalls
  have hsplit := hst3
  unfold ignore_change_calls at hsplit
  rw [process_each_append] at hsplit
  cases hst2 : process_each env (fun _ => true) (w2, fs)
      ((load_ignore_patterns w fs).currently_ignored_files.filter fun p =>
        decide (p ∉ (regular_files fs (load_ignore_patterns w fs).directory_path).filter fun q =>
          should_ignore env.fnm (load_ignore_patterns w fs).directory_path
            (load_ignore_patterns w fs).ignore_patterns q)) with
  | none =>
    rw [hst2] at hsplit
    exact absurd hsplit (by simp)
  | some st2 =>
    rw [hst2] at hsplit
    simp only [Option.some_bind] at hsplit
    rw [← process_each_filter] at hst2 hsplit
    refine ⟨w2, st3, st3.1.tag_db.tags_by_id.map fun e => e.2, hw2, hst3, ?_, ?_, ?_⟩
    · simp [get_all_tags, lock_guard, hfree3]
    · have hload : (load_ignore_patterns w fs).directory_path = w.directory_path := rfl
      have hcur : (load_ignore_patterns w fs).currently_ignored_files
          = w.currently_ignored_files := rfl
      rw [hload] at hst2 hsplit
      simp only [process_ignore_file_change, hiter, Bool.false_eq_true, if_false, hload, hw2,
        hst2, hsplit, update_codetags_file, get_all_tags, lock_guard, hfree3, Option.map_some']
    · intro p hp hign
      exact ignore_change_calls_once env (load_ignore_patterns w fs) fs p hnodup hp hign

/-- C16 at the sample watcher, for the vanished file `/repo/gone.cpp`. -/
theorem process_file_event_deleted_witness :
    ∃ w1 ids tags,
      process_file_event sample_env sample_watcher fs_tagged "/repo/gone.cpp".toList
        = some (w1, fs_tagged) ∧
      get_tag_ids_in_file sample_watcher.tag_db "/repo/gone.cpp".toList = some ids ∧
      (∀ id ∈ ids, map_find w1.tag_db.tags_by_id id = none) ∧
      get_tag_ids_in_file w1.tag_db "/repo/gone.cpp".toList = some [] ∧
      map_find w1.last_known_mtime "/repo/gone.cpp".toList = none ∧
      get_all_tags w1.tag_db = some tags ∧
      w1.artifact_writes = sample_watcher.artifact_writes ++ [artifact_text sample_env.ft tags] ∧
      (∀ t ∈ tags, t.id ∉ ids) :=
  process_file_event_deleted sample_env sample_watcher fs_tagged "/repo/gone.cpp".toList
    rfl (by decide) (by decide) (by decide) (by decide) (by decide)

/-- C18 at the sample watcher, for `/repo/D/a.cpp` with its known time 5. -/
theorem process_file_event_debounce_witness :
    process_file_event sample_env sample_watcher fs_tagged "/repo/D/a.cpp".toList
      = some (sample_watcher, fs_tagged) :=
  process_file_event_debounce sample_env sample_watcher fs_tagged "/repo/D/a.cpp".toList 5
    (by decide) (by decide) (by decide) (by decide) (by decide)

/-- C17 fails when a tagged file leaves the tree without an event of its own: after
the initial scan has tagged `/repo/D/a.cpp`, the directory `D` is moved away (the event
for `/repo/D` is a no-op, the path has no extension) and `D/` is written to the ignore
file; `process_ignore_file_change` finds no file to strip, and the index keeps a tag
whose path `should_ignore` reports as ignored. -/
theorem ignored_path_keeps_tag :
    ((initial_scan sample_env fresh_watcher fs_tagged).bind
      fun st1 =>
        (process_file_event sample_env st1.1 fs_moved "/repo/D".toList).bind fun st2 =>
          (process_ignore_file_change sample_env st2.1 fs_moved).map fun st3 =>
            (decide (st2.1 = st1.1),
             st3.1.ignore_patterns,
             st3.1.tag_db.tags_by_id.map fun e => e.2.file_path,
             st3.1.tag_db.tags_by_id.map fun e =>
               should_ignore sample_env.fnm st3.1.directory_path st3.1.ignore_patterns
                 e.2.file_path))
      = some (true, ["D/".toList], ["/repo/D/a.cpp".toList], [true]) := by
  decide

/-! ## `load_and_watch_repos` -/

/-- C21 fails when the path registered for a monitored name changes: after `a:/p1` was
loaded and the list was changed to `a:/p2` (which the first loop reads as the
registration of `a`), `load_and_watch_repos` finds `a` among the monitored names and
does nothing for it; the key sets of the three maps are all `a`, the daemon is as it
was, and the monitored path and the root of the watcher stay `/p1`. -/
theorem load_and_watch_repos_keeps_old_path :
    ((fs_read fs_registered_p2 "/home/.ctags/registered_repos.txt".toList).getD []).foldl
        (register_line fs_registered_p2) []
      = [("a".toList, { name := "a".toList, path := "/p2".toList })] ∧
    ((load_and_watch_repos sample_env
        (CodetagsDaemon.create "/home/.ctags/registered_repos.txt".toList)
        fs_registered_p1).bind
      fun st1 =>
        (load_and_watch_repos sample_env st1.1 fs_registered_p2).map fun st2 =>
          (st2.1.monitored_repos.map fun e => e.1,
           st2.1.repo_watchers.map fun e => e.1,
           st2.1.repo_databases.map fun e => e.1,
           st2.1.monitored_repos.map fun e => e.2.path,
           st2.1.repo_watchers.map fun e => e.2.directory_path,
           decide (st2.1 = st1.1)))
      = some (["a".toList], ["a".toList], ["a".toList], ["/p1".toList], ["/p1".toList],
          true) := by
  exact ⟨rfl, rfl⟩

/-! ## Files that are no source files -/

theorem is_source_file_eq (ext : Str) :
    is_source_file ext = decide (ext ∈ source_extensions) := by
  rw [Bool.eq_iff_iff]
  simp only [is_source_file, source_extensions, List.mem_cons, List.mem_singleton,
    List.not_mem_nil, or_false, Bool.or_eq_true, beq_iff_eq, decide_eq_true_eq, or_assoc]

/-- C22: for a path that is not ignored and that has no extension, or an extension
other than the twelve listed ones, `process_file_event` returns with the watcher and the
file system as they were: no call of `parse_file`, no write of the artifact, the same
index and the same `last_known_mtime`, the same files. -/
theorem process_file_event_not_source (env : Env) (w : FileWatcher) (fs : FileSystem)
    (filepath : Str)
    (hign : should_ignore env.fnm w.directory_path w.ignore_patterns filepath = false)
    (hext : path_has_extension filepath = false ∨
      path_extension filepath ∉ source_extensions) :
    process_file_event env w fs filepath = some (w, fs) := by
  unfold process_file_event
  rw [if_neg (by simp [hign])]
  rcases hext with h | h
  · rw [if_pos (by simp [h])]
  · by_cases hx : path_has_extension filepath = true
    · rw [if_neg (by simp [hx]), if_pos (by simp [is_source_file_eq, h])]
    · rw [if_pos (by simpa using hx)]

theorem process_file_event_not_source_witness :
    should_ignore sample_env.fnm sample_watcher.directory_path sample_watcher.ignore_patterns
        "/repo/notes.txt".toList = false ∧
      path_extension "/repo/notes.txt".toList ∉ source_extensions ∧
      process_file_event sample_env sample_watcher fs_tagged "/repo/notes.txt".toList
        = some (sample_watcher, fs_tagged) :=
  ⟨by decide, by decide,
    process_file_event_not_source sample_env sample_watcher fs_tagged "/repo/notes.txt".toList
      (by decide) (Or.inr (by decide))⟩

/-! ## `has_codetag_id` -/

theorem occurs_at_singleton {c : Char} {s : Str} {q : Nat} (h : s[q]? = some c) :
    occurs_at [c] s q := by
  have hq : q < s.length := by
    by_contra hn
    rw [List.getElem?_eq_none (by omega)] at h
    exact absurd h (by simp)
  refine ⟨by omega, ?_⟩
  rw [List.drop_eq_getElem_cons hq]
  have : s[q] = c := by
    rw [List.getElem?_eq_getElem hq] at h
    exact Option.some.inj h
  rw [this]
  exact ⟨_, rfl⟩

theorem occurs_at_singleton_lt {c : Char} {s : Str} {q : Nat} (h : occurs_at [c] s q) :
    q < s.length := by
  obtain ⟨h1, t, ht⟩ := h
  have := congrArg List.length ht
  simp at this
  omega

/-- The candidate that `has_codetag_id` cuts out ends at the first `]`, so it cannot
have 12 characters with a `]` at index 10. -/
theorem id_candidate_rejected {line : Str} {pos e : Nat}
    (he : find line "]".toList pos = some e) :
    ((substr line pos (e - pos + 1)).length == 12 &&
      (substr line pos (e - pos + 1)).getD 10 ' ' == ']') = false := by
  obtain ⟨hpos, hocc, hmin⟩ := find_some he
  have hlt : e < line.length := occurs_at_singleton_lt hocc
  by_contra hc
  simp only [Bool.not_eq_false, Bool.and_eq_true, beq_iff_eq] at hc
  obtain ⟨h12, h10⟩ := hc
  have hlen : (substr line pos (e - pos + 1)).length = e - pos + 1 := by
    simp [substr]; omega
  have he11 : e = pos + 11 := by omega
  subst he11
  have hget : (line)[pos + 10]? = (substr line pos (pos + 11 - pos + 1))[10]? := by
    simp [substr, List.getElem?_take, List.getElem?_drop]
  have hsome : (line)[pos + 10]? = some ']' := by
    rw [hget]
    rw [List.getD_eq_getElem?_getD] at h10
    have hin : 10 < (substr line pos (pos + 11 - pos + 1)).length := by omega
    rw [List.getElem?_eq_getElem hin] at h10 ⊢
    simpa using h10
  exact hmin (pos + 10) (by omega) (by omega) (occurs_at_singleton hsome)

theorem has_codetag_id_loop_false (line : Str) : ∀ (fuel pos0 : Nat),
    has_codetag_id_loop line fuel pos0 = false := by
  intro fuel
  induction fuel with
  | zero => intro pos0; rfl
  | succ fuel ih =>
    intro pos0
    unfold has_codetag_id_loop
    cases hf : find line "[CT-".toList pos0 with
    | none => rfl
    | some pos =>
      simp only
      cases he : find line "]".toList pos with
      | none => simpa using ih (pos + 1)
      | some e =>
        simp only
        by_cases hlt : pos < e
        · simp only [if_pos hlt, id_candidate_rejected he, Bool.false_and, Bool.false_eq_true,
            if_false]
          exact ih (pos + 1)
        · simp only [if_neg hlt, Bool.false_eq_true, if_false]
          exact ih (pos + 1)

theorem stamping_pass_modified (rng : Nat → Fin 16) : ∀ (lines : List Str) (n : Nat),
    (stamping_pass rng lines n).2.1 = lines.any fun l => (is_tag_line l).isSome := by
  intro lines
  induction lines with
  | nil => intro n; rfl
  | cons l rest ih =>
    intro n
    have hh : has_codetag_id l = false := has_codetag_id_loop_false l _ _
    simp only [stamping_pass, hh, Bool.not_false, Bool.and_true, List.any_cons]
    cases hq : (is_tag_line l).isSome with
    | true => simp
    | false => simpa using ih n

/-- C24: `has_codetag_id` returns false for every line, so the guard
`!has_codetag_id(line)` of the stamping pass always holds: `parse_file` sets the flag
`modified` exactly when some line of the file is a tag line. -/
theorem has_codetag_id_always_false :
    (∀ line : Str, has_codetag_id line = false) ∧
    ∀ (lines : List Str) (file_path base_dir : Str) (mtime : Int) (stat_mtime : Option Int)
      (rng : Nat → Fin 16),
      (parse_file (some lines) file_path base_dir mtime stat_mtime rng).modified
        = lines.any fun l => (is_tag_line l).isSome :=
  ⟨fun line => has_codetag_id_loop_false line _ _,
   fun lines _ _ _ _ rng => stamping_pass_modified rng lines 0⟩

/-! ## The shape of the tags of `parse_file` -/

theorem tag_types_spec : ∀ K ∈ tag_types, K ∈ spec_tag_types := by decide

theorem generate_id_well_shaped (rng : Nat → Fin 16) (n : Nat) :
    well_shaped_id (generate_id rng n).1 := by
  refine ⟨(List.range 8).map (fun i => hex_digit (rng (n + i))), generate_id_eq rng n,
    by simp, ?_⟩
  intro c hc
  obtain ⟨i, _, hi⟩ := List.mem_map.mp hc
  rw [← hi]
  exact hex_digit_mem _

theorem extract_codetag_id_well_shaped (line : Str) (h : extract_codetag_id line ≠ []) :
    well_shaped_id (extract_codetag_id line) := by
  unfold extract_codetag_id at h ⊢
  rcases extract_codetag_id_loop_spec line (line.length + 1) 0 (by omega)
    (fun q hq => absurd hq (Nat.not_lt_zero q)) with ⟨h0, _⟩ | ⟨p, hv, _, hp⟩
  · exact absurd h0 h
  · obtain ⟨pre, hex, post, hline, hpl, hhex, hall, _, _⟩ := id_at_of_valid_at hv
    refine ⟨hex, ?_, hhex, hall⟩
    rw [hp, hline, ← hpl]
    have h11 : ("CT-".toList ++ hex).length = 11 := by simp [String.toList, hhex]
    simp only [substr, List.append_assoc, List.drop_left]
    rw [← List.append_assoc, List.take_left' h11]

theorem tag_id_content_well_shaped (rng : Nat → Fin 16) (n : Nat) (line K c : Str) :
    well_shaped_id (tag_id_content rng n line K c).1 := by
  by_cases h : extract_codetag_id line = []
  · have : (tag_id_content rng n line K c).1 = (generate_id rng n).1 := by
      unfold tag_id_content
      simp [h]
    rw [this]
    exact generate_id_well_shaped rng n
  · rw [tag_id_content_id rng n line K c h]
    exact extract_codetag_id_well_shaped line h

/-- C23: for every file content and every stream of draws, `parse_file` (on a file
other than the base directory itself) returns its tags, and every one of them has a type
among NOTE, TODO, WARNING, WARN, FIXME, FIX, BUG and an id of 11 characters: `CT-`
followed by 8 characters from `0-9A-F`. -/
theorem parse_file_tag_shape (file : Option (List Str)) (file_path base_dir : Str)
    (mtime : Int) (stat_mtime : Option Int) (rng : Nat → Fin 16) (h : file_path ≠ base_dir) :
    ∃ tags, (parse_file file file_path base_dir mtime stat_mtime rng).tags = some tags ∧
      ∀ t ∈ tags, t.type ∈ spec_tag_types ∧ t.id.length = 11 ∧ well_shaped_id t.id := by
  obtain ⟨tags, htags⟩ := parse_file_tags_some file file_path base_dir mtime stat_mtime rng h
  refine ⟨tags, htags, ?_⟩
  intro t ht
  cases file with
  | none =>
    simp only [parse_file, Option.some.injEq] at htags
    subst htags
    simp at ht
  | some lines0 =>
    simp only [parse_file] at htags
    obtain ⟨i, line, c, m, _, _, htag, hid, _⟩ :=
      extraction_pass_mem file_path base_dir _ rng _ _ _ tags t htags ht
    have hshape : well_shaped_id t.id := by
      rw [hid]
      exact tag_id_content_well_shaped rng m line t.type c
    refine ⟨tag_types_spec _ (is_tag_line_loop_some line tag_types t.type c htag).1, ?_, hshape⟩
    obtain ⟨hex, he, hl, _⟩ := hshape
    rw [he]
    simp [String.toList, hl]

theorem parse_file_tag_shape_witness :
    "/r/a.cpp".toList ≠ "/r".toList ∧
    ∃ tags, (parse_file (some ["// TODO: x".toList, "# BUG: CT-0123ABCD y".toList])
        "/r/a.cpp".toList "/r".toList 5 (some 6) rng_ab).tags = some tags ∧
      ∀ t ∈ tags, t.type ∈ spec_tag_types ∧ t.id.length = 11 ∧ well_shaped_id t.id :=
  ⟨by decide, parse_file_tag_shape _ _ _ _ _ _ (by decide)⟩

/-! ## `remove_tags_in_file` and `remove_tags_in_paths` on the whole state space -/

/-- C25 fails after two calls of `add_tag` with one id and two paths: the record of
`CT-00000001` then has the path `b.py`, the id is still in the id set of `a.py`, and
`remove_tags_in_file` for `a.py` erases the record, which is not owned by `a.py`. -/
theorem remove_tags_in_file_erases_other_file :
    (run_ops TagDatabase.empty
        [.add_tag (sample_tag "CT-00000001" "a.py"),
         .add_tag (sample_tag "CT-00000001" "b.py")]).map
      (fun db => map_find db.tags_by_id "CT-00000001".toList)
      = some (some (sample_tag "CT-00000001" "b.py")) ∧
    (sample_tag "CT-00000001" "b.py").file_path ≠ "a.py".toList ∧
    (run_ops TagDatabase.empty
        [.add_tag (sample_tag "CT-00000001" "a.py"),
         .add_tag (sample_tag "CT-00000001" "b.py"),
         .remove_tags_in_file "a.py".toList]).map
      (fun db => map_find db.tags_by_id "CT-00000001".toList)
      = some none := by
  refine ⟨by decide, by decide, by decide⟩

/-- C27 fails whenever a tag has to be removed: `remove_tags_in_paths` returns exactly
when the mutex is free at the call and no tag lies under a listed path; with a tag to
remove it calls `remove_tag`, which locks `db_mutex` again, and never returns, as on
the sample index with the path `a.py`. -/
theorem remove_tags_in_paths_returns_iff :
    remove_tags_in_paths sample_db ["a.py".toList] = none ∧
    ∀ (db : TagDatabase) (paths_to_remove : List Str),
      (remove_tags_in_paths db paths_to_remove).isSome = true ↔
        db.db_mutex = false ∧ ids_to_remove db.tags_by_id paths_to_remove = [] := by
  refine ⟨by decide, ?_⟩
  intro db ps
  unfold remove_tags_in_paths lock_guard
  cases hm : db.db_mutex with
  | true => simp
  | false =>
    simp only [Bool.false_eq_true, if_false, Option.isSome_map', true_and]
    constructor
    · intro h
      obtain ⟨d1, hd1⟩ := Option.isSome_iff_exists.mp h
      exact (remove_each_locked _ rfl _ d1 hd1).1
    · intro h
      rw [h]
      rfl

/-! ## `should_ignore` under descent -/

/-- The loop over the candidates returns true exactly when some candidate matches the
pattern, as it stands or behind a `*` when the pattern is not anchored, and ends in `/`
when the pattern is restricted to directories. -/
theorem check_paths_loop_iff (fnm : Str → Str → Bool) (pat : Str) (dirs anchored : Bool) :
    ∀ list : List Str,
      check_paths_loop fnm pat dirs anchored list = true ↔
        ∃ cp ∈ list,
          (fnm pat (if ends_with_slash cp then cp.dropLast else cp) = true ∨
            (anchored = false ∧
              fnm ('*' :: pat) (if ends_with_slash cp then cp.dropLast else cp) = true)) ∧
          (dirs = false ∨ ends_with_slash cp = true) := by
  intro list
  induction list with
  | nil => simp [check_paths_loop]
  | cons c rest ih =>
    simp only [check_paths_loop, List.mem_cons, exists_eq_or_imp, ← ih]
    cases fnm pat (if ends_with_slash c = true then c.dropLast else c) <;>
      cases fnm ('*' :: pat) (if ends_with_slash c = true then c.dropLast else c) <;>
      cases dirs <;> cases anchored <;> cases ends_with_slash c <;> simp

/-- Every candidate that decides for `rel` has a counterpart among the candidates of
`rel/s`: an ancestor of `rel` is an ancestor of `rel/s`, and `rel` itself comes back as
the ancestor `rel/`. -/
theorem check_paths_loop_descent (fnm : Str → Str → Bool) (pat : Str) (dirs anchored : Bool)
    (rel s : Str)
    (h : check_paths_loop fnm pat dirs anchored
      (rel :: ancestors_loop (rel.length + 1) rel) = true) :
    check_paths_loop fnm pat dirs anchored
      ((rel ++ '/' :: s) :: ancestors_loop ((rel ++ '/' :: s).length + 1) (rel ++ '/' :: s))
      = true := by
  rw [check_paths_loop_iff] at h ⊢
  obtain ⟨cp, hmem, hmatch, hdir⟩ := h
  have hanc : ∀ t rest, rel = t ++ '/' :: rest →
      t ++ ['/'] ∈ ancestors_loop ((rel ++ '/' :: s).length + 1) (rel ++ '/' :: s) := by
    intro t rest hrel
    refine (mem_ancestors_loop _ _ (by omega) _).mpr ⟨t, rest ++ '/' :: s, rfl, ?_⟩
    rw [hrel]
    simp
  rcases List.mem_cons.mp hmem with hcp | hcp
  · subst hcp
    by_cases hs : ends_with_slash cp = true
    · have hsplit := ends_with_slash_split hs
      refine ⟨cp, List.mem_cons_of_mem _ ?_, hmatch, hdir⟩
      have := hanc cp.dropLast [] hsplit
      rwa [← hsplit] at this
    · have hm : cp ++ ['/'] ∈
          ancestors_loop ((cp ++ '/' :: s).length + 1) (cp ++ '/' :: s) :=
        (mem_ancestors_loop _ _ (by omega) _).mpr ⟨cp, s, rfl, rfl⟩
      refine ⟨cp ++ ['/'], List.mem_cons_of_mem _ hm, ?_, Or.inr (ends_with_slash_concat cp)⟩
      simp only [ends_with_slash_concat, if_true, List.dropLast_concat]
      simpa [hs] using hmatch
  · obtain ⟨t, rest, hcpt, hrel⟩ := (mem_ancestors_loop _ _ (by omega) _).mp hcp
    refine ⟨cp, List.mem_cons_of_mem _ ?_, hmatch, hdir⟩
    rw [hcpt]
    exact hanc t rest hrel

theorem ite_true_or (c x : Bool) : (if c = true then true else x) = (c || x) := by
  cases c <;> simp

/-- One round of the loop over the patterns: a pattern that is empty or begins with `#`
is skipped, any other is tried on the candidates of `rel_path`. -/
theorem patterns_loop_cons (fnm : Str → Str → Bool) (pattern : Str) (rest : List Str) :
    ∃ (ap : Str) (d a : Bool), ∀ rel : Str,
      patterns_loop fnm rel (pattern :: rest)
        = if (pattern.isEmpty || pattern.head? == some '#') = true then
            patterns_loop fnm rel rest
          else
            (check_paths_loop fnm ap d a (rel :: ancestors_loop (rel.length + 1) rel) ||
              patterns_loop fnm rel rest) :=
  ⟨if ((if ends_with_slash pattern then pattern.dropLast else pattern).head? == some '/') = true
      then substr_from (if ends_with_slash pattern then pattern.dropLast else pattern) 1
      else (if ends_with_slash pattern then pattern.dropLast else pattern),
    ends_with_slash pattern,
    (if ends_with_slash pattern then pattern.dropLast else pattern).head? == some '/',
    fun rel => by
      conv_lhs => unfold patterns_loop
      by_cases hskip : (pattern.isEmpty || pattern.head? == some '#') = true
      · rw [if_pos hskip, if_pos hskip]
      · rw [if_neg hskip, if_neg hskip]
        exact ite_true_or _ _⟩

theorem patterns_loop_descent (fnm : Str → Str → Bool) (rel s : Str) : ∀ pats : List Str,
    patterns_loop fnm rel pats = true → patterns_loop fnm (rel ++ '/' :: s) pats = true := by
  intro pats
  induction pats with
  | nil => intro h; simp [patterns_loop] at h
  | cons pattern rest ih =>
    intro h
    obtain ⟨ap, d, a, hcons⟩ := patterns_loop_cons fnm pattern rest
    rw [hcons] at h ⊢
    by_cases hskip : (pattern.isEmpty || pattern.head? == some '#') = true
    · rw [if_pos hskip] at h ⊢
      exact ih h
    · rw [if_neg hskip] at h ⊢
      rw [Bool.or_eq_true] at h ⊢
      rcases h with hc | hr
      · exact Or.inl (check_paths_loop_descent fnm ap d a rel s hc)
      · exact Or.inr (ih hr)

/-- C26: for any pattern list and any matching function, a path under the root that
`should_ignore` ignores stays ignored when `/` and any further text are appended to it;
and, whatever the patterns are, `should_ignore` of the root itself is false. -/
theorem should_ignore_descent (fnm : Str → Str → Bool) (root : Str) (pats : List Str)
    (rel s : Str) :
    (should_ignore fnm root pats (root ++ '/' :: rel) = true →
      should_ignore fnm root pats ((root ++ '/' :: rel) ++ '/' :: s) = true) ∧
    should_ignore fnm root pats root = false := by
  constructor
  · intro h
    rw [should_ignore_under] at h
    rw [List.append_assoc, List.cons_append, should_ignore_under]
    have h1 : (rel ++ '/' :: s).isEmpty = false := by cases rel <;> rfl
    rw [h1]
    cases hrel : rel.isEmpty with
    | true => rw [hrel] at h; simp at h
    | false =>
      rw [hrel] at h
      simp only [Bool.false_eq_true, if_false] at h ⊢
      exact patterns_loop_descent fnm rel s pats h
  · simp [should_ignore]

theorem should_ignore_descent_witness :
    should_ignore fnmatch_pathname "/repo".toList ["*.log".toList, "build".toList]
        ("/repo".toList ++ '/' :: "build".toList) = true ∧
    should_ignore fnmatch_pathname "/repo".toList ["*.log".toList, "build".toList]
        (("/repo".toList ++ '/' :: "build".toList) ++ '/' :: "gen/a.cpp".toList) = true ∧
    should_ignore fnmatch_pathname "/repo".toList ["*.log".toList, "build".toList]
        "/repo".toList = false ∧
    should_ignore fnmatch_pathname "/repo".toList [] "/repo".toList = false :=
  ⟨by decide,
    (should_ignore_descent fnmatch_pathname "/repo".toList ["*.log".toList, "build".toList]
      "build".toList "gen/a.cpp".toList).1 (by decide),
    (should_ignore_descent fnmatch_pathname "/repo".toList ["*.log".toList, "build".toList]
      "build".toList "gen/a.cpp".toList).2,
    (should_ignore_descent fnmatch_pathname "/repo".toList [] [] []).2⟩

/-! ## One run of `process_ignore_file_change` -/

theorem update_codetags_file_writes {env : Env} {w w1 : FileWatcher}
    (h : update_codetags_file env w = some w1) :
    ∃ x, w1.artifact_writes = w.artifact_writes ++ [x] := by
  unfold update_codetags_file at h
  obtain ⟨tags, _, hw⟩ := Option.map_eq_some'.mp h
  subst hw
  exact ⟨_, rfl⟩

theorem drop_file_writes {env : Env} {w : FileWatcher} {fs : FileSystem} {p : Str}
    {st : FileWatcher × FileSystem} (h : drop_file env w fs p = some st) :
    ∃ x, st.1.artifact_writes = w.artifact_writes ++ [x] := by
  unfold drop_file at h
  split at h
  · exact absurd h (by simp)
  · split at h
    · exact absurd h (by simp)
    · rename_i w1 hw1
      obtain ⟨x, hx⟩ := update_codetags_file_writes hw1
      simp only [Option.some.injEq] at h
      subst h
      exact ⟨x, hx⟩

theorem reparse_file_writes {env : Env} {w : FileWatcher} {fs : FileSystem} {p : Str}
    {m : Int} {st : FileWatcher × FileSystem} (h : reparse_file env w fs p m = some st) :
    ∃ x, st.1.artifact_writes = w.artifact_writes ++ [x] := by
  unfold reparse_file at h
  simp only at h
  split at h
  · exact absurd h (by simp)
  · split at h
    · exact absurd h (by simp)
    · split at h
      · exact absurd h (by simp)
      · split at h
        · exact absurd h (by simp)
        · split at h
          · exact absurd h (by simp)
          · rename_i w1 hw1
            obtain ⟨x, hx⟩ := update_codetags_file_writes hw1
            simp only [Option.some.injEq] at h
            subst h
            exact ⟨x, hx⟩

/-- One call of `process_file_event` writes the artifact at most once, and only adds
to the writes made before. -/
theorem process_file_event_writes {env : Env} {w : FileWatcher} {fs : FileSystem} {p : Str}
    {st : FileWatcher × FileSystem} (h : process_file_event env w fs p = some st) :
    ∃ extra, st.1.artifact_writes = w.artifact_writes ++ extra ∧ extra.length ≤ 1 := by
  have hsame : ∀ {st : FileWatcher × FileSystem}, some (w, fs) = some st →
      ∃ extra, st.1.artifact_writes = w.artifact_writes ++ extra ∧ extra.length ≤ 1 := by
    intro st h
    simp only [Option.some.injEq] at h
    subst h
    exact ⟨[], by simp, by simp⟩
  have hone : ∀ {a b : List Str}, (∃ x, a = b ++ [x]) →
      ∃ extra, a = b ++ extra ∧ extra.length ≤ 1 := by
    rintro a b ⟨x, hx⟩
    exact ⟨[x], hx, by simp⟩
  unfold process_file_event at h
  split at h
  · exact hone (drop_file_writes h)
  · split at h
    · exact hsame h
    · split at h
      · exact hsame h
      · split at h
        · exact hone (drop_file_writes h)
        · split at h
          · exact hsame h
          · obtain ⟨x, hx⟩ := reparse_file_writes h
            exact ⟨[x], hx, by simp⟩

theorem process_each_writes (env : Env) (keep : Str → Bool) : ∀ (l : List Str)
    (st st1 : FileWatcher × FileSystem), process_each env keep st l = some st1 →
    ∃ extra, st1.1.artifact_writes = st.1.artifact_writes ++ extra ∧
      extra.length ≤ l.length := by
  intro l
  induction l with
  | nil =>
    intro st st1 h
    simp only [process_each, Option.some.injEq] at h
    subst h
    exact ⟨[], by simp, by simp⟩
  | cons p rest ih =>
    intro st st1 h
    simp only [process_each] at h
    split at h
    · cases hp : process_file_event env st.1 st.2 p with
      | none => rw [hp] at h; exact absurd h (by simp)
      | some st2 =>
        rw [hp] at h
        obtain ⟨e1, h1, hl1⟩ := process_file_event_writes hp
        obtain ⟨e2, h2, hl2⟩ := ih st2 st1 h
        refine ⟨e1 ++ e2, by rw [h2, h1, List.append_assoc], ?_⟩
        simp only [List.length_append, List.length_cons]
        omega
    · obtain ⟨e2, h2, hl2⟩ := ih st st1 h
      exact ⟨e2, h2, by simp only [List.length_cons]; omega⟩

theorem drop_newly_ignored_writes : ∀ (l : List Str) (w w1 : FileWatcher),
    drop_newly_ignored w l = some w1 → w1.artifact_writes = w.artifact_writes := by
  intro l
  induction l with
  | nil =>
    intro w w1 h
    simp only [drop_newly_ignored, Option.some.injEq] at h
    rw [← h]
  | cons p rest ih =>
    intro w w1 h
    simp only [drop_newly_ignored] at h
    by_cases hmem : p ∈ w.currently_ignored_files
    · rw [if_pos hmem] at h
      exact ih w w1 h
    · rw [if_neg hmem] at h
      cases hr : remove_tags_in_file w.tag_db p with
      | none => rw [hr] at h; exact absurd h (by simp)
      | some db =>
        rw [hr] at h
        exact ih ({ w with tag_db := db,
                           last_known_mtime := map_erase w.last_known_mtime p }) w1 h

/-- Every formerly ignored path that is not an ignored regular file now is among the
calls of one run exactly once. -/
theorem ignore_change_calls_former (env : Env) (w : FileWatcher) (fs : FileSystem) (p : Str)
    (hnodup : w.currently_ignored_files.Nodup)
    (hp : p ∈ w.currently_ignored_files)
    (hnew : p ∉ (regular_files fs w.directory_path).filter fun q =>
      should_ignore env.fnm w.directory_path w.ignore_patterns q) :
    occurrences p (ignore_change_calls env w fs) = 1 := by
  unfold ignore_change_calls
  rw [occurrences_append, occurrences_filter p _ (decide_eq_true hnew),
    occurrences_of_nodup p _ hnodup hp, occurrences_of_not_mem]
  intro h
  have := (List.mem_filter.mp h).2
  simp only [decide_eq_true_eq] at this
  exact this hp

theorem mem_ignore_change_calls (env : Env) (w : FileWatcher) (fs : FileSystem) (p : Str)
    (h : p ∈ ignore_change_calls env w fs) :
    (p ∈ regular_files fs w.directory_path ∧
      should_ignore env.fnm w.directory_path w.ignore_patterns p = false) ∨
    (p ∈ w.currently_ignored_files ∧
      p ∉ (regular_files fs w.directory_path).filter fun q =>
        should_ignore env.fnm w.directory_path w.ignore_patterns q) := by
  rcases List.mem_append.mp h with h1 | h1
  · right
    obtain ⟨h2, h3⟩ := List.mem_filter.mp h1
    exact ⟨h2, of_decide_eq_true h3⟩
  · left
    obtain ⟨h2, _⟩ := List.mem_filter.mp h1
    obtain ⟨h4, h5⟩ := List.mem_filter.mp h2
    exact ⟨h4, by simpa using h5⟩

/-- C19, amended: one run of `process_ignore_file_change` on a watcher whose index is
not locked reloads the patterns. When the directory iteration throws, the run ends
there: no call of `process_file_event`, the index and the artifact writes as they were.
When the iteration succeeds, the run strips the newly ignored files, then calls
`process_file_event` once for each path of `ignore_change_calls`, and ends with one call
of `update_codetags_file`, which writes the artifact of the final index after the
writes `mid` that those calls made, at most one for each call. The paths of
`ignore_change_calls` are the regular files that are not ignored now and the formerly
ignored paths that are not ignored regular files now, each exactly once. -/
theorem process_ignore_file_change_run (env : Env) (w : FileWatcher) (fs : FileSystem)
    (hfree : w.tag_db.db_mutex = false)
    (hnodup : w.currently_ignored_files.Nodup)
    (hroot : w.directory_path ∉ w.currently_ignored_files) :
    (fs.iteration_fails = true →
      process_ignore_file_change env w fs = some (load_ignore_patterns w fs, fs) ∧
      (load_ignore_patterns w fs).tag_db = w.tag_db ∧
      (load_ignore_patterns w fs).artifact_writes = w.artifact_writes ∧
      (load_ignore_patterns w fs).parse_calls = w.parse_calls) ∧
    (fs.iteration_fails = false →
      ∃ w2 st3 tags mid,
        drop_newly_ignored (load_ignore_patterns w fs)
          ((regular_files fs w.directory_path).filter fun q =>
            should_ignore env.fnm w.directory_path (load_ignore_patterns w fs).ignore_patterns q)
          = some w2 ∧
        process_each env (fun _ => true) (w2, fs)
          (ignore_change_calls env (load_ignore_patterns w fs) fs) = some st3 ∧
        get_all_tags st3.1.tag_db = some tags ∧
        process_ignore_file_change env w fs
          = some ({ st3.1 with
              currently_ignored_files := (regular_files fs w.directory_path).filter fun q =>
                should_ignore env.fnm w.directory_path
                  (load_ignore_patterns w fs).ignore_patterns q,
              artifact_writes := st3.1.artifact_writes ++ [artifact_text env.ft tags] },
            st3.2) ∧
        st3.1.artifact_writes = w.artifact_writes ++ mid ∧
        mid.length ≤ (ignore_change_calls env (load_ignore_patterns w fs) fs).length) ∧
    (∀ p ∈ regular_files fs w.directory_path,
      should_ignore env.fnm w.directory_path (load_ignore_patterns w fs).ignore_patterns p
        = false →
      occurrences p (ignore_change_calls env (load_ignore_patterns w fs) fs) = 1) ∧
    (∀ p ∈ w.currently_ignored_files,
      ¬ (p ∈ regular_files fs w.directory_path ∧
          should_ignore env.fnm w.directory_path (load_ignore_patterns w fs).ignore_patterns p
            = true) →
      occurrences p (ignore_change_calls env (load_ignore_patterns w fs) fs) = 1) ∧
    (∀ p ∈ ignore_change_calls env (load_ignore_patterns w fs) fs,
      (p ∈ regular_files fs w.directory_path ∧
        should_ignore env.fnm w.directory_path (load_ignore_patterns w fs).ignore_patterns p
          = false) ∨
      (p ∈ w.currently_ignored_files ∧
        ¬ (p ∈ regular_files fs w.directory_path ∧
          should_ignore env.fnm w.directory_path (load_ignore_patterns w fs).ignore_patterns p
            = true))) := by
  refine ⟨?_, ?_, ?_, ?_, ?_⟩
  · intro hiter
    refine ⟨?_, rfl, rfl, rfl⟩
    simp [process_ignore_file_change, hiter]
  · intro hiter
    obtain ⟨w2, st3, tags, hw2, hst3, htags, hrun, _⟩ :=
      process_ignore_file_change_iterated env w fs hfree hiter hnodup hroot
    obtain ⟨mid, hmid, hlen⟩ := process_each_writes env _ _ _ _ hst3
    have hw : w2.artifact_writes = w.artifact_writes :=
      drop_newly_ignored_writes _ (load_ignore_patterns w fs) _ hw2
    refine ⟨w2, st3, tags, mid, hw2, hst3, htags, hrun, ?_, hlen⟩
    rw [hmid]
    exact congrArg (fun l => l ++ mid) hw
  · intro p hp hign
    exact ignore_change_calls_once env (load_ignore_patterns w fs) fs p hnodup hp hign
  · intro p hp hnew
    refine ignore_change_calls_former env (load_ignore_patterns w fs) fs p hnodup hp ?_
    intro h
    exact hnew (List.mem_filter.mp h)
  · intro p hp
    rcases mem_ignore_change_calls env (load_ignore_patterns w fs) fs p hp with h | ⟨h1, h2⟩
    · exact Or.inl h
    · exact Or.inr ⟨h1, fun h => h2 (List.mem_filter.mpr h)⟩

/-- C19, amended, at a watcher that ignored `old/c.cpp` and a tree whose ignore file now
holds `gen/`, once with a throwing and once with a working directory iteration. -/
theorem process_ignore_file_change_run_witness :
    (process_ignore_file_change sample_env ignoring_watcher fs_ignore_unreadable
        = some (load_ignore_patterns ignoring_watcher fs_ignore_unreadable,
            fs_ignore_unreadable) ∧
      (load_ignore_patterns ignoring_watcher fs_ignore_unreadable).tag_db
        = ignoring_watcher.tag_db ∧
      (load_ignore_patterns ignoring_watcher fs_ignore_unreadable).artifact_writes
        = ignoring_watcher.artifact_writes ∧
      (load_ignore_patterns ignoring_watcher fs_ignore_unreadable).parse_calls
        = ignoring_watcher.parse_calls) ∧
    (∃ w2 st3 tags mid,
      drop_newly_ignored (load_ignore_patterns ignoring_watcher fs_ignore_changed)
        ((regular_files fs_ignore_changed ignoring_watcher.directory_path).filter fun q =>
          should_ignore sample_env.fnm ignoring_watcher.directory_path
            (load_ignore_patterns ignoring_watcher fs_ignore_changed).ignore_patterns q)
        = some w2 ∧
      process_each sample_env (fun _ => true) (w2, fs_ignore_changed)
        (ignore_change_calls sample_env
          (load_ignore_patterns ignoring_watcher fs_ignore_changed) fs_ignore_changed)
        = some st3 ∧
      get_all_tags st3.1.tag_db = some tags ∧
      process_ignore_file_change sample_env ignoring_watcher fs_ignore_changed
        = some ({ st3.1 with
            currently_ignored_files :=
              (regular_files fs_ignore_changed ignoring_watcher.directory_path).filter fun q =>
                should_ignore sample_env.fnm ignoring_watcher.directory_path
                  (load_ignore_patterns ignoring_watcher fs_ignore_changed).ignore_patterns q,
            artifact_writes := st3.1.artifact_writes ++ [artifact_text sample_env.ft tags] },
          st3.2) ∧
      st3.1.artifact_writes = ignoring_watcher.artifact_writes ++ mid ∧
      mid.length ≤ (ignore_change_calls sample_env
        (load_ignore_patterns ignoring_watcher fs_ignore_changed) fs_ignore_changed).length) ∧
    ignore_change_calls sample_env
        (load_ignore_patterns ignoring_watcher fs_ignore_changed) fs_ignore_changed
      = ["/repo/old/c.cpp".toList, "/repo/.ctagsignore".toList, "/repo/a.cpp".toList] :=
  ⟨(process_ignore_file_change_run sample_env ignoring_watcher fs_ignore_unreadable rfl
      (by decide) (by decide)).1 rfl,
   (process_ignore_file_change_run sample_env ignoring_watcher fs_ignore_changed rfl
      (by decide) (by decide)).2.1 rfl,
   by decide⟩

/-- C19 as stated fails: at a watcher that ignored `old/c.cpp`, with the ignore file
changed to `gen/` and `a.cpp` touched, one run of `process_ignore_file_change` writes
the artifact three times: inside `process_file_event` for `old/c.cpp`, inside
`process_file_event` for `a.cpp`, and at the end. -/
theorem process_ignore_file_change_writes_more_than_once :
    ((process_ignore_file_change sample_env ignoring_watcher fs_ignore_changed).map
      fun st =>
        (st.1.ignore_patterns, st.1.currently_ignored_files,
         st.1.tag_db.tags_by_id.map (fun e => e.2.file_path),
         st.1.parse_calls, st.1.artifact_writes.length))
      = some (["gen/".toList], ["/repo/gen/b.cpp".toList],
          ["/repo/old/c.cpp".toList, "/repo/a.cpp".toList], 4, 3) := by
  decide

/-! ## One processing pass over a file with a single tag line -/

theorem fs_read_fs_write (fs : FileSystem) (path : Str) (lines : List Str) :
    fs_read (fs_write fs path lines) path = some lines := by
  simp [fs_read, fs_write, map_find_map_set_same]

theorem fs_write_other (fs : FileSystem) (path q : Str) (lines : List Str) (h : q ≠ path) :
    map_find (fs_write fs path lines).entries q = map_find fs.entries q := by
  simp only [fs_write]
  exact map_find_map_set_other path q _ h _

/-- C11: when line N of a file is `// TODO: ` followed by a content `c` that holds no
`CT-` and no keyword followed by `:` and does not begin with a blank, and no other
line qualifies, `parse_file` computes the lines with line N rewritten to `// TODO: id c`
for the drawn id and the other lines kept, sets `modified`, and returns exactly one
tag: that id, type `TODO`, content `c`, line N. In one pass of `process_file_event`
over such a file (not ignored, a source file, not debounced, index not locked) the
rewritten lines are what is on disk afterwards, no other path of the tree changes, and
the index holds the tag under the drawn id. -/
theorem parse_file_stamps_single_line (before after : List Str) (c : Str)
    (file_path base_dir : Str) (mtime : Int) (stat_mtime : Option Int) (rng : Nat → Fin 16)
    (hpath : file_path ≠ base_dir)
    (hct : ∀ k, ¬ occurs_at "CT-".toList c k)
    (hkw : ∀ K ∈ tag_types, ∀ k, ¬ occurs_at (K ++ [':']) c k)
    (hblank : ¬ starts_blank c)
    (hother : ∀ l ∈ before ++ after, is_tag_line l = none) :
    ∃ rel, get_file_relative_path file_path base_dir = some rel ∧
      parse_file (some (before ++ ("// TODO: ".toList ++ c) :: after)) file_path base_dir mtime
          stat_mtime rng
        = { lines := before ++ ("// TODO: ".toList ++ (generate_id rng 0).1 ++ ' ' :: c) :: after,
            modified := true,
            tags := some [{ id := (generate_id rng 0).1, type := "TODO".toList, content := c,
                            file_path := file_path, relative_path := rel,
                            line_number := before.length + 1,
                            last_modified := stat_mtime.getD mtime }] } ∧
      ∀ (env : Env) (w : FileWatcher) (fs : FileSystem) (st_mtime : Int),
        w.directory_path = base_dir → w.tag_db.db_mutex = false →
        should_ignore env.fnm w.directory_path w.ignore_patterns file_path = false →
        is_source_file (path_extension file_path) = true →
        fs_stat fs file_path = some st_mtime →
        fs_read fs file_path = some (before ++ ("// TODO: ".toList ++ c) :: after) →
        map_find w.last_known_mtime file_path ≠ some st_mtime →
        ∃ st, process_file_event env w fs file_path = some st ∧
          st.2 = fs_write fs file_path
            (before ++
              ("// TODO: ".toList ++ (generate_id (env.rng w.parse_calls) 0).1 ++ ' ' :: c)
                :: after) ∧
          fs_read st.2 file_path
            = some (before ++
                ("// TODO: ".toList ++ (generate_id (env.rng w.parse_calls) 0).1 ++ ' ' :: c)
                  :: after) ∧
          (∀ q, q ≠ file_path → map_find st.2.entries q = map_find fs.entries q) ∧
          map_find st.1.tag_db.tags_by_id (generate_id (env.rng w.parse_calls) 0).1
            = some { id := (generate_id (env.rng w.parse_calls) 0).1, type := "TODO".toList,
                     content := c, file_path := file_path, relative_path := rel,
                     line_number := before.length + 1, last_modified := fs.now } ∧
          st.1.parse_calls = w.parse_calls + 1 := by
  obtain ⟨rel, hrel, hparse⟩ := parse_file_single_line before after c file_path base_dir mtime
    stat_mtime rng hpath hct hkw hblank hother
  refine ⟨rel, hrel, hparse, ?_⟩
  intro env w fs st_mtime hdir hfree hign hsrc hstat hread hknown
  obtain ⟨rel2, hrel2, hparse2⟩ := parse_file_single_line before after c file_path base_dir
    st_mtime (some fs.now) (env.rng w.parse_calls) hpath hct hkw hblank hother
  have hrel_eq : rel2 = rel := Option.some.inj (hrel2.symm.trans hrel)
  subst hrel_eq
  have hext : path_has_extension file_path = true := by
    unfold path_has_extension
    cases hp : path_extension file_path with
    | nil => rw [hp] at hsrc; exact absurd hsrc (by decide)
    | cons a b => rfl
  obtain ⟨db1, hdb1, hfree1⟩ := remove_each_free
    ((map_find w.tag_db.file_to_ids file_path).getD []) w.tag_db hfree
  have hget : get_tag_ids_in_file w.tag_db file_path
      = some ((map_find w.tag_db.file_to_ids file_path).getD []) := by
    simp [get_tag_ids_in_file, lock_guard, hfree]
  have hadd : ∀ t : Tag, add_each db1 [t]
      = some (unlock_guard (add_tag_body { db1 with db_mutex := true } t)) := by
    intro t
    simp [add_each, add_tag, lock_guard, hfree1]
  have hres : process_file_event env w fs file_path
      = some ({ w with
          last_known_mtime := map_set w.last_known_mtime file_path st_mtime,
          tag_db := unlock_guard (add_tag_body { db1 with db_mutex := true }
            { id := (generate_id (env.rng w.parse_calls) 0).1, type := "TODO".toList,
              content := c, file_path := file_path, relative_path := rel2,
              line_number := before.length + 1, last_modified := fs.now }),
          parse_calls := w.parse_calls + 1,
          artifact_writes := w.artifact_writes ++
            [artifact_text env.ft
              ((unlock_guard (add_tag_body { db1 with db_mutex := true }
                { id := (generate_id (env.rng w.parse_calls) 0).1, type := "TODO".toList,
                  content := c, file_path := file_path, relative_path := rel2,
                  line_number := before.length + 1,
                  last_modified := fs.now })).tags_by_id.map fun e => e.2)] },
        fs_write fs file_path
          (before ++
            ("// TODO: ".toList ++ (generate_id (env.rng w.parse_calls) 0).1 ++ ' ' :: c)
              :: after)) := by
    unfold process_file_event
    rw [if_neg (by simp [hign]), if_neg (by simp [hext]), if_neg (by simp [hsrc])]
    simp only [hstat]
    rw [if_neg hknown]
    simp only [reparse_file, hread, hdir, hparse2, hget, hdb1, hadd, update_codetags_file,
      get_all_tags, lock_guard, unlock_guard, Bool.false_eq_true, if_false, if_true,
      Option.map_some', Option.getD_some]
  refine ⟨_, hres, rfl, fs_read_fs_write _ _ _, fun q hq => fs_write_other _ _ _ _ hq, ?_, rfl⟩
  simp only [unlock_guard, add_tag_body]
  exact map_find_map_set_same _ _ _

/-- C11 for the file `int x;`, `// TODO: fix this`: as `/repo/a.cpp` of the sample tree
it carries the line `// TODO: CT-AAAAAAAA fix this` after one pass. -/
theorem parse_file_stamps_single_line_witness :
    ∃ rel, get_file_relative_path "/repo/a.cpp".toList "/repo".toList = some rel ∧
      parse_file (some (["int x;".toList] ++ ("// TODO: ".toList ++ "fix this".toList) :: []))
          "/repo/a.cpp".toList "/repo".toList 5 (some 7) (rng_const 10)
        = { lines := ["int x;".toList] ++
              ("// TODO: ".toList ++ (generate_id (rng_const 10) 0).1 ++ ' ' :: "fix this".toList)
                :: [],
            modified := true,
            tags := some [{ id := (generate_id (rng_const 10) 0).1, type := "TODO".toList,
                            content := "fix this".toList, file_path := "/repo/a.cpp".toList,
                            relative_path := rel,
                            line_number := ["int x;".toList].length + 1,
                            last_modified := (some (7 : Int)).getD 5 }] } ∧
      ∃ st, process_file_event sample_env sample_watcher fs_todo "/repo/a.cpp".toList = some st ∧
        st.2 = fs_write fs_todo "/repo/a.cpp".toList
          (["int x;".toList] ++
            ("// TODO: ".toList ++ (generate_id (sample_env.rng sample_watcher.parse_calls) 0).1
              ++ ' ' :: "fix this".toList) :: []) ∧
        fs_read st.2 "/repo/a.cpp".toList
          = some (["int x;".toList] ++
              ("// TODO: ".toList ++ (generate_id (sample_env.rng sample_watcher.parse_calls) 0).1
                ++ ' ' :: "fix this".toList) :: []) ∧
        (∀ q, q ≠ "/repo/a.cpp".toList →
          map_find st.2.entries q = map_find fs_todo.entries q) ∧
        map_find st.1.tag_db.tags_by_id (generate_id (sample_env.rng sample_watcher.parse_calls) 0).1
          = some { id := (generate_id (sample_env.rng sample_watcher.parse_calls) 0).1,
                   type := "TODO".toList, content := "fix this".toList,
                   file_path := "/repo/a.cpp".toList, relative_path := rel,
                   line_number := ["int x;".toList].length + 1, last_modified := fs_todo.now } ∧
        st.1.parse_calls = sample_watcher.parse_calls + 1 :=
  (parse_file_stamps_single_line ["int x;".toList] [] "fix this".toList "/repo/a.cpp".toList
    "/repo".toList 5 (some 7) (rng_const 10) (by decide)
    (fun k => find_none (by decide : find "fix this".toList "CT-".toList 0 = none) k
      (Nat.zero_le k))
    (fun K hK k =>
      find_none ((by decide : ∀ K ∈ tag_types, find "fix this".toList (K ++ [':']) 0 = none) K hK)
        k (Nat.zero_le k))
    (by decide) (by decide)).elim fun rel h =>
      ⟨rel, h.1, h.2.1, h.2.2 sample_env sample_watcher fs_todo 5 rfl rfl (by decide) (by decide)
        (by decide) (by decide) (by decide)⟩

end Codetags
